import Mathlib

/-!
# Shallow embedding of `github.com/avdva/fixed` (package `fixed`, value.go)

The repository implements an unsigned decimal floating-point Value packed
into a single `uint64`: 8 high bits store a biased exponent, the low 56 bits
the mantissa.  This file embeds the constants, the packed representation,
and the operations of `src/value.go` (together with the constant file that
defines `signBit`, `expBits`, `bias`, `maxExponent`, `minExponent`,
`expMask`, `mantMask` for the 8-bit-exponent variant) as executable Lean
definitions, and proves or refutes the specification claims about them.

Machine integers are modelled as `ℕ` / `ℤ` with explicit reductions
`% 2^64` (for Go's `uint64`) and explicit two's-complement wraps (for Go's
`int64` / `int32`) at the places where overflow is reachable.  Go loops are
modelled by structural recursion on an explicit fuel argument that is at
least as large as the number of iterations the Go loop can perform, so the
Lean function computes exactly the loop's result.
-/

namespace Fixed

/-- `2^64`, the modulus of Go's `uint64` arithmetic. -/
def U64 : ℕ := 2 ^ 64

/-- Two's-complement wrap of an integer to Go's `int64`. -/
def wrap64 (x : ℤ) : ℤ := (x + 2 ^ 63) % 2 ^ 64 - 2 ^ 63

/-- Two's-complement wrap of an integer to Go's `int32` (`expType`). -/
def wrap32 (x : ℤ) : ℤ := (x + 2 ^ 31) % 2 ^ 32 - 2 ^ 31

/-! ## Constants

From the constant file of the 8-bit-exponent variant:
`signBit = 0`, `expBits = 8`, `bias = -(1<<(expBits-1) - 1)`,
`maxExponent = 1 << (expBits - 1)`, `minExponent = bias`,
`expMask = 1<<expBits - 1`, `mantMask = 1<<mantBits - 1`;
and from value.go: `bitsInNumber = 64`,
`mantBits = bitsInNumber - expBits - signBit`, `maxMantissa = mantMask`,
`minMantissa = 1`, `maxNumber = 1<<bitsInNumber - 1`. -/

def signBit : ℕ := 0

def expBits : ℕ := 8

def bitsInNumber : ℕ := 64

def mantBits : ℕ := bitsInNumber - expBits - signBit

def bias : ℤ := -(2 ^ (expBits - 1) - 1)

def maxExponent : ℤ := 2 ^ (expBits - 1)

def minExponent : ℤ := bias

def expMask : ℕ := 2 ^ expBits - 1

def mantMask : ℕ := 2 ^ mantBits - 1

def maxMantissa : ℕ := mantMask

def minMantissa : ℕ := 1

def maxNumber : ℕ := 2 ^ bitsInNumber - 1

/-- `decimalFactorTable`: powers of ten up to `1e19`. -/
def decimalFactorTable : List ℕ :=
  [1, 10, 100, 1000, 10000,
   100000, 1000000, 10000000, 100000000, 1000000000, 10000000000,
   100000000000, 1000000000000, 10000000000000, 100000000000000,
   1000000000000000, 10000000000000000, 100000000000000000,
   1000000000000000000, 10000000000000000000]

/-- `digitsHelper`: correction lookup indexed by binary digit count. -/
def digitsHelper : List ℕ :=
  [0, 0, 0, 0, 1, 1, 1, 2, 2, 2,
   3, 3, 3, 3, 4, 4, 4, 5, 5, 5,
   6, 6, 6, 6, 7, 7, 7, 8, 8, 8,
   9, 9, 9, 9, 10, 10, 10, 11, 11, 11,
   12, 12, 12, 12, 13, 13, 13, 14, 14, 14,
   15, 15, 15, 15, 16, 16, 16, 17, 17, 17,
   18, 18, 18, 18, 19]

/-! ## Arithmetic kernel helpers -/

/-- Fuel-driven binary digit count: `binDigitsAux fuel v` is the bit length
of `v` provided `fuel` bounds it.  Mirrors
`binaryDigits(value) = 64 - bits.LeadingZeros64(value)`. -/
def binDigitsAux : ℕ → ℕ → ℕ
  | 0, _ => 0
  | fuel + 1, v => if v = 0 then 0 else binDigitsAux fuel (v / 2) + 1

/-- `binaryDigits(value)`: the bit length of a `uint64`. -/
def binaryDigits (value : ℕ) : ℕ := binDigitsAux 64 value

/-- `decimalDigits(value)`: decimal digit count via the helper tables;
1 for zero. -/
def decimalDigits (value : ℕ) : ℕ :=
  if value = 0 then 1
  else if decimalFactorTable.getD (digitsHelper.getD (binaryDigits value) 0) 0 ≤ value
    then digitsHelper.getD (binaryDigits value) 0 + 1
    else digitsHelper.getD (binaryDigits value) 0

/-- `pow10(pow)`: `10^pow` for `0 ≤ pow ≤ 19`, the `0` sentinel outside. -/
def pow10 (pow : ℤ) : ℕ :=
  if pow < 0 ∨ 20 ≤ pow then 0 else decimalFactorTable.getD pow.toNat 0

/-- `log10(a) = decimalDigits(a) - 1`. -/
def log10 (a : ℕ) : ℕ := decimalDigits a - 1

/-! ## Value representation -/

/-- A `Value` is a `uint64` word; we model the word as a natural number.
All accessors mask, so values `≥ 2^64` never arise from the operations. -/
abbrev Value : Type := ℕ

/-- `exp(v) = expType(v>>mantBits&expMask) + bias`. -/
def exp (v : Value) : ℤ := ((v >>> mantBits) &&& expMask : ℕ) + bias

/-- `mant(v) = number(v & mantMask)`. -/
def mant (v : Value) : ℕ := v &&& mantMask

/-- `split(v) = (mant v, exp v)`. -/
def split (v : Value) : ℕ × ℤ := (mant v, exp v)

/-- `fromMantAndExp(mant, exp) = Value(number(exp-bias)<<mantBits | (mant & mantMask))`.
The conversion `number(exp-bias)` is two's-complement; shifting left by 56
keeps the low 8 bits of `exp - bias` in the exponent field. -/
def fromMantAndExp (m : ℕ) (e : ℤ) : Value :=
  ((((e - bias) % (2 ^ 64 : ℤ)).toNat <<< mantBits) % U64) ||| (m &&& mantMask)

/-- The canonical zero value. -/
def zero : Value := 0

/-- `Max`, the maximum fixed-point value. -/
def Max : Value := fromMantAndExp maxMantissa maxExponent

/-- `Min`, the minimum positive fixed-point value. -/
def Min : Value := fromMantAndExp minMantissa minExponent

/-- Numeric value of `v`, scaled by `10^127` so that it is a natural number
(the exponent is at least `-127` for every word). -/
def natVal (v : Value) : ℕ := mant v * 10 ^ (exp v + 127).toNat

/-! ## trimZeros / adjustMantExp -/

/-- One fuel-counted unfolding of Go's
`for e < eMax && m%10 == 0 { m /= 10; e++ }`. -/
def trimZerosAux : ℕ → ℕ → ℤ → ℤ → ℕ × ℤ
  | 0, m, e, _ => (m, e)
  | fuel + 1, m, e, eMax =>
      if e < eMax ∧ m % 10 = 0 then trimZerosAux fuel (m / 10) (e + 1) eMax
      else (m, e)

/-- `trimZeros(m, e, eMax)`: strip trailing zeros, incrementing the exponent,
stopping at `eMax`.  The loop runs at most `eMax - e` times, which the fuel
covers exactly. -/
def trimZeros (m : ℕ) (e eMax : ℤ) : ℕ × ℤ :=
  trimZerosAux (eMax - e).toNat m e eMax

/-- First loop of `adjustMantExp`:
`for (m > maxMantissa || e < minExponent) && m > 0 && e+1 < maxExponent`.
Each iteration divides `m` by 10, so `m` fuel steps always suffice. -/
def adjustLoop1 : ℕ → ℕ → ℤ → ℕ × ℤ
  | 0, m, e => (m, e)
  | fuel + 1, m, e =>
      if (maxMantissa < m ∨ e < minExponent) ∧ 0 < m ∧ e + 1 < maxExponent then
        adjustLoop1 fuel (m / 10) (e + 1)
      else (m, e)

/-- Second loop of `adjustMantExp`:
`for e > maxExponent && m*10 < maxMantissa { m *= 10; e-- }`.
Each iteration decrements `e`, so `(e - maxExponent)` fuel steps suffice. -/
def adjustLoop2 : ℕ → ℕ → ℤ → ℕ × ℤ
  | 0, m, e => (m, e)
  | fuel + 1, m, e =>
      if maxExponent < e ∧ m * 10 % U64 < maxMantissa then
        adjustLoop2 fuel (m * 10 % U64) (e - 1)
      else (m, e)

/-- `adjustMantExp(m, e)`: the canonicalizing constructor.  Divides an
oversized mantissa (or grows an undersized exponent), multiplies a mantissa
under an oversized exponent, then saturates to `zero` / `Max`. -/
def adjustMantExp (m : ℕ) (e : ℤ) : Value :=
  let p1 := adjustLoop1 (m + 1) m e
  let p2 := adjustLoop2 (p1.2 - maxExponent).toNat p1.1 p1.2
  if p2.1 = 0 ∨ p2.2 < minExponent then zero
  else if maxExponent < p2.2 then Max
  else fromMantAndExp p2.1 p2.2

/-- `FromMantAndExp(mant uint64, exp int32)`: public constructor. -/
def FromMantAndExp (m : ℕ) (e : ℤ) : Value := adjustMantExp (m % U64) (wrap32 e)

/-- `FromUint64(v uint64)`. -/
def FromUint64 (v : ℕ) : Value := adjustMantExp (v % U64) 0

/-- `Normalized(v)`: eliminate trailing mantissa zeros, stopping at the
maximum exponent. -/
def Normalized (v : Value) : Value :=
  let me := split v
  if me.1 = 0 then zero
  else
    let p := trimZeros me.1 me.2 maxExponent
    fromMantAndExp p.1 p.2

/-! ## Comparison -/

/-- `uint64Cmp`. -/
def uint64Cmp (a b : ℕ) : ℤ :=
  if b < a then 1 else if a < b then -1 else 0

/-- `Cmp(v, other)`: compare two values; `-1`, `0`, or `1`. -/
def Cmp (v other : Value) : ℤ :=
  let m1 := mant v
  let e1 := exp v
  let m2 := mant other
  let e2 := exp other
  let ediff := e1 - e2
  if ediff = 0 ∨ m1 = 0 ∨ m2 = 0 then uint64Cmp m1 m2
  else
    let maxDigit1 := e1 + decimalDigits m1
    let maxDigit2 := e2 + decimalDigits m2
    if maxDigit2 < maxDigit1 then 1
    else if maxDigit1 < maxDigit2 then -1
    else if 0 < ediff then uint64Cmp (m1 * pow10 ediff % U64) m2
    else uint64Cmp m1 (m2 * pow10 (-ediff) % U64)

/-- `Eq(v, other)`. -/
def Eq (v other : Value) : Bool :=
  if v = other then true else Normalized v = Normalized other

/-- `IsZero(v)`. -/
def IsZero (v : Value) : Bool := mant v = 0

/-! ## Multiplication -/

/-- `mul64(a, b)`: 128-bit product; when the high word is non-zero, divide
by the smallest power of ten that makes the result fit a `uint64` again.
(`bits.Div64(hi, lo, toDiv)` computes `(hi·2^64 + lo) / toDiv`; for every
reachable call `hi < toDiv`, so the quotient fits and Go does not panic.) -/
def mul64 (a b : ℕ) : ℕ × ℕ :=
  let hi := a * b / U64
  if 0 < hi then
    let expShift := decimalDigits hi
    (a * b / pow10 expShift, expShift)
  else (a * b % U64, 0)

/-- `Mul(v, other)`: normalize both operands, multiply mantissas through the
128-bit kernel, add exponents, canonicalize. -/
def Mul (v other : Value) : Value :=
  let v' := Normalized v
  let other' := Normalized other
  let m1 := mant v'
  let e1 := exp v'
  let m2 := mant other'
  let e2 := exp other'
  if m1 = 0 ∨ m2 = 0 then zero
  else
    let p := mul64 m1 m2
    adjustMantExp p.1 (e1 + e2 + p.2)

end Fixed

namespace Fixed

/-! ## Claim C2: exponent range -/

/-- C2 (counterexample): the claim states `MAX_EXP = 2^(8-1) - 1 = 127` and
that the exponent of `Max` is at most `127`.  In the code
`maxExponent = 1 << (expBits - 1) = 128`, and the exponent stored in `Max`
is `128`, so the claim as stated is false. -/
theorem exp_Max_eq_128_not_le_127 : exp Max = 128 ∧ ¬ exp Max ≤ 127 := by
  decide

/-- C2 (amended): every value's stored exponent lies in
`[minExponent, maxExponent]` where `minExponent = -127` and
`maxExponent = 2^(8-1) = 128` (not `127`); the exponent of `Max` is
exactly `maxExponent = 128`. -/
theorem exp_range_and_Max :
    (∀ v : Value, minExponent ≤ exp v ∧ exp v ≤ maxExponent) ∧
      exp Max = maxExponent ∧ maxExponent = 128 ∧ minExponent = -127 := by
  refine ⟨fun v => ?_, by decide, by decide, by decide⟩
  have h : (((v >>> mantBits) &&& expMask : ℕ) : ℤ) ≤ 255 := by
    exact_mod_cast le_trans Nat.and_le_right
      (show expMask ≤ 255 by norm_num [expMask, expBits])
  have he : exp v = ((v >>> mantBits) &&& expMask : ℕ) + bias := rfl
  have hb : bias = -127 := by norm_num [bias, expBits]
  have h1 : minExponent = -127 := by norm_num [minExponent, bias, expBits]
  have h2 : maxExponent = 128 := by norm_num [maxExponent, expBits]
  rw [he, hb, h1, h2]
  omega

/-! ## Claim C1: saturation of Max under multiplication -/

/-- C1: the claim (and `Mul`'s own documentation) states that a product
overflowing `Max` saturates to `Max`; in particular `Max.Mul(v) = Max` for
every `v ≥ 1`.  At `v = FromMantAndExp (10^16+1) (-16)`, numerically
`1.0000000000000001 ≥ 1`, the canonicalization loop in `adjustMantExp`
stops at exponent `127` with a mantissa still above `maxMantissa`, and
`fromMantAndExp` silently masks it: the result is the value `62·10^127`,
not `Max`. -/
theorem mul_Max_not_saturating :
    10 ^ 127 ≤ natVal (FromMantAndExp (10 ^ 16 + 1) (-16)) ∧
      Mul Max (FromMantAndExp (10 ^ 16 + 1) (-16)) = fromMantAndExp 62 127 ∧
      Mul Max (FromMantAndExp (10 ^ 16 + 1) (-16)) ≠ Max := by
  refine ⟨by decide, by decide, by decide⟩

end Fixed

namespace Fixed

/-! ## Representation lemmas -/

theorem lor_shiftLeft_add {a b k : ℕ} (hb : b < 2 ^ k) :
    (a <<< k) ||| b = a * 2 ^ k + b := by
  have h : a * 2 ^ k + b = 2 ^ k * a + b := by ring_nf
  rw [h]
  apply Nat.eq_of_testBit_eq
  intro i
  rw [Nat.testBit_mul_pow_two_add a hb i]
  simp only [Nat.testBit_or, Nat.testBit_shiftLeft]
  by_cases hik : i < k
  · simp [hik, Nat.not_le.mpr hik]
  · have h' : k ≤ i := Nat.not_lt.mp hik
    have hbz : b.testBit i = false :=
      Nat.testBit_lt_two_pow (lt_of_lt_of_le hb (Nat.pow_le_pow_right (by norm_num) h'))
    simp [hik, h', hbz]

theorem mantMask_eq : mantMask = 2 ^ 56 - 1 := by
  norm_num [mantMask, mantBits, bitsInNumber, expBits, signBit]

theorem maxMantissa_eq : maxMantissa = 72057594037927935 := by
  norm_num [maxMantissa, mantMask_eq]

theorem mant_le (v : Value) : mant v ≤ maxMantissa := by
  rw [maxMantissa]; exact Nat.and_le_right

theorem mant_lt_two_pow (v : Value) : mant v < 2 ^ 56 := by
  have h := mant_le v
  rw [maxMantissa_eq] at h
  omega

/-- For mantissas below `2^56` and exponents in `[-127, 128]`,
`fromMantAndExp` packs exactly. -/
theorem fromMantAndExp_eq {m : ℕ} {e : ℤ} (hm : m < 2 ^ 56)
    (he1 : -127 ≤ e) (he2 : e ≤ 128) :
    fromMantAndExp m e = (e + 127).toNat * 2 ^ 56 + m := by
  unfold fromMantAndExp
  have hb : bias = -127 := by norm_num [bias, expBits]
  have hmb : mantBits = 56 := by norm_num [mantBits, bitsInNumber, expBits, signBit]
  have h1 : (e - bias) % (2 ^ 64 : ℤ) = e + 127 := by
    rw [hb]
    exact Int.emod_eq_of_lt (by omega) (by omega)
  rw [h1, hmb]
  have h2 : (e + 127).toNat ≤ 255 := by omega
  have h3 : (e + 127).toNat <<< 56 < U64 := by
    have : (e + 127).toNat <<< 56 = (e + 127).toNat * 2 ^ 56 := Nat.shiftLeft_eq _ _
    rw [this, U64]
    calc (e + 127).toNat * 2 ^ 56 ≤ 255 * 2 ^ 56 := by
          exact Nat.mul_le_mul_right _ h2
      _ < 2 ^ 64 := by norm_num
  rw [Nat.mod_eq_of_lt h3]
  have h4 : m &&& mantMask = m := by
    rw [mantMask_eq, Nat.and_pow_two_sub_one_eq_mod, Nat.mod_eq_of_lt hm]
  rw [h4, lor_shiftLeft_add hm]

theorem mant_fromMantAndExp {m : ℕ} {e : ℤ} (hm : m < 2 ^ 56)
    (he1 : -127 ≤ e) (he2 : e ≤ 128) :
    mant (fromMantAndExp m e) = m := by
  rw [fromMantAndExp_eq hm he1 he2]
  unfold mant
  rw [mantMask_eq, Nat.and_pow_two_sub_one_eq_mod, Nat.mul_comm,
    Nat.mul_add_mod, Nat.mod_eq_of_lt hm]

theorem exp_fromMantAndExp {m : ℕ} {e : ℤ} (hm : m < 2 ^ 56)
    (he1 : -127 ≤ e) (he2 : e ≤ 128) :
    exp (fromMantAndExp m e) = e := by
  rw [fromMantAndExp_eq hm he1 he2]
  unfold exp
  have hmb : mantBits = 56 := by norm_num [mantBits, bitsInNumber, expBits, signBit]
  have hb : bias = -127 := by norm_num [bias, expBits]
  have h2 : (e + 127).toNat ≤ 255 := by omega
  have h1 : ((e + 127).toNat * 2 ^ 56 + m) >>> 56 = (e + 127).toNat := by
    rw [Nat.shiftRight_eq_div_pow, Nat.mul_comm, Nat.mul_add_div (by norm_num),
      Nat.div_eq_of_lt hm, Nat.add_zero]
  rw [hmb, h1]
  have h3 : (e + 127).toNat &&& expMask = (e + 127).toNat := by
    have : expMask = 2 ^ 8 - 1 := by norm_num [expMask, expBits]
    rw [this, Nat.and_pow_two_sub_one_eq_mod, Nat.mod_eq_of_lt (by omega)]
  rw [h3, hb]
  omega

theorem natVal_fromMantAndExp {m : ℕ} {e : ℤ} (hm : m < 2 ^ 56)
    (he1 : -127 ≤ e) (he2 : e ≤ 128) :
    natVal (fromMantAndExp m e) = m * 10 ^ (e + 127).toNat := by
  unfold natVal
  rw [mant_fromMantAndExp hm he1 he2, exp_fromMantAndExp hm he1 he2]

theorem mant_zero : mant zero = 0 := by decide

theorem natVal_zero : natVal zero = 0 := by decide

theorem exp_ge (v : Value) : -127 ≤ exp v :=
  (exp_range_and_Max.1 v).1.trans_eq' (by norm_num [minExponent, bias, expBits])

theorem exp_le (v : Value) : exp v ≤ 128 :=
  ((exp_range_and_Max.1 v).2).trans_eq (by norm_num [maxExponent, expBits])

end Fixed

namespace Fixed

/-! ## Decimal digit count: correctness -/

theorem binDigitsAux_zero : ∀ fuel : ℕ, binDigitsAux fuel 0 = 0
  | 0 => rfl
  | _ + 1 => by rw [binDigitsAux, if_pos rfl]

theorem binDigitsAux_spec : ∀ fuel v : ℕ, 0 < v → v < 2 ^ fuel →
    2 ^ (binDigitsAux fuel v - 1) ≤ v ∧ v < 2 ^ binDigitsAux fuel v ∧
      1 ≤ binDigitsAux fuel v ∧ binDigitsAux fuel v ≤ fuel
  | 0, v => by intro h1 h2; omega
  | fuel + 1, v => by
    intro h1 h2
    rw [binDigitsAux]
    rw [if_neg (by omega)]
    by_cases hv : v / 2 = 0
    · have hv1 : v = 1 := by omega
      subst hv1
      rw [hv, binDigitsAux_zero]
      norm_num
    · have h1' : 0 < v / 2 := Nat.pos_of_ne_zero hv
      have h2' : v / 2 < 2 ^ fuel := by
        have := Nat.pow_succ 2 fuel
        omega
      obtain ⟨a, b, c, d⟩ := binDigitsAux_spec fuel (v / 2) h1' h2'
      set bd := binDigitsAux fuel (v / 2) with hbd
      refine ⟨?_, ?_, by omega, by omega⟩
      · have he : bd + 1 - 1 = (bd - 1) + 1 := by omega
        rw [he, pow_succ]
        omega
      · rw [pow_succ]
        omega

/-- The decimal lookup facts behind `decimalDigits`, one for each possible
bit length `1 ≤ L ≤ 64`. -/
theorem digitsHelper_facts : ∀ L : ℕ, L < 65 → 1 ≤ L →
    digitsHelper.getD L 0 ≤ 19 ∧
      2 ^ L ≤ 10 ^ (digitsHelper.getD L 0 + 1) ∧
      (1 ≤ digitsHelper.getD L 0 → 10 ^ (digitsHelper.getD L 0 - 1) ≤ 2 ^ (L - 1)) := by
  decide

theorem decimalFactorTable_getD : ∀ d : ℕ, d < 20 →
    decimalFactorTable.getD d 0 = 10 ^ d := by
  decide

/-- Correctness of the table-driven digit count: for `0 < v < 2^64`,
`decimalDigits v` is the number of decimal digits of `v`. -/
theorem decimalDigits_spec {v : ℕ} (h1 : 0 < v) (h2 : v < 2 ^ 64) :
    10 ^ (decimalDigits v - 1) ≤ v ∧ v < 10 ^ decimalDigits v := by
  obtain ⟨hl, hu, hge, hle⟩ := binDigitsAux_spec 64 v h1 h2
  set L := binDigitsAux 64 v with hL
  have hbd : binaryDigits v = L := rfl
  obtain ⟨hd19, hfact1, hfact2⟩ := digitsHelper_facts L (by omega) hge
  set d := digitsHelper.getD L 0 with hd
  unfold decimalDigits
  rw [if_neg (by omega), hbd, ← hd]
  rw [decimalFactorTable_getD d (by omega)]
  by_cases hbump : 10 ^ d ≤ v
  · rw [if_pos hbump]
    refine ⟨by simpa using hbump, ?_⟩
    calc v < 2 ^ L := hu
      _ ≤ 10 ^ (d + 1) := hfact1
  · rw [if_neg hbump]
    push_neg at hbump
    refine ⟨?_, hbump⟩
    rcases Nat.eq_zero_or_pos d with hd0 | hdpos
    · rw [hd0] at hbump
      omega
    · calc 10 ^ (d - 1) ≤ 2 ^ (L - 1) := hfact2 hdpos
        _ ≤ v := hl

theorem decimalDigits_pos (v : ℕ) : 1 ≤ decimalDigits v := by
  unfold decimalDigits
  by_cases h0 : v = 0
  · rw [if_pos h0]
  · rw [if_neg h0]
    by_cases hb : decimalFactorTable.getD (digitsHelper.getD (binaryDigits v) 0) 0 ≤ v
    · rw [if_pos hb]; omega
    · rw [if_neg hb]
      by_cases hd : digitsHelper.getD (binaryDigits v) 0 = 0
      · rw [hd] at hb
        have : decimalFactorTable.getD 0 0 = 1 := by decide
        omega
      · omega

theorem decimalDigits_le_20 {v : ℕ} (h2 : v < 2 ^ 64) : decimalDigits v ≤ 20 := by
  rcases Nat.eq_zero_or_pos v with h0 | h1
  · subst h0; decide
  · obtain ⟨_, _, hge, hle⟩ := binDigitsAux_spec 64 v h1 h2
    have hbd : binaryDigits v = binDigitsAux 64 v := rfl
    obtain ⟨hd19, _, _⟩ := digitsHelper_facts (binDigitsAux 64 v) (by omega) hge
    unfold decimalDigits
    rw [if_neg (by omega), hbd]
    split <;> omega

theorem pow10_eq {p : ℤ} (h0 : 0 ≤ p) (h1 : p ≤ 19) : pow10 p = 10 ^ p.toNat := by
  unfold pow10
  rw [if_neg (by omega)]
  exact decimalFactorTable_getD p.toNat (by omega)

theorem pow10_eq_zero {p : ℤ} (h : p < 0 ∨ 20 ≤ p) : pow10 p = 0 := by
  unfold pow10
  rw [if_pos h]

end Fixed

namespace Fixed

/-! ## trimZeros and Normalized: specifications -/

theorem trimZerosAux_spec : ∀ (fuel m : ℕ) (e eMax : ℤ),
    m = (trimZerosAux fuel m e eMax).1 * 10 ^ ((trimZerosAux fuel m e eMax).2 - e).toNat ∧
      e ≤ (trimZerosAux fuel m e eMax).2 ∧
      (trimZerosAux fuel m e eMax).2 ≤ e + fuel ∧
      ((trimZerosAux fuel m e eMax).2 = e + fuel ∨
        ¬((trimZerosAux fuel m e eMax).2 < eMax ∧ (trimZerosAux fuel m e eMax).1 % 10 = 0))
  | 0, m, e, eMax => by
    rw [trimZerosAux]
    refine ⟨by simp, le_refl _, by omega, Or.inl (by omega)⟩
  | fuel + 1, m, e, eMax => by
    rw [trimZerosAux]
    by_cases hg : e < eMax ∧ m % 10 = 0
    · rw [if_pos hg]
      obtain ⟨ih1, ih2, ih3, ih4⟩ := trimZerosAux_spec fuel (m / 10) (e + 1) eMax
      set p := trimZerosAux fuel (m / 10) (e + 1) eMax with hp
      refine ⟨?_, by omega, by omega, by omega⟩
      have hk : (p.2 - e).toNat = (p.2 - (e + 1)).toNat + 1 := by omega
      rw [hk, pow_succ]
      have hm : m = m / 10 * 10 := by omega
      calc m = m / 10 * 10 := hm
        _ = p.1 * 10 ^ (p.2 - (e + 1)).toNat * 10 := by rw [← ih1]
        _ = p.1 * (10 ^ (p.2 - (e + 1)).toNat * 10) := by ring
    · rw [if_neg hg]
      exact ⟨by simp, le_refl _, by omega, Or.inr hg⟩

theorem trimZeros_spec {m : ℕ} {e eMax : ℤ} (he : e ≤ eMax) :
    m = (trimZeros m e eMax).1 * 10 ^ ((trimZeros m e eMax).2 - e).toNat ∧
      e ≤ (trimZeros m e eMax).2 ∧ (trimZeros m e eMax).2 ≤ eMax ∧
      ((trimZeros m e eMax).2 = eMax ∨ (trimZeros m e eMax).1 % 10 ≠ 0) := by
  obtain ⟨h1, h2, h3, h4⟩ := trimZerosAux_spec (eMax - e).toNat m e eMax
  rw [trimZeros]
  have hf : e + ((eMax - e).toNat : ℤ) = eMax := by omega
  refine ⟨h1, h2, by omega, ?_⟩
  rcases h4 with h | h
  · exact Or.inl (by omega)
  · by_cases hmax : (trimZerosAux (eMax - e).toNat m e eMax).2 = eMax
    · exact Or.inl hmax
    · exact Or.inr (fun hc => h ⟨by omega, hc⟩)

/-- `Normalized v` unfolds to `fromMantAndExp` of its `trimZeros`. -/
theorem Normalized_def (v : Value) (h : mant v ≠ 0) :
    Normalized v =
      fromMantAndExp (trimZeros (mant v) (exp v) maxExponent).1
        (trimZeros (mant v) (exp v) maxExponent).2 := by
  unfold Normalized split
  rw [if_neg h]

theorem maxExponent_eq : maxExponent = 128 := by norm_num [maxExponent, expBits]

theorem mant_exp_Normalized (v : Value) (h : mant v ≠ 0) :
    mant (Normalized v) = (trimZeros (mant v) (exp v) maxExponent).1 ∧
      exp (Normalized v) = (trimZeros (mant v) (exp v) maxExponent).2 := by
  have he := exp_le v
  have hge := exp_ge v
  have hmx := maxExponent_eq
  obtain ⟨h1, h2, h3, _⟩ := @trimZeros_spec (mant v) (exp v) maxExponent (by omega)
  rw [Normalized_def v h]
  set p := trimZeros (mant v) (exp v) maxExponent with hp
  have hm1 : p.1 ≤ mant v := by
    conv_rhs => rw [h1]
    exact Nat.le_mul_of_pos_right _ (Nat.pos_pow_of_pos _ (by norm_num))
  have hlt : p.1 < 2 ^ 56 := lt_of_le_of_lt hm1 (mant_lt_two_pow v)
  exact ⟨mant_fromMantAndExp hlt (by omega) (by omega),
    exp_fromMantAndExp hlt (by omega) (by omega)⟩

theorem natVal_Normalized (v : Value) : natVal (Normalized v) = natVal v := by
  by_cases h : mant v = 0
  · unfold Normalized split
    rw [if_pos h, natVal_zero]
    unfold natVal
    rw [h, zero_mul]
  · have he := exp_le v
    have hge := exp_ge v
    have hmx := maxExponent_eq
    obtain ⟨h1, h2, h3, _⟩ := @trimZeros_spec (mant v) (exp v) maxExponent (by omega)
    obtain ⟨hm, hexp⟩ := mant_exp_Normalized v h
    unfold natVal
    rw [hm, hexp]
    set p := trimZeros (mant v) (exp v) maxExponent with hp
    conv_rhs => rw [h1]
    rw [mul_assoc, ← pow_add]
    congr 2
    omega

end Fixed

namespace Fixed

/-! ## Canonicality of `Normalized` -/

theorem natVal_eq_zero_iff (v : Value) : natVal v = 0 ↔ mant v = 0 := by
  unfold natVal
  have hp : 0 < 10 ^ (exp v + 127).toNat := Nat.pos_pow_of_pos _ (by norm_num)
  constructor
  · intro h
    rcases Nat.mul_eq_zero.mp h with h | h
    · exact h
    · omega
  · intro h; rw [h, zero_mul]

theorem Normalized_of_mant_zero {v : Value} (h : mant v = 0) :
    Normalized v = zero := by
  unfold Normalized split
  rw [if_pos h]

theorem mant_Normalized_pos {v : Value} (h : mant v ≠ 0) :
    0 < mant (Normalized v) := by
  have he := exp_le v
  have hge := exp_ge v
  have hmx := maxExponent_eq
  obtain ⟨h1, _, _, _⟩ := @trimZeros_spec (mant v) (exp v) maxExponent (by omega)
  obtain ⟨hm, _⟩ := mant_exp_Normalized v h
  rw [hm]
  rcases Nat.eq_zero_or_pos (trimZeros (mant v) (exp v) maxExponent).1 with h0 | hp
  · rw [h0, zero_mul] at h1
    exact absurd h1 h
  · exact hp

theorem Normalized_canon {v : Value} (h : mant v ≠ 0) :
    exp (Normalized v) = 128 ∨ mant (Normalized v) % 10 ≠ 0 := by
  have he := exp_le v
  have hge := exp_ge v
  have hmx := maxExponent_eq
  obtain ⟨_, _, _, h4⟩ := @trimZeros_spec (mant v) (exp v) maxExponent (by omega)
  obtain ⟨hm, hexp⟩ := mant_exp_Normalized v h
  rw [hm, hexp]
  rcases h4 with h4 | h4
  · exact Or.inl (by omega)
  · exact Or.inr h4

/-- Uniqueness of the canonical mantissa/exponent pair for a given numeric
value. -/
theorem canon_unique {m1 m2 : ℕ} {e1 e2 : ℤ} (h1 : 0 < m1) (h2 : 0 < m2)
    (hr1 : e1 ≤ 128) (hr2 : e2 ≤ 128)
    (hlow1 : -127 ≤ e1) (hlow2 : -127 ≤ e2)
    (hc1 : e1 = 128 ∨ m1 % 10 ≠ 0)
    (heq : m1 * 10 ^ (e1 + 127).toNat = m2 * 10 ^ (e2 + 127).toNat)
    (hle : e1 ≤ e2) : m1 = m2 ∧ e1 = e2 := by
  have hk : (e2 + 127).toNat = (e1 + 127).toNat + (e2 - e1).toNat := by omega
  rw [hk, pow_add, ← mul_assoc] at heq
  have hcancel : m1 = m2 * 10 ^ (e2 - e1).toNat := by
    have hpos : 0 < 10 ^ (e1 + 127).toNat := Nat.pos_pow_of_pos _ (by norm_num)
    exact Nat.eq_of_mul_eq_mul_right hpos (by linarith [heq])
  rcases Nat.eq_zero_or_pos (e2 - e1).toNat with hz | hpos
  · constructor
    · rw [hcancel, hz, pow_zero, mul_one]
    · omega
  · exfalso
    have hdiv : m1 % 10 = 0 := by
      have : (10 : ℕ) ∣ m1 := by
        rw [hcancel]
        exact Dvd.dvd.mul_left (dvd_pow_self 10 (by omega)) m2
      omega
    rcases hc1 with hc1 | hc1
    · omega
    · exact hc1 hdiv

/-- Two values with equal numeric value have bit-identical normalized
forms: normalization is canonical. -/
theorem Normalized_eq_of_natVal_eq {a b : Value} (h : natVal a = natVal b) :
    Normalized a = Normalized b := by
  by_cases hz : mant a = 0
  · have hzb : mant b = 0 := by
      rw [← natVal_eq_zero_iff, ← h, natVal_eq_zero_iff]
      exact hz
    rw [Normalized_of_mant_zero hz, Normalized_of_mant_zero hzb]
  · have hzb : mant b ≠ 0 := by
      intro hc
      have hb0 : natVal a = 0 := by
        rw [h]
        exact (natVal_eq_zero_iff b).mpr hc
      exact hz ((natVal_eq_zero_iff a).mp hb0)
    have hma := mant_Normalized_pos hz
    have hmb := mant_Normalized_pos hzb
    have hca := Normalized_canon hz
    have hcb := Normalized_canon hzb
    have hea1 := exp_le (Normalized a)
    have hea2 := exp_ge (Normalized a)
    have heb1 := exp_le (Normalized b)
    have heb2 := exp_ge (Normalized b)
    have hval : natVal (Normalized a) = natVal (Normalized b) := by
      rw [natVal_Normalized, natVal_Normalized, h]
    unfold natVal at hval
    have hkey : mant (Normalized a) = mant (Normalized b) ∧
        exp (Normalized a) = exp (Normalized b) := by
      rcases le_total (exp (Normalized a)) (exp (Normalized b)) with hle | hle
      · exact canon_unique hma hmb hea1 heb1 hea2 heb2
          (by tauto) hval hle
      · obtain ⟨x, y⟩ := canon_unique hmb hma heb1 hea1 heb2 hea2
          (by tauto) hval.symm hle
        exact ⟨x.symm, y.symm⟩
    have hda := Normalized_def a hz
    have hdb := Normalized_def b hzb
    obtain ⟨hma', hexa⟩ := mant_exp_Normalized a hz
    obtain ⟨hmb', hexb⟩ := mant_exp_Normalized b hzb
    rw [hda, hdb, ← hma', ← hexa, ← hmb', ← hexb, hkey.1, hkey.2]

/-- Normalization is idempotent. -/
theorem Normalized_idem (v : Value) : Normalized (Normalized v) = Normalized v :=
  Normalized_eq_of_natVal_eq (natVal_Normalized v)

end Fixed

namespace Fixed

/-! ## adjustMantExp: behaviour on in-range inputs -/

theorem minExponent_eq : minExponent = -127 := by
  norm_num [minExponent, bias, expBits]

theorem adjustLoop1_noop {fuel : ℕ} {m : ℕ} {e : ℤ}
    (h : ¬((maxMantissa < m ∨ e < minExponent) ∧ 0 < m ∧ e + 1 < maxExponent)) :
    adjustLoop1 fuel m e = (m, e) := by
  cases fuel with
  | zero => rfl
  | succ fuel => rw [adjustLoop1, if_neg h]

theorem adjustLoop2_mant_zero : ∀ (fuel : ℕ) (e : ℤ),
    (adjustLoop2 fuel 0 e).1 = 0
  | 0, e => rfl
  | fuel + 1, e => by
    rw [adjustLoop2]
    by_cases hg : maxExponent < e ∧ 0 * 10 % U64 < maxMantissa
    · rw [if_pos hg]
      have h0 : 0 * 10 % U64 = 0 := by decide
      rw [h0]
      exact adjustLoop2_mant_zero fuel (e - 1)
    · rw [if_neg hg]

/-- Unfolding of `adjustMantExp` with the intermediate pairs named. -/
theorem adjustMantExp_pipeline (m : ℕ) (e : ℤ) {m1 m2 : ℕ} {e1 e2 : ℤ}
    (h1 : adjustLoop1 (m + 1) m e = (m1, e1))
    (h2 : adjustLoop2 (e1 - maxExponent).toNat m1 e1 = (m2, e2)) :
    adjustMantExp m e =
      if m2 = 0 ∨ e2 < minExponent then zero
      else if maxExponent < e2 then Max
      else fromMantAndExp m2 e2 := by
  unfold adjustMantExp
  rw [h1]
  dsimp only
  rw [h2]

/-- On an in-range pair, `adjustMantExp` is just `fromMantAndExp`. -/
theorem adjustMantExp_in_range {m : ℕ} {e : ℤ} (h1 : 0 < m)
    (h2 : m ≤ maxMantissa) (h3 : -127 ≤ e) (h4 : e ≤ 128) :
    adjustMantExp m e = fromMantAndExp m e := by
  have hmin := minExponent_eq
  have hmax := maxExponent_eq
  have hl1 : adjustLoop1 (m + 1) m e = (m, e) :=
    adjustLoop1_noop (by push_neg; intro hc; exact absurd hc (by omega))
  have hf : (e - maxExponent).toNat = 0 := by omega
  have hl2 : adjustLoop2 (e - maxExponent).toNat m e = (m, e) := by
    rw [hf]; rfl
  rw [adjustMantExp_pipeline m e hl1 hl2]
  rw [if_neg (by push_neg; exact ⟨by omega, by omega⟩), if_neg (by omega)]

/-- A zero mantissa always canonicalizes to `zero`. -/
theorem adjustMantExp_mant_zero (e : ℤ) : adjustMantExp 0 e = zero := by
  have hl1 : adjustLoop1 (0 + 1) 0 e = (0, e) :=
    adjustLoop1_noop (by push_neg; intro hc; omega)
  have h := adjustLoop2_mant_zero (e - maxExponent).toNat e
  have hl2 : adjustLoop2 (e - maxExponent).toNat 0 e =
      ((adjustLoop2 (e - maxExponent).toNat 0 e).1,
        (adjustLoop2 (e - maxExponent).toNat 0 e).2) := Prod.mk.eta.symm
  rw [adjustMantExp_pipeline 0 e hl1 hl2]
  rw [if_pos (Or.inl h)]

/-! ## Cmp: correctness against the numeric value -/

theorem uint64Cmp_mul_right {a b c : ℕ} (hc : 0 < c) :
    uint64Cmp (a * c) (b * c) = uint64Cmp a b := by
  unfold uint64Cmp
  have h1 : b * c < a * c ↔ b < a := Nat.mul_lt_mul_right hc
  have h2 : a * c < b * c ↔ a < b := Nat.mul_lt_mul_right hc
  by_cases hba : b < a
  · rw [if_pos (h1.mpr hba), if_pos hba]
  · rw [if_neg (fun hcon => hba (h1.mp hcon)), if_neg hba]
    by_cases hab : a < b
    · rw [if_pos (h2.mpr hab), if_pos hab]
    · rw [if_neg (fun hcon => hab (h2.mp hcon)), if_neg hab]

theorem decimalDigits_le_17 {m : ℕ} (h : m ≤ maxMantissa) :
    decimalDigits m ≤ 17 := by
  rcases Nat.eq_zero_or_pos m with h0 | hp
  · subst h0; decide
  · obtain ⟨hl, _⟩ := decimalDigits_spec hp
      (lt_of_le_of_lt h (by rw [maxMantissa_eq]; norm_num))
    by_contra hc
    push_neg at hc
    have : (10 : ℕ) ^ 17 ≤ 10 ^ (decimalDigits m - 1) :=
      Nat.pow_le_pow_right (by norm_num) (by omega)
    have hbig : (10 : ℕ) ^ 17 ≤ m := le_trans this hl
    rw [maxMantissa_eq] at h
    norm_num at hbig
    omega

/-- Digit-position bounds for the numeric value. -/
theorem natVal_digit_bounds {v : Value} (h : mant v ≠ 0) :
    10 ^ ((exp v + 127).toNat + decimalDigits (mant v) - 1) ≤ natVal v ∧
      natVal v < 10 ^ ((exp v + 127).toNat + decimalDigits (mant v)) := by
  have hm : mant v < 2 ^ 64 :=
    lt_of_lt_of_le (mant_lt_two_pow v) (by norm_num)
  obtain ⟨hl, hu⟩ := decimalDigits_spec (Nat.pos_of_ne_zero h) hm
  have hd := decimalDigits_pos (mant v)
  unfold natVal
  constructor
  · have he : (exp v + 127).toNat + decimalDigits (mant v) - 1 =
        (decimalDigits (mant v) - 1) + (exp v + 127).toNat := by omega
    rw [he, pow_add]
    exact Nat.mul_le_mul_right _ hl
  · have he : (exp v + 127).toNat + decimalDigits (mant v) =
        decimalDigits (mant v) + (exp v + 127).toNat := by omega
    rw [he, pow_add]
    exact Nat.mul_lt_mul_of_lt_of_le hu (le_refl _) (Nat.pos_pow_of_pos _ (by norm_num))

/-- `Cmp` computes exactly the comparison of numeric values. -/
theorem Cmp_correct (a b : Value) : Cmp a b = uint64Cmp (natVal a) (natVal b) := by
  unfold Cmp
  simp only []
  by_cases hz : exp a - exp b = 0 ∨ mant a = 0 ∨ mant b = 0
  · rw [if_pos hz]
    rcases hz with hz | hz | hz
    · have he : exp a = exp b := by omega
      unfold natVal
      rw [he, uint64Cmp_mul_right (Nat.pos_pow_of_pos _ (by norm_num))]
    · unfold natVal uint64Cmp
      rw [hz, zero_mul]
      by_cases hb : mant b = 0
      · rw [hb, zero_mul]
      · have hbp : 0 < mant b * 10 ^ (exp b + 127).toNat :=
          Nat.mul_pos (Nat.pos_of_ne_zero hb) (Nat.pos_pow_of_pos _ (by norm_num))
        rw [if_neg (show ¬ mant b < 0 by omega), if_pos (Nat.pos_of_ne_zero hb),
          if_neg (show ¬ mant b * 10 ^ (exp b + 127).toNat < 0 by omega), if_pos hbp]
    · unfold natVal uint64Cmp
      rw [hz, zero_mul]
      by_cases ha : mant a = 0
      · rw [ha, zero_mul]
      · have hap : 0 < mant a * 10 ^ (exp a + 127).toNat :=
          Nat.mul_pos (Nat.pos_of_ne_zero ha) (Nat.pos_pow_of_pos _ (by norm_num))
        rw [if_pos (Nat.pos_of_ne_zero ha), if_pos hap]
  · rw [if_neg hz]
    push_neg at hz
    obtain ⟨hed, ha, hb⟩ := hz
    have hga := exp_ge a
    have hgb := exp_ge b
    obtain ⟨hla, hua⟩ := natVal_digit_bounds ha
    obtain ⟨hlb, hub⟩ := natVal_digit_bounds hb
    have hda := decimalDigits_pos (mant a)
    have hdb := decimalDigits_pos (mant b)
    set Da := (exp a + 127).toNat + decimalDigits (mant a) with hDa
    set Db := (exp b + 127).toNat + decimalDigits (mant b) with hDb
    by_cases hgt : exp b + decimalDigits (mant b) < exp a + decimalDigits (mant a)
    · rw [if_pos hgt]
      have hD : Db < Da := by omega
      have : natVal b < natVal a := by
        calc natVal b < 10 ^ Db := hub
          _ ≤ 10 ^ (Da - 1) := Nat.pow_le_pow_right (by norm_num) (by omega)
          _ ≤ natVal a := hla
      unfold uint64Cmp
      rw [if_pos this]
    · rw [if_neg hgt]
      by_cases hlt : exp a + decimalDigits (mant a) < exp b + decimalDigits (mant b)
      · rw [if_pos hlt]
        have hD : Da < Db := by omega
        have : natVal a < natVal b := by
          calc natVal a < 10 ^ Da := hua
            _ ≤ 10 ^ (Db - 1) := Nat.pow_le_pow_right (by norm_num) (by omega)
            _ ≤ natVal b := hlb
        unfold uint64Cmp
        rw [if_neg (by omega), if_pos this]
      · rw [if_neg hlt]
        have hDeq : Da = Db := by omega
        have h17a := decimalDigits_le_17 (mant_le a)
        have h17b := decimalDigits_le_17 (mant_le b)
        by_cases hdiff : 0 < exp a - exp b
        · rw [if_pos hdiff]
          have hedk : exp a - exp b =
              (decimalDigits (mant b) : ℤ) - decimalDigits (mant a) := by omega
          have hk19 : (0 : ℤ) ≤ exp a - exp b ∧ exp a - exp b ≤ 19 := by omega
          rw [pow10_eq hk19.1 hk19.2]
          have hnw : mant a * 10 ^ (exp a - exp b).toNat < 10 ^ 17 := by
            calc mant a * 10 ^ (exp a - exp b).toNat
                < 10 ^ decimalDigits (mant a) * 10 ^ (exp a - exp b).toNat := by
                  exact Nat.mul_lt_mul_of_lt_of_le
                    (decimalDigits_spec (Nat.pos_of_ne_zero ha)
                      (lt_of_lt_of_le (mant_lt_two_pow a) (by norm_num))).2
                    (le_refl _) (Nat.pos_pow_of_pos _ (by norm_num))
              _ = 10 ^ (decimalDigits (mant a) + (exp a - exp b).toNat) := by
                  rw [pow_add]
              _ ≤ 10 ^ 17 := Nat.pow_le_pow_right (by norm_num) (by omega)
          have hmod : mant a * 10 ^ (exp a - exp b).toNat % U64 =
              mant a * 10 ^ (exp a - exp b).toNat := by
            apply Nat.mod_eq_of_lt
            calc mant a * 10 ^ (exp a - exp b).toNat < 10 ^ 17 := hnw
              _ < U64 := by rw [U64]; norm_num
          rw [hmod]
          have hsplit : natVal a =
              (mant a * 10 ^ (exp a - exp b).toNat) * 10 ^ (exp b + 127).toNat := by
            unfold natVal
            rw [mul_assoc, ← pow_add]
            congr 2
            omega
          unfold natVal
          rw [← uint64Cmp_mul_right
            (c := 10 ^ (exp b + 127).toNat) (Nat.pos_pow_of_pos _ (by norm_num))]
          rw [← hsplit]
          rfl
        · rw [if_neg hdiff]
          have hedk : exp b - exp a =
              (decimalDigits (mant a) : ℤ) - decimalDigits (mant b) := by omega
          have hk19 : (0 : ℤ) ≤ -(exp a - exp b) ∧ -(exp a - exp b) ≤ 19 := by omega
          rw [pow10_eq hk19.1 hk19.2]
          have hnw : mant b * 10 ^ (-(exp a - exp b)).toNat < 10 ^ 17 := by
            calc mant b * 10 ^ (-(exp a - exp b)).toNat
                < 10 ^ decimalDigits (mant b) * 10 ^ (-(exp a - exp b)).toNat := by
                  exact Nat.mul_lt_mul_of_lt_of_le
                    (decimalDigits_spec (Nat.pos_of_ne_zero hb)
                      (lt_of_lt_of_le (mant_lt_two_pow b) (by norm_num))).2
                    (le_refl _) (Nat.pos_pow_of_pos _ (by norm_num))
              _ = 10 ^ (decimalDigits (mant b) + (-(exp a - exp b)).toNat) := by
                  rw [pow_add]
              _ ≤ 10 ^ 17 := Nat.pow_le_pow_right (by norm_num) (by omega)
          have hmod : mant b * 10 ^ (-(exp a - exp b)).toNat % U64 =
              mant b * 10 ^ (-(exp a - exp b)).toNat := by
            apply Nat.mod_eq_of_lt
            calc mant b * 10 ^ (-(exp a - exp b)).toNat < 10 ^ 17 := hnw
              _ < U64 := by rw [U64]; norm_num
          rw [hmod]
          have hsplit : natVal b =
              (mant b * 10 ^ (-(exp a - exp b)).toNat) * 10 ^ (exp a + 127).toNat := by
            unfold natVal
            rw [mul_assoc, ← pow_add]
            congr 2
            omega
          unfold natVal
          rw [← uint64Cmp_mul_right
            (c := 10 ^ (exp a + 127).toNat) (Nat.pos_pow_of_pos _ (by norm_num))]
          rw [← hsplit]
          rfl

end Fixed

namespace Fixed

/-! ## Floor / Round / Ceil -/

def modeFloor : ℕ := 0

def modeRound : ℕ := 1

def modeCeil : ℕ := 2

/-- The `switch mode` tail of Go's `round`: `n` and `ei` have already been
cut; `r` is the discarded remainder and `p` the power of ten cut off.  The
returned exponent goes through the `expType(ei)` conversion (`wrap32`). -/
def roundSwitch (mode : ℕ) (r p n : ℕ) (ei prec : ℤ) : ℕ × ℤ :=
  if mode = modeRound then
    (if p / 2 < r then n + 1 else n, wrap32 ei)
  else if mode = modeCeil then
    if r ≠ 0 then
      if 0 < n then (n + 1, wrap32 ei)
      else if 0 ≤ prec then (1, wrap32 (-prec))
      else (n, wrap32 ei)
    else (n, wrap32 ei)
  else (n, wrap32 ei)

/-- The cutting phase of Go's `round` after `toCut` and `dd` are fixed:
`if toCut <= 0 { return n, e }; if toCut > dd { toCut = dd }; p := pow10(toCut);
r := n % p; n /= p; ei += toCut; switch…`.  `none` models the division-by-zero
panic when `pow10` returns the 0 sentinel. -/
def roundCut (n : ℕ) (e toCut dd ei prec : ℤ) (mode : ℕ) : Option (ℕ × ℤ) :=
  if toCut ≤ 0 then some (n, e)
  else
    if pow10 (if dd < toCut then dd else toCut) = 0 then none
    else some (roundSwitch mode
      (n % pow10 (if dd < toCut then dd else toCut))
      (pow10 (if dd < toCut then dd else toCut))
      (n / pow10 (if dd < toCut then dd else toCut))
      (ei + (if dd < toCut then dd else toCut)) prec)

/-- Go's `round(n, e, prec, mode)`.  `prec` is a Go `int` (64-bit), so the
expressions `-ei - prec` and `-prec` wrap (`wrap64`).  In the `prec < 0`,
`e < 0` branch the digit count is adjusted by the exponent and the mantissa
is pre-divided; when every digit sits behind the decimal point the result is
`(0, 0)` (the `prec >= 0` test in the materializing branch there is dead
code, kept faithfully). -/
def round (n : ℕ) (e prec : ℤ) (mode : ℕ) : Option (ℕ × ℤ) :=
  if 0 ≤ prec then
    roundCut n e (wrap64 (-e - prec)) (decimalDigits n) e prec mode
  else if e < 0 then
    if (decimalDigits n : ℤ) + e ≤ 0 then
      if 0 < n ∧ mode = modeCeil ∧ 0 ≤ prec then some (1, wrap32 (-prec))
      else some (0, 0)
    else if pow10 (-e) = 0 then none
    else roundCut (n / pow10 (-e)) e (wrap64 (-prec))
      ((decimalDigits n : ℤ) + e) 0 prec mode
  else roundCut n e (wrap64 (-prec)) (decimalDigits n) e prec mode

/-- `Floor(prec)`; `none` models a panic (never reached from a `Value`). -/
def Floor (v : Value) (prec : ℤ) : Option Value :=
  (round (mant v) (exp v) prec modeFloor).map fun p => adjustMantExp p.1 p.2

/-- `Round(prec)`. -/
def Round (v : Value) (prec : ℤ) : Option Value :=
  (round (mant v) (exp v) prec modeRound).map fun p => adjustMantExp p.1 p.2

/-- `Ceil(prec)`. -/
def Ceil (v : Value) (prec : ℤ) : Option Value :=
  (round (mant v) (exp v) prec modeCeil).map fun p => adjustMantExp p.1 p.2

end Fixed

namespace Fixed

/-! ## Claim C6: Ceil never rounds down -/

theorem wrap64_eq_self {x : ℤ} (h1 : -(2 ^ 63) ≤ x) (h2 : x < 2 ^ 63) :
    wrap64 x = x := by
  unfold wrap64
  rw [Int.emod_eq_of_lt (by omega) (by omega)]
  omega

theorem wrap32_eq_self {x : ℤ} (h1 : -(2 ^ 31) ≤ x) (h2 : x < 2 ^ 31) :
    wrap32 x = x := by
  unfold wrap32
  rw [Int.emod_eq_of_lt (by omega) (by omega)]
  omega

theorem uint64Cmp_nonneg_of_le {a b : ℕ} (h : b ≤ a) : 0 ≤ uint64Cmp a b := by
  unfold uint64Cmp
  by_cases hlt : b < a
  · rw [if_pos hlt]; norm_num
  · rw [if_neg hlt, if_neg (by omega)]

/-- C6 (counterexample): the claim states `v.Ceil(p).Cmp(v) ≥ 0` for every
nonzero-mantissa `v` and every precision `p`, positive or negative.  At
`v = 5`, `p = -1` the code discards all digits and returns `Zero`
(the materializing branch requires `prec >= 0`), so `Ceil(5, -1) = 0 < 5`. -/
theorem ceil_rounds_down_at_neg_prec :
    mant (fromMantAndExp 5 0) ≠ 0 ∧
      Ceil (fromMantAndExp 5 0) (-1) = some zero ∧
      Cmp zero (fromMantAndExp 5 0) = -1 := by
  refine ⟨by decide, by decide, by decide⟩

/-- C6 (amended): for every `v` with nonzero mantissa and every
**nonnegative** precision `p` small enough not to overflow the `int64`
expression `-ei - prec` (`p ≤ 2^63 - 128`), `v.Ceil(p)` succeeds and
compares greater than or equal to `v`.  (For negative `p` the result can
drop to `Zero`, and for `p` near `2^63` the wrapped `toCut` turns huge and
positive, cutting all digits: both round down.) -/
theorem ceil_ge (v : Value) (pr : ℤ) (hm : mant v ≠ 0) (hp : 0 ≤ pr)
    (hp2 : pr ≤ 2 ^ 63 - 128) :
    ∃ w, Ceil v pr = some w ∧ 0 ≤ Cmp w v := by
  have hmle := mant_le v
  have hmlt := mant_lt_two_pow v
  have hel := exp_le v
  have heg := exp_ge v
  have hmaxeq := maxMantissa_eq
  have hdd1 := decimalDigits_pos (mant v)
  have hdd17 := decimalDigits_le_17 hmle
  unfold Ceil round
  rw [if_pos hp]
  have hw : wrap64 (-exp v - pr) = -exp v - pr :=
    wrap64_eq_self (by omega) (by omega)
  rw [hw]
  unfold roundCut
  by_cases hcut : -exp v - pr ≤ 0
  · rw [if_pos hcut]
    refine ⟨adjustMantExp (mant v) (exp v), rfl, ?_⟩
    rw [adjustMantExp_in_range (Nat.pos_of_ne_zero hm) hmle heg hel]
    rw [Cmp_correct, natVal_fromMantAndExp hmlt heg hel]
    exact uint64Cmp_nonneg_of_le (le_refl _)
  · rw [if_neg hcut]
    push_neg at hcut
    have he_neg : exp v < 0 := by omega
    have hpr126 : pr ≤ 126 := by omega
    have hddc : (1 : ℤ) ≤ (decimalDigits (mant v) : ℤ) ∧
        (decimalDigits (mant v) : ℤ) ≤ 17 :=
      ⟨by exact_mod_cast hdd1, by exact_mod_cast hdd17⟩
    generalize htC : (if (decimalDigits (mant v) : ℤ) < -exp v - pr
      then (decimalDigits (mant v) : ℤ) else -exp v - pr) = tC
    have htb : (1 ≤ tC ∧ tC ≤ 17) ∧ tC ≤ -exp v - pr := by
      rw [← htC]
      by_cases hx : (decimalDigits (mant v) : ℤ) < -exp v - pr
      · rw [if_pos hx]; omega
      · rw [if_neg hx]; omega
    obtain ⟨htb, htcut⟩ := htb
    have hp10 : pow10 tC = 10 ^ tC.toNat := pow10_eq (by omega) (by omega)
    have hppos : 0 < pow10 tC := by
      rw [hp10]; positivity
    rw [if_neg (by omega)]
    have hswitch : roundSwitch modeCeil (mant v % pow10 tC) (pow10 tC)
        (mant v / pow10 tC) (exp v + tC) pr =
          if mant v % pow10 tC ≠ 0 then
            if 0 < mant v / pow10 tC then
              (mant v / pow10 tC + 1, wrap32 (exp v + tC))
            else (1, wrap32 (-pr))
          else (mant v / pow10 tC, wrap32 (exp v + tC)) := by
      unfold roundSwitch
      rw [if_neg (by decide), if_pos rfl]
      by_cases hr : mant v % pow10 tC ≠ 0
      · rw [if_pos hr, if_pos hr]
        by_cases hq : 0 < mant v / pow10 tC
        · rw [if_pos hq, if_pos hq]
        · rw [if_neg hq, if_neg hq, if_pos hp]
      · rw [if_neg hr, if_neg hr]
    rw [hswitch]
    have hei : wrap32 (exp v + tC) = exp v + tC :=
      wrap32_eq_self (by omega) (by omega)
    have heo : wrap32 (-pr) = -pr := wrap32_eq_self (by omega) (by omega)
    by_cases hr : mant v % pow10 tC ≠ 0
    · rw [if_pos hr]
      by_cases hq : 0 < mant v / pow10 tC
      · rw [if_pos hq]
        refine ⟨_, rfl, ?_⟩
        dsimp only
        rw [hei]
        have hqb : mant v / pow10 tC + 1 ≤ maxMantissa := by
          have h10 : (10 : ℕ) ≤ pow10 tC := by
            rw [hp10]
            calc (10 : ℕ) = 10 ^ 1 := (pow_one 10).symm
              _ ≤ 10 ^ tC.toNat := Nat.pow_le_pow_right (by norm_num) (by omega)
          have := Nat.div_le_div_right (c := pow10 tC) hmle
          have h2 : maxMantissa / pow10 tC ≤ maxMantissa / 10 :=
            Nat.div_le_div_left h10 (by norm_num)
          omega
        rw [adjustMantExp_in_range (by omega) hqb (by omega) (by omega)]
        rw [Cmp_correct, natVal_fromMantAndExp (by omega) (by omega) (by omega)]
        apply uint64Cmp_nonneg_of_le
        unfold natVal
        have hsplit : tC.toNat + (exp v + 127).toNat = (exp v + tC + 127).toNat := by
          omega
        calc mant v * 10 ^ (exp v + 127).toNat
            ≤ ((mant v / pow10 tC) * pow10 tC + pow10 tC) * 10 ^ (exp v + 127).toNat := by
              apply Nat.mul_le_mul_right
              have hdm := Nat.div_add_mod (mant v) (pow10 tC)
              have hrlt : mant v % pow10 tC < pow10 tC := Nat.mod_lt _ hppos
              have hcomm : mant v / pow10 tC * pow10 tC =
                  pow10 tC * (mant v / pow10 tC) := Nat.mul_comm _ _
              omega
          _ = (mant v / pow10 tC + 1) * (pow10 tC * 10 ^ (exp v + 127).toNat) := by ring
          _ = (mant v / pow10 tC + 1) * 10 ^ (exp v + tC + 127).toNat := by
              rw [hp10, ← pow_add, hsplit]
      · rw [if_neg hq]
        refine ⟨_, rfl, ?_⟩
        dsimp only
        rw [heo]
        rw [adjustMantExp_in_range (by omega) (by rw [hmaxeq]; omega) (by omega) (by omega)]
        rw [Cmp_correct, natVal_fromMantAndExp (by norm_num) (by omega) (by omega)]
        apply uint64Cmp_nonneg_of_le
        unfold natVal
        push_neg at hq
        have hq0 : mant v / pow10 tC = 0 := Nat.le_zero.mp hq
        have hmv : mant v < pow10 tC := by
          have hdm := Nat.div_add_mod (mant v) (pow10 tC)
          rw [hq0, Nat.mul_zero, Nat.zero_add] at hdm
          have hrlt : mant v % pow10 tC < pow10 tC := Nat.mod_lt _ hppos
          omega
        have hexp : (exp v + 127).toNat + tC.toNat ≤ (-pr + 127).toNat := by omega
        apply le_of_lt
        calc mant v * 10 ^ (exp v + 127).toNat
            < pow10 tC * 10 ^ (exp v + 127).toNat := by
              apply Nat.mul_lt_mul_of_lt_of_le hmv (le_refl _)
              positivity
          _ = 10 ^ (tC.toNat + (exp v + 127).toNat) := by rw [hp10, pow_add]
          _ ≤ 10 ^ (-pr + 127).toNat := Nat.pow_le_pow_right (by norm_num) (by omega)
          _ = 1 * 10 ^ (-pr + 127).toNat := (one_mul _).symm
    · rw [if_neg hr]
      refine ⟨_, rfl, ?_⟩
      dsimp only
      rw [hei]
      push_neg at hr
      have hqpos : 0 < mant v / pow10 tC := by
        rcases Nat.eq_zero_or_pos (mant v / pow10 tC) with h0 | h
        · exfalso
          have := Nat.div_add_mod (mant v) (pow10 tC)
          rw [h0, hr] at this
          simp at this
          exact hm this.symm
        · exact h
      have hqb : mant v / pow10 tC ≤ maxMantissa :=
        le_trans (Nat.div_le_self _ _) hmle
      rw [adjustMantExp_in_range hqpos hqb (by omega) (by omega)]
      rw [Cmp_correct, natVal_fromMantAndExp (by omega) (by omega) (by omega)]
      apply uint64Cmp_nonneg_of_le
      unfold natVal
      have hsplit : tC.toNat + (exp v + 127).toNat = (exp v + tC + 127).toNat := by
        omega
      have hdm := Nat.div_add_mod (mant v) (pow10 tC)
      rw [hr, Nat.add_zero] at hdm
      apply le_of_eq
      calc mant v * 10 ^ (exp v + 127).toNat
          = (pow10 tC * (mant v / pow10 tC)) * 10 ^ (exp v + 127).toNat := by
            rw [hdm]
        _ = (mant v / pow10 tC) * (pow10 tC * 10 ^ (exp v + 127).toNat) := by ring
        _ = (mant v / pow10 tC) * 10 ^ (exp v + tC + 127).toNat := by
            rw [hp10, ← pow_add, hsplit]

/-- C6 (witness): the amended theorem applied at `v = 123.456`, `p = 2`. -/
theorem ceil_ge_witness :
    mant (fromMantAndExp 123456 (-3)) ≠ 0 ∧ (0 : ℤ) ≤ 2 ∧ (2 : ℤ) ≤ 2 ^ 63 - 128 ∧
      ∃ w, Ceil (fromMantAndExp 123456 (-3)) 2 = some w ∧
        0 ≤ Cmp w (fromMantAndExp 123456 (-3)) :=
  ⟨by decide, by decide, by decide,
    ceil_ge (fromMantAndExp 123456 (-3)) 2 (by decide) (by decide) (by decide)⟩

end Fixed

namespace Fixed

/-! ## Exponent alignment, Add, Sub -/

/-- Tier 3 of `doToEqualExp`: the exponents still differ after trimming and
growing, so the smaller-exponent mantissa is truncated
(`if toDiv := pow10(int(ediff)); toDiv > 0 { m2 /= toDiv } else { m2 = 0 }`). -/
def doToEqualExpTier3 (m1 : ℕ) (e1 : ℤ) (m2 : ℕ) (e2 : ℤ) : ℕ × ℕ × ℤ :=
  if e1 - e2 = 0 then (m1, m2, e1)
  else if 0 < pow10 (e1 - e2) then (m1, m2 / pow10 (e1 - e2), e1)
  else (m1, 0, e1)

/-- Tier 2 of `doToEqualExp` after trimming `m2`: grow `m1` by
`toMult = min(log10(maxMantissa/m1), ediff)` and decrease `e1`. -/
def doToEqualExpGrow (m1 : ℕ) (e1 : ℤ) (m2 : ℕ) (e2 : ℤ) : ℕ × ℕ × ℤ :=
  if e1 - e2 = 0 then (m1, m2, e1)
  else
    doToEqualExpTier3
      (m1 * pow10 (if e1 - e2 < (log10 (maxMantissa / m1) : ℤ)
        then e1 - e2 else (log10 (maxMantissa / m1) : ℤ)) % U64)
      (e1 - (if e1 - e2 < (log10 (maxMantissa / m1) : ℤ)
        then e1 - e2 else (log10 (maxMantissa / m1) : ℤ)))
      m2 e2

/-- `doToEqualExp(m1, e1, m2, e2)` assuming `e1 >= e2`: trim trailing zeros
off `m2`, then grow `m1`, then truncate `m2`. -/
def doToEqualExp (m1 : ℕ) (e1 : ℤ) (m2 : ℕ) (e2 : ℤ) : ℕ × ℕ × ℤ :=
  if e1 - e2 = 0 then (m1, m2, e1)
  else doToEqualExpGrow m1 e1 (trimZeros m2 e2 e1).1 (trimZeros m2 e2 e1).2

/-- `toEqualExp`: orient so that the first argument has the larger
exponent, then align. -/
def toEqualExp (m1 : ℕ) (e1 : ℤ) (m2 : ℕ) (e2 : ℤ) : ℕ × ℕ × ℤ :=
  if e2 ≤ e1 then doToEqualExp m1 e1 m2 e2
  else
    ((doToEqualExp m2 e2 m1 e1).2.1, (doToEqualExp m2 e2 m1 e1).1,
      (doToEqualExp m2 e2 m1 e1).2.2)

/-- `addWithExp`: sum aligned mantissas; one overflow digit is cut, and the
result saturates to `Max` if the exponent was already maximal. -/
def addWithExp (m1 m2 : ℕ) (e : ℤ) : Value :=
  if maxMantissa < (m1 + m2) % U64 then
    if e = maxExponent then Max
    else fromMantAndExp ((m1 + m2) % U64 / 10) (e + 1)
  else fromMantAndExp ((m1 + m2) % U64) e

/-- `subWithExp`: absolute difference of aligned mantissas plus a
negative-result flag. -/
def subWithExp (m1 m2 : ℕ) (e : ℤ) : Value × Bool :=
  if m2 ≤ m1 then (fromMantAndExp (m1 - m2) e, false)
  else (fromMantAndExp (m2 - m1) e, true)

/-- `Add(v, other)`. -/
def Add (v other : Value) : Value :=
  if mant v = 0 then (if mant other = 0 then zero else other)
  else if mant other = 0 then v
  else
    addWithExp (toEqualExp (mant v) (exp v) (mant other) (exp other)).1
      (toEqualExp (mant v) (exp v) (mant other) (exp other)).2.1
      (toEqualExp (mant v) (exp v) (mant other) (exp other)).2.2

/-- `Sub(v, other)`: `|v - other|` plus a flag for a negative result. -/
def Sub (v other : Value) : Value × Bool :=
  if mant other = 0 then (if mant v = 0 then (zero, false) else (v, false))
  else if mant v = 0 then (other, true)
  else
    subWithExp (toEqualExp (mant v) (exp v) (mant other) (exp other)).1
      (toEqualExp (mant v) (exp v) (mant other) (exp other)).2.1
      (toEqualExp (mant v) (exp v) (mant other) (exp other)).2.2

/-! ## Division -/

/-- `divMod(v1, v2)`: integer division of mantissas, with a best-effort
rescale of the dividend first.  `none` models the division-by-zero panic. -/
def divMod (v1 v2 : Value) : Option (ℕ × ℕ × ℤ) :=
  if mant v2 = 0 then none
  else if mant v1 = 0 then some (0, 0, 0)
  else if mant v1 % mant v2 = 0 then
    some (mant v1 / mant v2, 0, exp v1 - exp v2)
  else
    some (mant v1 * pow10 (log10 (maxNumber / mant v1)) % U64 / mant v2,
      mant v1 * pow10 (log10 (maxNumber / mant v1)) % U64 % mant v2,
      exp v1 - exp v2 - (log10 (maxNumber / mant v1) : ℤ))

/-- Tail of `DivMod` in the inexact case: floor-round the quotient to the
requested precision, canonicalize it, and recompute the remainder as
`v - other*quo` through `Sub` (`vN`, `oN` are the normalized operands). -/
def divModPost (vN oN : Value) (q : ℕ) (e prec : ℤ) : Option (Value × Value) :=
  match round q e prec modeFloor with
  | none => none
  | some p =>
      some (adjustMantExp p.1 p.2,
        (Sub vN (Mul oN (adjustMantExp p.1 p.2))).1)

/-- `DivMod(v, other, prec)`: quotient floor-rounded to `prec` digits and
the matching remainder.  `none` models a panic (reachable only through a
zero divisor). -/
def DivMod (v other : Value) (prec : ℤ) : Option (Value × Value) :=
  match divMod (Normalized v) (Normalized other) with
  | none => none
  | some (q, r, e) =>
      if r = 0 then some (Normalized (adjustMantExp q e), zero)
      else if e < maxExponent then
        divModPost (Normalized v) (Normalized other)
          (trimZeros q e maxExponent).1 (trimZeros q e maxExponent).2 prec
      else divModPost (Normalized v) (Normalized other) q e prec

/-- `float64Div`: splits both operands, panics (`none`) when the divisor
mantissa is zero, and otherwise computes
`float64(m1) / float64(m2) * math.Pow10(int(e1) - int(e2))` and reconverts it
through `FromFloat64`, discarding the error return — a total IEEE-754
pipeline that always yields some Value.  The numeric result of that pipeline
(binary64 rounding, `math.Pow10`, and the `math.Log10`-based renormalization
inside `FromFloat64`) enters the embedding as the explicit parameter `fdiv`,
applied to the split mantissas and exponents exactly where the Go code
computes `flt`; every theorem about `Div` below quantifies over `fdiv`, so
it holds in particular for the concrete rounding behaviour. -/
def float64Div (fdiv : ℕ → ℤ → ℕ → ℤ → Value) (a b : Value) : Option Value :=
  if mant b = 0 then none
  else some (fdiv (mant a) (exp a) (mant b) (exp b))

/-- `Div(v, other)`: exact integer division when the remainder is zero,
otherwise the `float64Div` fallback.  `none` models the division-by-zero
panic; `fdiv` is the abstracted float pipeline of `float64Div`. -/
def Div (fdiv : ℕ → ℤ → ℕ → ℤ → Value) (v other : Value) : Option Value :=
  match divMod (Normalized v) (Normalized other) with
  | none => none
  | some (q, r, e) =>
      if r = 0 then some (Normalized (adjustMantExp q e))
      else float64Div fdiv (Normalized v) (Normalized other)

/-! ## Uint64 conversion -/

/-- Count of trailing decimal zeros (`trailingZeros`); returns 1 for zero.
The fuel 64 covers any `uint64` input. -/
def tzAux : ℕ → ℕ → ℕ
  | 0, _ => 0
  | fuel + 1, v => if v % 10 = 0 then tzAux fuel (v / 10) + 1 else 0

def trailingZeros (value : ℕ) : ℕ :=
  if value = 0 then 1 else tzAux 64 value

/-- Body of `toUint64` after normalization (`m`, `e` are the normalized
mantissa and exponent). -/
def toUint64Core (m : ℕ) (e : ℤ) : ℕ × Bool :=
  if m = 0 then (0, true)
  else if e = 0 then (m, true)
  else if pow10 (e.natAbs : ℤ) = 0 then (maxMantissa, false)
  else if e < 0 then
    (m / pow10 (e.natAbs : ℤ), decide ((e.natAbs : ℤ) ≤ (trailingZeros m : ℤ)))
  else if (e : ℤ) < (decimalDigits (maxMantissa / m) - 1 : ℕ) ∨
      ((decimalDigits (maxMantissa / m) - 1 : ℕ) : ℤ) = e ∧
        maxMantissa - maxMantissa % m ≤ maxMantissa / m * m % U64 then
    (m * pow10 (e.natAbs : ℤ) % U64, true)
  else (maxMantissa, false)

/-- `toUint64`: the integer value and an exactness flag. -/
def toUint64 (v : Value) : ℕ × Bool :=
  toUint64Core (mant (Normalized v)) (exp (Normalized v))

/-- `Uint64`. -/
def Uint64 (v : Value) : ℕ := (toUint64 v).1

end Fixed

namespace Fixed

/-! ## Claim C5: Div/DivMod fault exactly on a zero divisor -/

theorem mant_Normalized_zero_iff (v : Value) :
    mant (Normalized v) = 0 ↔ mant v = 0 := by
  constructor
  · intro h
    by_contra hv
    have := mant_Normalized_pos hv
    omega
  · intro h
    rw [Normalized_of_mant_zero h]
    decide

theorem decimalDigits_le_19 {q : ℕ} (h : q < 10 ^ 19) : decimalDigits q ≤ 19 := by
  rcases Nat.eq_zero_or_pos q with h0 | hp
  · subst h0; decide
  · obtain ⟨hl, _⟩ := decimalDigits_spec hp (lt_of_lt_of_le h (by norm_num))
    by_contra hc
    push_neg at hc
    have : (10 : ℕ) ^ 19 ≤ 10 ^ (decimalDigits q - 1) :=
      Nat.pow_le_pow_right (by norm_num) (by omega)
    omega

theorem roundCut_isSome {n : ℕ} {e toCut dd ei prec : ℤ} {mode : ℕ}
    (h1 : 1 ≤ dd) (h2 : dd ≤ 19) :
    (roundCut n e toCut dd ei prec mode).isSome = true := by
  unfold roundCut
  by_cases hc : toCut ≤ 0
  · rw [if_pos hc]; rfl
  · rw [if_neg hc]
    have hb : 1 ≤ (if dd < toCut then dd else toCut) ∧
        (if dd < toCut then dd else toCut) ≤ 19 := by
      by_cases hx : dd < toCut
      · rw [if_pos hx]; omega
      · rw [if_neg hx]; omega
    have hpw : pow10 (if dd < toCut then dd else toCut) ≠ 0 := by
      rw [pow10_eq (by omega) (by omega)]
      positivity
    rw [if_neg hpw]
    rfl

/-- For any mantissa below `10^19` (every reachable call), `round` never
hits its division-by-zero panics. -/
theorem round_isSome {q : ℕ} (e prec : ℤ) (mode : ℕ) (hq : q < 10 ^ 19) :
    (round q e prec mode).isSome = true := by
  have hdd1 := decimalDigits_pos q
  have hdd19 := decimalDigits_le_19 hq
  unfold round
  by_cases hp : 0 ≤ prec
  · rw [if_pos hp]
    exact roundCut_isSome (by omega) (by omega)
  · rw [if_neg hp]
    by_cases he : e < 0
    · rw [if_pos he]
      by_cases hz : (decimalDigits q : ℤ) + e ≤ 0
      · rw [if_pos hz]
        by_cases hmat : 0 < q ∧ mode = modeCeil ∧ 0 ≤ prec
        · rw [if_pos hmat]; rfl
        · rw [if_neg hmat]; rfl
      · rw [if_neg hz]
        push_neg at hz
        have hne : -e ≤ 18 := by omega
        have hpw : pow10 (-e) ≠ 0 := by
          rw [pow10_eq (by omega) (by omega)]
          positivity
        rw [if_neg hpw]
        exact roundCut_isSome (by omega) (by omega)
    · rw [if_neg he]
      exact roundCut_isSome (by omega) (by omega)

theorem maxNumber_eq : maxNumber = 2 ^ 64 - 1 := by
  norm_num [maxNumber, bitsInNumber]

/-- The rescaled dividend in `divMod` never wraps: `m1 * pow10(toMult)`
stays within `maxNumber`. -/
theorem divMod_rescale_le {m1 : ℕ} (h1 : 0 < m1) (h2 : m1 ≤ maxMantissa) :
    m1 * pow10 (log10 (maxNumber / m1) : ℤ) ≤ maxNumber := by
  have hpos : 0 < maxNumber / m1 := by
    apply Nat.div_pos _ h1
    calc m1 ≤ maxMantissa := h2
      _ ≤ maxNumber := by rw [maxMantissa_eq, maxNumber_eq]; norm_num
  have hlt : maxNumber / m1 < 2 ^ 64 := by
    calc maxNumber / m1 ≤ maxNumber := Nat.div_le_self _ _
      _ < 2 ^ 64 := by rw [maxNumber_eq]; norm_num
  obtain ⟨hl, hu⟩ := decimalDigits_spec hpos hlt
  have hd := decimalDigits_pos (maxNumber / m1)
  have h19 : decimalDigits (maxNumber / m1) - 1 ≤ 19 := by
    have := decimalDigits_le_20 hlt
    omega
  unfold log10
  rw [pow10_eq (by omega) (by omega)]
  have htn : ((decimalDigits (maxNumber / m1) - 1 : ℕ) : ℤ).toNat =
      decimalDigits (maxNumber / m1) - 1 := by omega
  rw [htn]
  calc m1 * 10 ^ (decimalDigits (maxNumber / m1) - 1)
      ≤ m1 * (maxNumber / m1) := Nat.mul_le_mul_left _ hl
    _ ≤ maxNumber := by
        rw [Nat.mul_comm]
        exact Nat.div_mul_le_self _ _

end Fixed

namespace Fixed
theorem trimZeros_fst_le (m : ℕ) (e eMax : ℤ) : (trimZeros m e eMax).1 ≤ m := by
  obtain ⟨h1, _, _, _⟩ := trimZerosAux_spec (eMax - e).toNat m e eMax
  rw [trimZeros]
  conv_rhs => rw [h1]
  exact Nat.le_mul_of_pos_right _ (by positivity)

theorem divModPost_isSome (vN oN : Value) (q : ℕ) (e prec : ℤ)
    (h : (round q e prec modeFloor).isSome = true) :
    (divModPost vN oN q e prec).isSome = true := by
  unfold divModPost
  rcases hr : round q e prec modeFloor with _ | p
  · rw [hr] at h
    simp at h
  · rfl

/-- C5: `Div` and `DivMod` fault (return `none`, modelling the Go panic) if
and only if the divisor has a zero mantissa; with a nonzero-mantissa divisor
they always return normally — in particular `DivMod`'s internal rounding
never divides by the `pow10` zero sentinel, and the statement quantifies
over every possible result `fdiv` of `float64Div`'s float pipeline, so the
fallback never faults whatever the IEEE-754 rounding produces. -/
theorem div_divMod_fault_iff (fdiv : ℕ → ℤ → ℕ → ℤ → Value)
    (a b : Value) (p : ℤ) :
    ((Div fdiv a b).isSome ↔ mant b ≠ 0) ∧
      ((DivMod a b p).isSome ↔ mant b ≠ 0) := by
  by_cases hb : mant b = 0
  · have hbn : mant (Normalized b) = 0 := (mant_Normalized_zero_iff b).mpr hb
    unfold Div DivMod divMod
    rw [if_pos hbn]
    simp [hb]
  · have hbn : mant (Normalized b) ≠ 0 :=
      fun hc => hb ((mant_Normalized_zero_iff b).mp hc)
    refine ⟨⟨fun _ => hb, fun _ => ?_⟩, ⟨fun _ => hb, fun _ => ?_⟩⟩
    · unfold Div divMod
      rw [if_neg hbn]
      by_cases ha : mant (Normalized a) = 0
      · rw [if_pos ha]; rfl
      · rw [if_neg ha]
        by_cases hex : mant (Normalized a) % mant (Normalized b) = 0
        · rw [if_pos hex]; rfl
        · rw [if_neg hex]
          dsimp only
          split
          · rfl
          · unfold float64Div
            rw [if_neg hbn]
            rfl
    · unfold DivMod divMod
      rw [if_neg hbn]
      by_cases ha : mant (Normalized a) = 0
      · rw [if_pos ha]; rfl
      · rw [if_neg ha]
        by_cases hex : mant (Normalized a) % mant (Normalized b) = 0
        · rw [if_pos hex]; rfl
        · rw [if_neg hex]
          have hm2 : 2 ≤ mant (Normalized b) := by
            rcases Nat.lt_or_ge (mant (Normalized b)) 2 with h | h
            · have h1 : mant (Normalized b) = 1 := by omega
              rw [h1, Nat.mod_one] at hex
              exact absurd rfl hex
            · exact h
          have hA : 0 < mant (Normalized a) := Nat.pos_of_ne_zero ha
          have hX : mant (Normalized a) *
              pow10 (log10 (maxNumber / mant (Normalized a)) : ℤ) ≤ maxNumber :=
            divMod_rescale_le hA (mant_le _)
          have hXmod : mant (Normalized a) *
              pow10 (log10 (maxNumber / mant (Normalized a)) : ℤ) % U64 =
                mant (Normalized a) *
                  pow10 (log10 (maxNumber / mant (Normalized a)) : ℤ) := by
            apply Nat.mod_eq_of_lt
            calc _ ≤ maxNumber := hX
              _ < U64 := by rw [maxNumber_eq, U64]; norm_num
          have hq19 : mant (Normalized a) *
              pow10 (log10 (maxNumber / mant (Normalized a)) : ℤ) % U64 /
                mant (Normalized b) < 10 ^ 19 := by
            rw [hXmod]
            calc mant (Normalized a) *
                pow10 (log10 (maxNumber / mant (Normalized a)) : ℤ) /
                  mant (Normalized b)
                ≤ maxNumber / mant (Normalized b) := Nat.div_le_div_right hX
              _ ≤ maxNumber / 2 := Nat.div_le_div_left hm2 (by norm_num)
              _ < 10 ^ 19 := by rw [maxNumber_eq]; norm_num
          dsimp only
          split
          · rfl
          · split
            · exact divModPost_isSome _ _ _ _ _
                (round_isSome _ _ _ (lt_of_le_of_lt (trimZeros_fst_le _ _ _) hq19))
            · exact divModPost_isSome _ _ _ _ _ (round_isSome _ _ _ hq19)

end Fixed

namespace Fixed

/-! ## Claim C9: Uint64 saturates at maxMantissa -/

/-- C9: `Uint64` saturates at the mantissa limit, not at `2^64 - 1`: whenever
the numeric value of `v` exceeds `maxMantissa` (in the `10^127`-scaled integer
reading, `natVal v > maxMantissa * 10^127`), `Uint64 v` returns `maxMantissa`
and the internal `toUint64` reports `exact = false`, even when the true
integer value of `v` would fit in a `uint64`. -/
theorem uint64_saturates (v : Value) (h : maxMantissa * 10 ^ 127 < natVal v) :
    Uint64 v = maxMantissa ∧ (toUint64 v).2 = false := by
  have hnv : natVal (Normalized v) = natVal v := natVal_Normalized v
  have hval : natVal (Normalized v) =
      mant (Normalized v) * 10 ^ (exp (Normalized v) + 127).toNat := rfl
  have hbig : maxMantissa * 10 ^ 127 <
      mant (Normalized v) * 10 ^ (exp (Normalized v) + 127).toNat := by
    rw [← hval, hnv]; exact h
  have hml := mant_le (Normalized v)
  have hge := exp_ge (Normalized v)
  have hM0 : mant (Normalized v) ≠ 0 := by
    intro hc
    rw [hc, Nat.zero_mul] at hbig
    exact absurd hbig (Nat.not_lt_zero _)
  have hE1 : 1 ≤ exp (Normalized v) := by
    by_contra hc
    push_neg at hc
    have ht : (exp (Normalized v) + 127).toNat ≤ 127 := by omega
    have hle2 : mant (Normalized v) * 10 ^ (exp (Normalized v) + 127).toNat ≤
        maxMantissa * 10 ^ 127 :=
      Nat.mul_le_mul hml (Nat.pow_le_pow_right (by norm_num) ht)
    omega
  have htn : (exp (Normalized v) + 127).toNat = (exp (Normalized v)).toNat + 127 := by
    omega
  have hMe : maxMantissa < mant (Normalized v) * 10 ^ (exp (Normalized v)).toNat := by
    have h2 : maxMantissa * 10 ^ 127 <
        mant (Normalized v) * 10 ^ (exp (Normalized v)).toNat * 10 ^ 127 := by
      rw [Nat.mul_assoc, ← pow_add, ← htn]
      exact hbig
    exact Nat.lt_of_mul_lt_mul_right h2
  have hdd : ((decimalDigits (maxMantissa / mant (Normalized v)) - 1 : ℕ) : ℤ) <
      exp (Normalized v) := by
    by_contra hc
    push_neg at hc
    have hq : 0 < maxMantissa / mant (Normalized v) :=
      Nat.div_pos hml (Nat.pos_of_ne_zero hM0)
    have hqlt : maxMantissa / mant (Normalized v) < 2 ^ 64 := by
      have := Nat.div_le_self maxMantissa (mant (Normalized v))
      have hmlt : maxMantissa < 2 ^ 64 := by rw [maxMantissa_eq]; norm_num
      omega
    obtain ⟨hl, _⟩ := decimalDigits_spec hq hqlt
    have hEt : (exp (Normalized v)).toNat ≤
        decimalDigits (maxMantissa / mant (Normalized v)) - 1 := by
      have := decimalDigits_pos (maxMantissa / mant (Normalized v))
      omega
    have h4 : mant (Normalized v) * 10 ^ (exp (Normalized v)).toNat ≤
        mant (Normalized v) * (maxMantissa / mant (Normalized v)) :=
      Nat.mul_le_mul_left _ (le_trans (Nat.pow_le_pow_right (by norm_num) hEt) hl)
    have h5 : mant (Normalized v) * (maxMantissa / mant (Normalized v)) ≤
        maxMantissa := by
      rw [Nat.mul_comm]
      exact Nat.div_mul_le_self _ _
    omega
  have hcore : toUint64Core (mant (Normalized v)) (exp (Normalized v)) =
      (maxMantissa, false) := by
    unfold toUint64Core
    rw [if_neg hM0, if_neg (by omega : ¬ exp (Normalized v) = 0)]
    by_cases hp0 : pow10 ((exp (Normalized v)).natAbs : ℤ) = 0
    · rw [if_pos hp0]
    · rw [if_neg hp0, if_neg (by omega : ¬ exp (Normalized v) < 0)]
      have hcond : ¬ (exp (Normalized v) <
          ((decimalDigits (maxMantissa / mant (Normalized v)) - 1 : ℕ) : ℤ) ∨
          ((decimalDigits (maxMantissa / mant (Normalized v)) - 1 : ℕ) : ℤ) =
              exp (Normalized v) ∧
            maxMantissa - maxMantissa % mant (Normalized v) ≤
              maxMantissa / mant (Normalized v) * mant (Normalized v) % U64) := by
        rintro (hc | ⟨hc, -⟩) <;> omega
      rw [if_neg hcond]
  refine ⟨?_, ?_⟩
  · unfold Uint64 toUint64
    rw [hcore]
  · unfold toUint64
    rw [hcore]

end Fixed

namespace Fixed

theorem uint64_saturates_witness :
    maxMantissa * 10 ^ 127 < natVal (fromMantAndExp maxMantissa 1) ∧
      Uint64 (fromMantAndExp maxMantissa 1) = maxMantissa ∧
        (toUint64 (fromMantAndExp maxMantissa 1)).2 = false :=
  ⟨by decide, uint64_saturates (fromMantAndExp maxMantissa 1) (by decide)⟩

end Fixed

namespace Fixed

/-! ## String formatting (`String` / `WriteToStringsBuilder`)

Strings are modelled as `List Char`.  `manyZeros` is the 145-zero constant;
`zeroStr` clamps at `len(manyZeros) - 1 = 144` zeros. -/

def manyZerosLen : ℕ := 145

def digitsInMaxMantissa : ℕ := decimalDigits maxMantissa

/-- `zeroStr(l)`: a run of `l` zeros, clamped to 144, empty for negative. -/
def zeroStr (l : ℤ) : List Char :=
  if l < 0 then []
  else if (manyZerosLen : ℤ) ≤ l then List.replicate (manyZerosLen - 1) '0'
  else List.replicate l.toNat '0'

/-- `strconv.FormatUint(n, 10)`: most-significant-first decimal digits.
The fuel 20 covers every `uint64`. -/
def FormatUintAux : ℕ → ℕ → List Char
  | 0, _ => []
  | fuel + 1, n =>
      if n < 10 then [Char.ofNat (48 + n)]
      else FormatUintAux fuel (n / 10) ++ [Char.ofNat (48 + n % 10)]

def FormatUint (n : ℕ) : List Char := FormatUintAux 20 n

/-- `strconv.Itoa` / `FormatInt` on an integer. -/
def FormatInt (n : ℤ) : List Char :=
  if n < 0 then '-' :: FormatUint n.natAbs else FormatUint n.toNat

/-- `WriteToStringsBuilder`, positive-exponent arm: the mantissa digits,
`e` zeros, and the `e<n>` suffix if the zero run was clamped. -/
def stringPosExp (s : List Char) (e : ℤ) : List Char :=
  s ++ zeroStr e ++
    (if 0 < e - ((zeroStr e).length : ℤ) then
      'e' :: FormatInt (e - ((zeroStr e).length : ℤ))
    else [])

/-- `WriteToStringsBuilder`, negative-exponent arm: either `0.` with leading
zeros (and the `e-<n>` suffix if clamped), or the digits with an inserted
delimiter. -/
def stringNegExp (s : List Char) (e : ℤ) : List Char :=
  if (s.length : ℤ) + e ≤ 0 then
    ['0', '.'] ++ zeroStr (-((s.length : ℤ) + e)) ++ s ++
      (if 0 < -((s.length : ℤ) + e) - ((zeroStr (-((s.length : ℤ) + e))).length : ℤ)
       then
        'e' :: '-' :: FormatInt (-((s.length : ℤ) + e) -
          ((zeroStr (-((s.length : ℤ) + e))).length : ℤ))
      else [])
  else
    s.take ((s.length : ℤ) + e).toNat ++ '.' :: s.drop ((s.length : ℤ) + e).toNat

/-- `WriteToStringsBuilder`: normalize, then format by exponent sign. -/
def WriteToStringsBuilder (v : Value) : List Char :=
  if mant (Normalized v) = 0 then ['0']
  else if exp (Normalized v) = 0 then FormatUint (mant (Normalized v))
  else if 0 < exp (Normalized v) then
    stringPosExp (FormatUint (mant (Normalized v))) (exp (Normalized v))
  else stringNegExp (FormatUint (mant (Normalized v))) (exp (Normalized v))

/-- `String()`. -/
def String (v : Value) : List Char := WriteToStringsBuilder v

end Fixed

namespace Fixed

/-! ## Digit-string lemmas -/

theorem formatUintAux_succ (fuel n : ℕ) :
    FormatUintAux (fuel + 1) n =
      if n < 10 then [Char.ofNat (48 + n)]
      else FormatUintAux fuel (n / 10) ++ [Char.ofNat (48 + n % 10)] := rfl

theorem digit_bounds {c : Char} (h : ∃ d, d < 10 ∧ c = Char.ofNat (48 + d)) :
    '0' ≤ c ∧ c ≤ '9' := by
  obtain ⟨d, hd, rfl⟩ := h
  interval_cases d <;> exact ⟨by decide, by decide⟩

theorem digit_ne_dot {c : Char} (h : ∃ d, d < 10 ∧ c = Char.ofNat (48 + d)) :
    c ≠ '.' := by
  obtain ⟨d, hd, rfl⟩ := h
  interval_cases d <;> decide

theorem formatUintAux_digits : ∀ (fuel n : ℕ), ∀ c ∈ FormatUintAux fuel n,
    ∃ d, d < 10 ∧ c = Char.ofNat (48 + d)
  | 0, n => by intro c hc; simp [FormatUintAux] at hc
  | fuel + 1, n => by
    intro c hc
    rw [formatUintAux_succ] at hc
    by_cases h : n < 10
    · rw [if_pos h] at hc
      simp only [List.mem_singleton] at hc
      exact ⟨n, h, hc⟩
    · rw [if_neg h] at hc
      rcases List.mem_append.mp hc with h1 | h2
      · exact formatUintAux_digits fuel (n / 10) c h1
      · simp only [List.mem_singleton] at h2
        exact ⟨n % 10, Nat.mod_lt _ (by norm_num), h2⟩

theorem formatUint_digits (n : ℕ) : ∀ c ∈ FormatUint n,
    ∃ d, d < 10 ∧ c = Char.ofNat (48 + d) :=
  formatUintAux_digits 20 n

theorem formatUintAux_ne_nil : ∀ (fuel n : ℕ), FormatUintAux (fuel + 1) n ≠ []
  | fuel, n => by
    rw [formatUintAux_succ]
    by_cases h : n < 10
    · rw [if_pos h]; simp
    · rw [if_neg h]; simp

theorem formatUint_ne_nil (n : ℕ) : FormatUint n ≠ [] :=
  formatUintAux_ne_nil 19 n

theorem zeroStr_small {l : ℤ} (h0 : 0 ≤ l) (h1 : l < 145) :
    zeroStr l = List.replicate l.toNat '0' := by
  unfold zeroStr manyZerosLen
  rw [if_neg (by omega), if_neg (by omega)]

theorem zeroStr_length_small {l : ℤ} (h0 : 0 ≤ l) (h1 : l < 145) :
    ((zeroStr l).length : ℤ) = l := by
  rw [zeroStr_small h0 h1, List.length_replicate]
  omega

end Fixed

namespace Fixed

/-! ## Claim C10: the scientific suffix is unreachable -/

theorem count_dot_replicate_zero (k : ℕ) :
    (List.replicate k '0').count '.' = 0 :=
  List.count_eq_zero.mpr (fun hc =>
    absurd (List.eq_of_mem_replicate hc) (by decide))

theorem zero_char_digit : ∃ d, d < 10 ∧ ('0' : Char) = Char.ofNat (48 + d) :=
  ⟨0, by norm_num, by decide⟩

/-- C10: the scientific `e`-elision suffix is unreachable in the shipped
8-bit-exponent / 56-bit-mantissa configuration: `String v` consists only of
decimal digits and at most one `.` — the longest appended zero run (at most
128 zeros for positive exponents, at most 126 after `0.` for negatives)
never reaches the 145-zero `manyZeros` buffer that triggers the `e<n>`
suffix. -/
theorem string_only_digits (v : Value) :
    (∀ c ∈ String v, c = '.' ∨ ('0' ≤ c ∧ c ≤ '9')) ∧
      (String v).count '.' ≤ 1 := by
  unfold String WriteToStringsBuilder
  by_cases hm : mant (Normalized v) = 0
  · rw [if_pos hm]
    refine ⟨?_, by decide⟩
    intro c hc
    simp only [List.mem_singleton] at hc
    subst hc
    exact Or.inr ⟨by decide, by decide⟩
  · rw [if_neg hm]
    have hdig := formatUint_digits (mant (Normalized v))
    have hnodot : '.' ∉ FormatUint (mant (Normalized v)) :=
      fun hc => digit_ne_dot (hdig _ hc) rfl
    have hcnt0 : (FormatUint (mant (Normalized v))).count '.' = 0 :=
      List.count_eq_zero.mpr hnodot
    have hle := exp_le (Normalized v)
    have hge := exp_ge (Normalized v)
    by_cases he0 : exp (Normalized v) = 0
    · rw [if_pos he0]
      exact ⟨fun c hc => Or.inr (digit_bounds (hdig c hc)),
        by rw [hcnt0]; decide⟩
    · rw [if_neg he0]
      by_cases hep : 0 < exp (Normalized v)
      · rw [if_pos hep]
        unfold stringPosExp
        rw [zeroStr_length_small (by omega) (by omega), if_neg (by omega),
          zeroStr_small (by omega) (by omega)]
        constructor
        · intro c hc
          rw [List.append_nil] at hc
          rcases List.mem_append.mp hc with h1 | h2
          · exact Or.inr (digit_bounds (hdig c h1))
          · rw [List.eq_of_mem_replicate h2]
            exact Or.inr (digit_bounds zero_char_digit)
        · rw [List.append_nil, List.count_append, hcnt0,
            count_dot_replicate_zero]
          decide
      · rw [if_neg hep]
        unfold stringNegExp
        have hL1 : 1 ≤ (FormatUint (mant (Normalized v))).length :=
          List.length_pos.mpr (formatUint_ne_nil _)
        by_cases hdf : ((FormatUint (mant (Normalized v))).length : ℤ) +
            exp (Normalized v) ≤ 0
        · rw [if_pos hdf]
          rw [zeroStr_length_small (by omega) (by omega), if_neg (by omega),
            zeroStr_small (by omega) (by omega)]
          constructor
          · intro c hc
            rw [List.append_nil] at hc
            rcases List.mem_append.mp hc with h1 | h2
            · rcases List.mem_append.mp h1 with h3 | h4
              · simp only [List.mem_cons, List.mem_singleton,
                  List.not_mem_nil, or_false] at h3
                rcases h3 with h3 | h3
                · rw [h3]; exact Or.inr (digit_bounds zero_char_digit)
                · rw [h3]; exact Or.inl rfl
              · rw [List.eq_of_mem_replicate h4]
                exact Or.inr (digit_bounds zero_char_digit)
            · exact Or.inr (digit_bounds (hdig c h2))
          · rw [List.append_nil, List.count_append, List.count_append,
              hcnt0, count_dot_replicate_zero]
            decide
        · rw [if_neg hdf]
          have htk : ∀ c ∈ (FormatUint (mant (Normalized v))).take
              (((FormatUint (mant (Normalized v))).length : ℤ) +
                exp (Normalized v)).toNat, ∃ d, d < 10 ∧ c = Char.ofNat (48 + d) :=
            fun c hc => hdig c (List.take_subset _ _ hc)
          have hdr : ∀ c ∈ (FormatUint (mant (Normalized v))).drop
              (((FormatUint (mant (Normalized v))).length : ℤ) +
                exp (Normalized v)).toNat, ∃ d, d < 10 ∧ c = Char.ofNat (48 + d) :=
            fun c hc => hdig c (List.drop_subset _ _ hc)
          constructor
          · intro c hc
            rcases List.mem_append.mp hc with h1 | h2
            · exact Or.inr (digit_bounds (htk c h1))
            · simp only [List.mem_cons] at h2
              rcases h2 with h2 | h2
              · exact Or.inl h2
              · exact Or.inr (digit_bounds (hdr c h2))
          · rw [List.count_append, List.count_cons]
            have ht0 : ((FormatUint (mant (Normalized v))).take
                (((FormatUint (mant (Normalized v))).length : ℤ) +
                  exp (Normalized v)).toNat).count '.' = 0 :=
              List.count_eq_zero.mpr (fun hc => digit_ne_dot (htk _ hc) rfl)
            have hd0 : ((FormatUint (mant (Normalized v))).drop
                (((FormatUint (mant (Normalized v))).length : ℤ) +
                  exp (Normalized v)).toNat).count '.' = 0 :=
              List.count_eq_zero.mpr (fun hc => digit_ne_dot (hdr _ hc) rfl)
            rw [ht0, hd0]
            decide

end Fixed

namespace Fixed

/-! ## Parsing (`FromString`)

Strings are `List Char`.  `isSpace` models Go's `unicode.IsSpace` on the
Latin-1 range (the only characters this development feeds it); the full
Unicode White_Space table is not modelled. -/

def isSpace (c : Char) : Bool :=
  c = ' ' ∨ c = '\t' ∨ c = '\n' ∨ c.toNat = 11 ∨ c.toNat = 12 ∨ c = '\r' ∨
    c.toNat = 133 ∨ c.toNat = 160

/-- Leading-quote strip of `prepareString` (returns the offset delta). -/
def dropQuote (s : List Char) : List Char × ℕ :=
  if s.head? = some '\"' then (s.drop 1, 1) else (s, 0)

/-- Trailing-quote strip of `prepareString`. -/
def dropEndQuote (s : List Char) : List Char :=
  if s.getLast? = some '\"' then s.dropLast else s

/-- `strings.TrimRightFunc(s, unicode.IsSpace)`. -/
def trimRight (s : List Char) : List Char :=
  (s.reverse.dropWhile isSpace).reverse

/-- Sign strip of `prepareString`. -/
def prepareSign (s : List Char) (offset : ℕ) : List Char × ℕ × Bool :=
  if s.length = 0 then ([], 0, false)
  else if s.head? = some '-' then (s.drop 1, offset + 1, true)
  else if s.head? = some '+' then (s.drop 1, offset + 1, false)
  else (s, offset, false)

/-- Quote removal, whitespace trimming and sign strip of `prepareString`
after the leading quote was handled (`offset` counts removed lead chars). -/
def prepareTrim (s : List Char) (offset : ℕ) : List Char × ℕ × Bool :=
  if s.length = 0 then ([], 0, false)
  else
    prepareSign (trimRight ((dropEndQuote s).dropWhile isSpace))
      (offset + ((dropEndQuote s).length -
        ((dropEndQuote s).dropWhile isSpace).length))

/-- `prepareString(s)`: strip quotes, spaces and a sign; report the number of
leading characters removed and whether the value was negated. -/
def prepareString (s : List Char) : List Char × ℕ × Bool :=
  if s.length = 0 then ([], 0, false)
  else prepareTrim (dropQuote s).1 (dropQuote s).2

/-- `strconv.ParseUint(s, 10, 64)` body: digits with a 64-bit overflow
check. -/
def parseDigitsAux : List Char → ℕ → Option ℕ
  | [], acc => some acc
  | c :: rest, acc =>
      if '0' ≤ c ∧ c ≤ '9' then
        if acc * 10 + (c.toNat - 48) < 2 ^ 64 then
          parseDigitsAux rest (acc * 10 + (c.toNat - 48))
        else none
      else none

def ParseUint (s : List Char) : Option ℕ :=
  if s.length = 0 then none else parseDigitsAux s 0

/-- `strconv.ParseInt(s, 10, 64)`: optional sign, then digits, with the
64-bit signed range check. -/
def ParseInt (s : List Char) : Option ℤ :=
  match s with
  | '-' :: rest =>
      match ParseUint rest with
      | none => none
      | some n => if n ≤ 2 ^ 63 then some (-(n : ℤ)) else none
  | '+' :: rest =>
      match ParseUint rest with
      | none => none
      | some n => if n < 2 ^ 63 then some (n : ℤ) else none
  | _ =>
      match ParseUint s with
      | none => none
      | some n => if n < 2 ^ 63 then some (n : ℤ) else none

/-- Scanner loop of `removeLeadingZeros`: `i` is the char index, `b` the
builder, `delimPos`/`fnz` are `-1` until seen.  Returns
`(b, delimPos, firstNonZeroPos, e)`; `none` models an error return. -/
def rlzAux : List Char → ℕ → List Char → ℤ → ℤ → Option (List Char × ℤ × ℤ × ℤ)
  | [], _, b, delimPos, fnz => some (b, delimPos, fnz, 0)
  | r :: rest, i, b, delimPos, fnz =>
      if '0' ≤ r ∧ r ≤ '9' then
        if b.length = 0 ∧ r = '0' then rlzAux rest (i + 1) b delimPos fnz
        else if b.length = 0 then rlzAux rest (i + 1) (b ++ [r]) delimPos (i : ℤ)
        else rlzAux rest (i + 1) (b ++ [r]) delimPos fnz
      else if r = 'e' then
        match ParseInt rest with
        | none => none
        | some p => some (b, delimPos, fnz, wrap32 p)
      else if r = '.' then
        if delimPos ≠ -1 then none
        else rlzAux rest (i + 1) b (i : ℤ) fnz
      else none

/-- `removeLeadingZeros(s)`: digits without leading zeros, the delimiter
position relative to the trimmed string, and the explicit exponent. -/
def removeLeadingZeros (s : List Char) : Option (List Char × ℤ × ℤ) :=
  match rlzAux s 0 [] (-1) (-1) with
  | none => none
  | some (b, delimPos, fnz, e) =>
      if fnz = -1 then some ([], 0, e)
      else if 0 ≤ delimPos then
        if delimPos < fnz then some (b, delimPos - (fnz - 1), e)
        else some (b, delimPos - fnz, e)
      else some (b, (b.length : ℤ), e)

/-- `removeTrailingZerosString(s, delimPos)`. -/
def removeTrailingZerosString (s : List Char) (delimPos : ℤ) : List Char × ℤ :=
  ((s.reverse.dropWhile (fun c => c = '0')).reverse,
    wrap32 (delimPos - ((s.reverse.dropWhile (fun c => c = '0')).reverse.length : ℤ)))

/-- `parseValue(s)`. -/
def parseValue (s : List Char) : Option (List Char × ℤ) :=
  match removeLeadingZeros s with
  | none => none
  | some (result, delimPos, e) =>
      some ((removeTrailingZerosString result delimPos).1,
        wrap32 (e + (removeTrailingZerosString result delimPos).2))

/-- Exponent increment of `fromStringAndExp` when the digit string is cut. -/
def fromStringAndExpInc (toCut e : ℤ) : ℤ :=
  if e < 0 then wrap32 (wrap32 toCut - -e) else wrap32 toCut

/-- `fromStringAndExp(s, e)`; `none` models the `strconv.ParseUint` panic
(`should not normally happen`). -/
def fromStringAndExp (s : List Char) (e : ℤ) : Option Value :=
  if s.length = 0 then some zero
  else if 0 < (s.length : ℤ) - (digitsInMaxMantissa : ℤ) then
    match ParseUint (s.take digitsInMaxMantissa) with
    | none => none
    | some u =>
        some (adjustMantExp u
          (if 0 < fromStringAndExpInc ((s.length : ℤ) - (digitsInMaxMantissa : ℤ)) e
           then
            wrap32 (e + fromStringAndExpInc
              ((s.length : ℤ) - (digitsInMaxMantissa : ℤ)) e)
           else e))
  else
    match ParseUint s with
    | none => none
    | some u => some (adjustMantExp u e)

/-- Error results of `FromString`.  `parseFailed` is a spec-modelled collapse
of the branch where `parseValue` fails: Go then retries the input as a
float64 and, failing that, returns a positioned parse error; neither outcome
is reached by any theorem below. -/
inductive FromStringError where
  | emptyInput
  | negativeValue
  | parseFailed
deriving DecidableEq

/-- `FromString(s)`.  The outer `Option` models the unreachable
`fromStringAndExp` panic. -/
def FromString (s : List Char) : Option (Except FromStringError Value) :=
  if (prepareString s).1.length = 0 then
    some (Except.error FromStringError.emptyInput)
  else if (prepareString s).2.2 = true then
    some (Except.error FromStringError.negativeValue)
  else
    match parseValue (prepareString s).1 with
    | none => some (Except.error FromStringError.parseFailed)
    | some (parsed, e) =>
        match fromStringAndExp parsed e with
        | none => none
        | some v => some (Except.ok v)

end Fixed

namespace Fixed

/-! ## Claim C8: doubled sign -/

/-- C8 (counterexample to the spec): `FromString("   --")` does NOT fail
with a positioned `ParseError` — the first `-` sets the negative flag in
`prepareString`, and `FromString` then returns the plain
`negative value` error (no position) before `parseValue` ever runs.  In this
model the positioned-error path is the `parseFailed` constructor, and the
result is `negativeValue` instead. -/
theorem fromString_doubled_sign :
    FromString [' ', ' ', ' ', '-', '-'] =
      some (Except.error FromStringError.negativeValue) := rfl

/-- C8 (amended): whenever `prepareString` leaves a nonempty remainder and
reports a leading minus sign, `FromString` fails with the plain, unpositioned
`negative value` error — `"   --"` being one such input. -/
theorem fromString_negative_plain_error (s : List Char)
    (h1 : (prepareString s).1.length ≠ 0) (h2 : (prepareString s).2.2 = true) :
    FromString s = some (Except.error FromStringError.negativeValue) := by
  unfold FromString
  rw [if_neg h1, if_pos h2]

theorem fromString_negative_plain_error_witness :
    (prepareString [' ', ' ', ' ', '-', '-']).1.length ≠ 0 ∧
      (prepareString [' ', ' ', ' ', '-', '-']).2.2 = true ∧
      FromString [' ', ' ', ' ', '-', '-'] =
        some (Except.error FromStringError.negativeValue) :=
  ⟨by decide, by decide,
    fromString_negative_plain_error [' ', ' ', ' ', '-', '-']
      (by decide) (by decide)⟩

end Fixed

namespace Fixed

/-! ## Digit strings: length, head, last, and the parse round-trip -/

theorem charDigit_toNat {d : ℕ} (h : d < 10) :
    (Char.ofNat (48 + d)).toNat = 48 + d := by
  interval_cases d <;> decide

theorem digitChar_ne_zero {d : ℕ} (h1 : d < 10) (h2 : d ≠ 0) :
    Char.ofNat (48 + d) ≠ '0' := by
  interval_cases d
  · exact absurd rfl h2
  all_goals decide

theorem div10_lt_pow {fuel n : ℕ} (h2 : n < 10 ^ (fuel + 1)) :
    n / 10 < 10 ^ fuel := by
  rw [Nat.div_lt_iff_lt_mul (by norm_num : (0:ℕ) < 10)]
  calc n < 10 ^ (fuel + 1) := h2
    _ = 10 ^ fuel * 10 := pow_succ 10 fuel

theorem formatUintAux_len : ∀ (fuel n : ℕ), 0 < n → n < 10 ^ fuel →
    1 ≤ (FormatUintAux fuel n).length ∧
      10 ^ ((FormatUintAux fuel n).length - 1) ≤ n ∧
      n < 10 ^ (FormatUintAux fuel n).length
  | 0, n => by intro h1 h2; omega
  | fuel + 1, n => by
    intro h1 h2
    rw [formatUintAux_succ]
    by_cases h : n < 10
    · rw [if_pos h]
      refine ⟨by simp, by simpa using h1, by simpa using h⟩
    · rw [if_neg h]
      have hd : 0 < n / 10 := Nat.div_pos (by omega) (by norm_num)
      have hlt : n / 10 < 10 ^ fuel := div10_lt_pow h2
      obtain ⟨hL, hlo, hhi⟩ := formatUintAux_len fuel (n / 10) hd hlt
      rw [List.length_append, List.length_singleton]
      set L := (FormatUintAux fuel (n / 10)).length with hLdef
      refine ⟨by omega, ?_, ?_⟩
      · have hpw : 10 ^ (L + 1 - 1) = 10 ^ (L - 1) * 10 := by
          rw [← pow_succ]
          congr 1
          omega
        rw [hpw]
        calc 10 ^ (L - 1) * 10 ≤ n / 10 * 10 := Nat.mul_le_mul_right _ hlo
          _ ≤ n := Nat.div_mul_le_self _ _
      · rw [pow_succ]
        have h10 : n < (n / 10 + 1) * 10 := by
          rw [← Nat.div_lt_iff_lt_mul (by norm_num : (0:ℕ) < 10)]
          omega
        calc n < (n / 10 + 1) * 10 := h10
          _ ≤ 10 ^ L * 10 := Nat.mul_le_mul_right _ (by omega)

theorem formatUintAux_head : ∀ (fuel n : ℕ), 0 < n → n < 10 ^ fuel →
    ∃ d t, 1 ≤ d ∧ d < 10 ∧ FormatUintAux fuel n = Char.ofNat (48 + d) :: t
  | 0, n => by intro h1 h2; omega
  | fuel + 1, n => by
    intro h1 h2
    rw [formatUintAux_succ]
    by_cases h : n < 10
    · rw [if_pos h]
      exact ⟨n, [], h1, h, rfl⟩
    · rw [if_neg h]
      have hd : 0 < n / 10 := Nat.div_pos (by omega) (by norm_num)
      have hlt : n / 10 < 10 ^ fuel := div10_lt_pow h2
      obtain ⟨d, t, hd1, hd10, heq⟩ := formatUintAux_head fuel (n / 10) hd hlt
      exact ⟨d, t ++ [Char.ofNat (48 + n % 10)], hd1, hd10, by rw [heq]; rfl⟩

theorem formatUintAux_last : ∀ (fuel n : ℕ), 0 < n → n < 10 ^ fuel →
    ∃ p, FormatUintAux fuel n = p ++ [Char.ofNat (48 + n % 10)]
  | 0, n => by intro h1 h2; omega
  | fuel + 1, n => by
    intro h1 h2
    rw [formatUintAux_succ]
    by_cases h : n < 10
    · rw [if_pos h]
      exact ⟨[], by rw [Nat.mod_eq_of_lt h, List.nil_append]⟩
    · rw [if_neg h]
      exact ⟨FormatUintAux fuel (n / 10), rfl⟩

theorem formatUintAux_fuel : ∀ (f1 f2 n : ℕ), 0 < n → n < 10 ^ f1 →
    n < 10 ^ f2 → FormatUintAux f1 n = FormatUintAux f2 n
  | 0, f2, n => by intro h1 h2 h3; omega
  | f1 + 1, 0, n => by intro h1 h2 h3; omega
  | f1 + 1, f2 + 1, n => by
    intro h1 h2 h3
    rw [formatUintAux_succ, formatUintAux_succ]
    by_cases h : n < 10
    · rw [if_pos h, if_pos h]
    · rw [if_neg h, if_neg h]
      have hd : 0 < n / 10 := Nat.div_pos (by omega) (by norm_num)
      rw [formatUintAux_fuel f1 f2 (n / 10) hd (div10_lt_pow h2) (div10_lt_pow h3)]

theorem two_pow_64_lt_ten_pow_20 : (2 : ℕ) ^ 64 < 10 ^ 20 := by norm_num

/-- The length of the decimal digit string agrees with `decimalDigits`. -/
theorem formatUint_length {n : ℕ} (h1 : 0 < n) (h2 : n < 2 ^ 64) :
    (FormatUint n).length = decimalDigits n := by
  have h20 : n < 10 ^ 20 := lt_trans h2 two_pow_64_lt_ten_pow_20
  unfold FormatUint
  obtain ⟨hL, hlo, hhi⟩ := formatUintAux_len 20 n h1 h20
  obtain ⟨hlo2, hhi2⟩ := decimalDigits_spec h1 h2
  have hd1 := decimalDigits_pos n
  by_contra hne
  rcases Nat.lt_or_ge (FormatUintAux 20 n).length (decimalDigits n) with hlt | hge
  · have : (10 : ℕ) ^ (FormatUintAux 20 n).length ≤ 10 ^ (decimalDigits n - 1) :=
      Nat.pow_le_pow_right (by norm_num) (by omega)
    omega
  · have hgt : decimalDigits n < (FormatUintAux 20 n).length := by omega
    have : (10 : ℕ) ^ (decimalDigits n) ≤ 10 ^ ((FormatUintAux 20 n).length - 1) :=
      Nat.pow_le_pow_right (by norm_num) (by omega)
    omega

theorem formatUint_head {n : ℕ} (h1 : 0 < n) (h2 : n < 2 ^ 64) :
    ∃ d t, 1 ≤ d ∧ d < 10 ∧ FormatUint n = Char.ofNat (48 + d) :: t :=
  formatUintAux_head 20 n h1 (lt_trans h2 two_pow_64_lt_ten_pow_20)

theorem formatUint_last {n : ℕ} (h1 : 0 < n) (h2 : n < 2 ^ 64) :
    ∃ p, FormatUint n = p ++ [Char.ofNat (48 + n % 10)] :=
  formatUintAux_last 20 n h1 (lt_trans h2 two_pow_64_lt_ten_pow_20)

/-- Appending a decimal zero to the number appends a `'0'` character. -/
theorem formatUint_mul10 {n : ℕ} (h1 : 0 < n) (h2 : n * 10 < 10 ^ 20) :
    FormatUint (n * 10) = FormatUint n ++ ['0'] := by
  have h10 : ¬ n * 10 < 10 := by omega
  have hq : n * 10 / 10 = n := Nat.mul_div_cancel _ (by norm_num)
  have hr : n * 10 % 10 = 0 := Nat.mul_mod_left n 10
  show FormatUintAux (19 + 1) (n * 10) = _
  rw [formatUintAux_succ, if_neg h10, hq, hr]
  have hf : FormatUintAux 19 n = FormatUintAux 20 n :=
    formatUintAux_fuel 19 20 n h1 (by omega) (by omega)
  rw [hf]
  rfl

theorem formatUint_mul_pow10 {n : ℕ} (k : ℕ) (h1 : 0 < n)
    (h2 : n * 10 ^ k < 10 ^ 20) :
    FormatUint (n * 10 ^ k) = FormatUint n ++ List.replicate k '0' := by
  induction k with
  | zero => simp
  | succ k ih =>
      have hk : n * 10 ^ k < 10 ^ 20 := by
        have : n * 10 ^ k ≤ n * 10 ^ (k + 1) :=
          Nat.mul_le_mul_left _ (Nat.pow_le_pow_right (by norm_num) (by omega))
        omega
      have hstep : n * 10 ^ (k + 1) = n * 10 ^ k * 10 := by ring
      rw [hstep, formatUint_mul10 (by positivity) (by omega), ih hk,
        List.append_assoc]
      congr 1
      rw [List.replicate_succ']

/-- `parseDigitsAux` over an append runs the two halves in sequence. -/
theorem parseDigitsAux_append : ∀ (l1 l2 : List Char) (acc : ℕ),
    parseDigitsAux (l1 ++ l2) acc =
      match parseDigitsAux l1 acc with
      | none => none
      | some a => parseDigitsAux l2 a
  | [], l2, acc => rfl
  | c :: l1, l2, acc => by
    rw [List.cons_append, parseDigitsAux, parseDigitsAux]
    by_cases h : '0' ≤ c ∧ c ≤ '9'
    · rw [if_pos h, if_pos h]
      by_cases h2 : acc * 10 + (c.toNat - 48) < 2 ^ 64
      · rw [if_pos h2, if_pos h2]
        exact parseDigitsAux_append l1 l2 _
      · rw [if_neg h2, if_neg h2]
    · rw [if_neg h, if_neg h]

theorem parseDigitsAux_formatUintAux : ∀ (fuel n acc : ℕ), 0 < n →
    n < 10 ^ fuel →
    acc * 10 ^ (FormatUintAux fuel n).length + n < 2 ^ 64 →
    parseDigitsAux (FormatUintAux fuel n) acc =
      some (acc * 10 ^ (FormatUintAux fuel n).length + n)
  | 0, n, acc => by intro h1 h2; omega
  | fuel + 1, n, acc => by
    intro h1 h2 hov
    rw [formatUintAux_succ] at hov ⊢
    by_cases h : n < 10
    · rw [if_pos h] at hov ⊢
      rw [parseDigitsAux, if_pos (digit_bounds ⟨n, h, rfl⟩), charDigit_toNat h]
      have hsim : acc * 10 + (48 + n - 48) = acc * 10 + n := by omega
      rw [hsim]
      have hlen : acc * 10 ^ [Char.ofNat (48 + n)].length + n = acc * 10 + n := by
        rw [List.length_singleton, pow_one]
      rw [hlen] at hov
      rw [if_pos hov, hlen]
      rfl
    · rw [if_neg h] at hov ⊢
      have hd : 0 < n / 10 := Nat.div_pos (by omega) (by norm_num)
      have hlt : n / 10 < 10 ^ fuel := div10_lt_pow h2
      rw [List.length_append, List.length_singleton] at hov ⊢
      set L := (FormatUintAux fuel (n / 10)).length with hLdef
      have hql : acc * 10 ^ L + n / 10 < 2 ^ 64 := by
        have hmono : acc * 10 ^ L ≤ acc * 10 ^ (L + 1) :=
          Nat.mul_le_mul_left _ (Nat.pow_le_pow_right (by norm_num) (by omega))
        have hdle : n / 10 ≤ n := Nat.div_le_self _ _
        omega
      rw [parseDigitsAux_append]
      rw [parseDigitsAux_formatUintAux fuel (n / 10) acc hd hlt hql]
      dsimp only
      rw [parseDigitsAux,
        if_pos (digit_bounds ⟨n % 10, Nat.mod_lt _ (by norm_num), rfl⟩),
        charDigit_toNat (Nat.mod_lt _ (by norm_num))]
      have hsim : (acc * 10 ^ L + n / 10) * 10 + (48 + n % 10 - 48) =
          acc * 10 ^ (L + 1) + n := by
        have hg : 48 + n % 10 - 48 = n % 10 := by omega
        rw [hg]
        calc (acc * 10 ^ L + n / 10) * 10 + n % 10
            = acc * (10 ^ L * 10) + (10 * (n / 10) + n % 10) := by ring
          _ = acc * 10 ^ (L + 1) + n := by rw [← pow_succ, Nat.div_add_mod]
      rw [hsim, if_pos hov]
      rfl

/-- The digit-string round trip: `ParseUint (FormatUint n) = n`. -/
theorem parseUint_formatUint {n : ℕ} (h1 : 0 < n) (h2 : n < 2 ^ 64) :
    ParseUint (FormatUint n) = some n := by
  have h20 : n < 10 ^ 20 := lt_trans h2 two_pow_64_lt_ten_pow_20
  unfold ParseUint
  rw [if_neg (by simpa using formatUint_ne_nil n)]
  have := parseDigitsAux_formatUintAux 20 n 0 h1 h20
    (by rw [Nat.zero_mul, Nat.zero_add]; exact h2)
  rw [FormatUint] at *
  rw [this, Nat.zero_mul, Nat.zero_add]

/-! ## Scanner lemmas for `removeLeadingZeros` -/

theorem rlzAux_nil (i : ℕ) (b : List Char) (dp fnz : ℤ) :
    rlzAux [] i b dp fnz = some (b, dp, fnz, 0) := rfl

/-- Digits after the first significant one are simply appended. -/
theorem rlzAux_digits : ∀ (l rest : List Char) (i : ℕ) (b : List Char)
    (dp fnz : ℤ), (∀ c ∈ l, ∃ d, d < 10 ∧ c = Char.ofNat (48 + d)) → b ≠ [] →
    rlzAux (l ++ rest) i b dp fnz = rlzAux rest (i + l.length) (b ++ l) dp fnz
  | [], rest, i, b, dp, fnz => by
    intro _ _
    rw [List.nil_append, List.append_nil, List.length_nil, Nat.add_zero]
  | c :: l, rest, i, b, dp, fnz => by
    intro hdig hb
    obtain ⟨d, hd, rfl⟩ := hdig c (List.mem_cons_self c l)
    rw [List.cons_append, rlzAux, if_pos (digit_bounds ⟨d, hd, rfl⟩)]
    have hlen : ¬ b.length = 0 := by
      simpa using hb
    rw [if_neg (fun hc => hlen hc.1), if_neg hlen]
    rw [rlzAux_digits l rest (i + 1) (b ++ [Char.ofNat (48 + d)]) dp fnz
      (fun c hc => hdig c (List.mem_cons_of_mem _ hc)) (by simp)]
    rw [List.append_assoc, List.singleton_append, List.length_cons]
    congr 1
    omega

/-- Leading zeros are skipped while the builder is empty. -/
theorem rlzAux_zeros : ∀ (k : ℕ) (rest : List Char) (i : ℕ) (dp fnz : ℤ),
    rlzAux (List.replicate k '0' ++ rest) i [] dp fnz =
      rlzAux rest (i + k) [] dp fnz
  | 0, rest, i, dp, fnz => by
    rw [List.replicate_zero, List.nil_append, Nat.add_zero]
  | k + 1, rest, i, dp, fnz => by
    rw [List.replicate_succ, List.cons_append, rlzAux,
      if_pos (by decide : ('0' : Char) ≥ '0' ∧ ('0' : Char) ≤ '9'),
      if_pos ⟨rfl, rfl⟩]
    rw [rlzAux_zeros k rest (i + 1) dp fnz]
    congr 1
    omega

/-- The first nonzero digit starts the builder and records its position. -/
theorem rlzAux_first {d : ℕ} (h1 : 1 ≤ d) (h10 : d < 10) (rest : List Char)
    (i : ℕ) (dp fnz : ℤ) :
    rlzAux (Char.ofNat (48 + d) :: rest) i [] dp fnz =
      rlzAux rest (i + 1) [Char.ofNat (48 + d)] dp (i : ℤ) := by
  rw [rlzAux, if_pos (digit_bounds ⟨d, h10, rfl⟩)]
  rw [if_neg (fun hc => digitChar_ne_zero h10 (by omega) hc.2),
    if_pos (by simp : ([] : List Char).length = 0), List.nil_append]

/-- The first delimiter records its position and continues. -/
theorem rlzAux_dot (rest : List Char) (i : ℕ) (b : List Char) (fnz : ℤ) :
    rlzAux ('.' :: rest) i b (-1) fnz = rlzAux rest (i + 1) b (i : ℤ) fnz := by
  rw [rlzAux, if_neg (by decide), if_neg (by decide), if_pos rfl,
    if_neg (by omega)]

/-! ## Trailing-zero stripping and `prepareString` on clean inputs -/

theorem dropWhile_replicate_append {p : Char → Bool} {a : Char}
    (hp : p a = true) : ∀ (k : ℕ) (l : List Char),
    List.dropWhile p (List.replicate k a ++ l) = List.dropWhile p l
  | 0, l => by rw [List.replicate_zero, List.nil_append]
  | k + 1, l => by
    rw [List.replicate_succ, List.cons_append, List.dropWhile_cons, if_pos hp]
    exact dropWhile_replicate_append hp k l

theorem removeTrailingZeros_strip {l p : List Char} {c : Char}
    (hl : l = p ++ [c]) (hc : c ≠ '0') (k : ℕ) (dp : ℤ) :
    removeTrailingZerosString (l ++ List.replicate k '0') dp =
      (l, wrap32 (dp - (l.length : ℤ))) := by
  unfold removeTrailingZerosString
  have hrev : (l ++ List.replicate k '0').reverse =
      List.replicate k '0' ++ (c :: p.reverse) := by
    rw [List.reverse_append, List.reverse_replicate, hl, List.reverse_append]
    rfl
  rw [hrev, dropWhile_replicate_append (by decide) k,
    List.dropWhile_cons, if_neg (by simpa using hc)]
  rw [show (c :: p.reverse).reverse = p ++ [c] by
    rw [List.reverse_cons, List.reverse_reverse]]
  rw [← hl]

theorem removeTrailingZeros_noop {l p : List Char} {c : Char}
    (hl : l = p ++ [c]) (hc : c ≠ '0') (dp : ℤ) :
    removeTrailingZerosString l dp = (l, wrap32 (dp - (l.length : ℤ))) := by
  have := removeTrailingZeros_strip hl hc 0 dp
  rw [List.replicate_zero, List.append_nil] at this
  exact this

/-- A digit-or-dot character passes every `prepareString` filter. -/
theorem clean_char_facts {c : Char}
    (h : c = '.' ∨ ∃ d, d < 10 ∧ c = Char.ofNat (48 + d)) :
    c ≠ '\"' ∧ c ≠ '-' ∧ c ≠ '+' ∧ isSpace c = false := by
  rcases h with h | ⟨d, hd10, rfl⟩
  · subst h; exact ⟨by decide, by decide, by decide, by decide⟩
  · refine ⟨?_, ?_, ?_, ?_⟩ <;> interval_cases d <;> decide

/-- `prepareString` is the identity (offset 0, no sign) on a nonempty string
whose characters are digits or `.`. -/
theorem prepareString_clean {s : List Char} (hne : s ≠ [])
    (hd : ∀ c ∈ s, c = '.' ∨ ∃ d, d < 10 ∧ c = Char.ofNat (48 + d)) :
    prepareString s = (s, 0, false) := by
  have hhead : ∀ ch, s.head? = some ch →
      ch ≠ '\"' ∧ ch ≠ '-' ∧ ch ≠ '+' ∧ isSpace ch = false :=
    fun ch hch => clean_char_facts (hd ch (List.mem_of_mem_head? hch))
  have hlast : ∀ cl, s.getLast? = some cl → cl ≠ '\"' ∧ isSpace cl = false := by
    intro cl hcl
    have h := clean_char_facts (hd cl (List.mem_of_mem_getLast? hcl))
    exact ⟨h.1, h.2.2.2⟩
  obtain ⟨c0, t, rfl⟩ := List.exists_cons_of_ne_nil hne
  obtain ⟨hq0, hm0, hp0, hs0⟩ := hhead c0 rfl
  unfold prepareString
  rw [if_neg (by simp)]
  have hdq : dropQuote (c0 :: t) = (c0 :: t, 0) := by
    unfold dropQuote
    rw [if_neg (by simpa using hq0)]
  rw [hdq]
  unfold prepareTrim
  rw [if_neg (by simp)]
  have hdeq : dropEndQuote (c0 :: t) = c0 :: t := by
    unfold dropEndQuote
    rcases hgl : (c0 :: t).getLast? with _ | cl
    · simp
    · rw [if_neg (by simpa using (hlast cl hgl).1)]
  rw [hdeq]
  have hdw : (c0 :: t).dropWhile isSpace = c0 :: t := by
    rw [List.dropWhile_cons, if_neg (by rw [hs0]; simp)]
  rw [hdw, Nat.sub_self, Nat.add_zero]
  have htr : trimRight (c0 :: t) = c0 :: t := by
    unfold trimRight
    obtain ⟨cl, hcl⟩ : ∃ cl, (c0 :: t).getLast? = some cl := by
      cases hgl : (c0 :: t).getLast? with
      | none => exact absurd (List.getLast?_eq_none_iff.mp hgl) (by simp)
      | some cl => exact ⟨cl, rfl⟩
    obtain ⟨p, hp⟩ : ∃ p, c0 :: t = p ++ [cl] := by
      rcases List.eq_nil_or_concat (c0 :: t) with h | ⟨p, a, hpa⟩
      · exact absurd h (by simp)
      · rw [List.concat_eq_append] at hpa
        rw [hpa, List.getLast?_concat] at hcl
        exact ⟨p, by rw [hpa]; injection hcl with h; rw [h]⟩
    rw [hp, List.reverse_append, List.reverse_singleton, List.singleton_append,
      List.dropWhile_cons, if_neg (by rw [(hlast cl hcl).2]; simp)]
    rw [List.reverse_cons, List.reverse_reverse]
  rw [htr]
  unfold prepareSign
  rw [if_neg (by simp), if_neg (by simpa using hm0), if_neg (by simpa using hp0)]

/-! ## Reconstruction lemmas for `Normalized` and `adjustMantExp` -/

theorem Normalized_split {v : Value} (h : mant v ≠ 0) :
    Normalized v = fromMantAndExp (mant (Normalized v)) (exp (Normalized v)) := by
  obtain ⟨hm, he⟩ := mant_exp_Normalized v h
  conv_lhs => rw [Normalized_def v h]
  rw [hm, he]

/-- `adjustLoop2` multiplies the mantissa back up while the exponent exceeds
`maxExponent`; with every intermediate product landing strictly below
`maxMantissa` (which ends in the digit 5, never in 0) it runs to
completion. -/
theorem adjustLoop2_run : ∀ (t m : ℕ), 0 < m → m * 10 ^ t ≤ maxMantissa →
    ∀ fuel : ℕ, t ≤ fuel →
    adjustLoop2 fuel m (128 + (t : ℤ)) = (m * 10 ^ t, 128)
  | 0, m => by
    intro h1 h2 fuel _
    have hstop : ∀ f : ℕ, adjustLoop2 f m 128 = (m, 128) := by
      intro f
      cases f with
      | zero => rfl
      | succ f =>
          rw [adjustLoop2, if_neg]
          rintro ⟨hc, -⟩
          rw [maxExponent_eq] at hc
          omega
    simpa using hstop fuel
  | t + 1, m => by
    intro h1 h2 fuel hfuel
    obtain ⟨f, rfl⟩ : ∃ f, fuel = f + 1 := ⟨fuel - 1, by omega⟩
    have hm10 : m * 10 ≤ maxMantissa := by
      calc m * 10 = m * 10 * 1 := (Nat.mul_one _).symm
        _ ≤ m * 10 * 10 ^ t :=
            Nat.mul_le_mul_left _ (Nat.one_le_pow _ _ (by norm_num))
        _ = m * 10 ^ (t + 1) := by ring
        _ ≤ maxMantissa := h2
    have hne : m * 10 ≠ maxMantissa := by
      intro hc
      have h5 : maxMantissa % 10 = 5 := by rw [maxMantissa_eq]
      rw [← hc, Nat.mul_mod_left] at h5
      exact absurd h5 (by norm_num)
    have hmod : m * 10 % U64 = m * 10 := by
      apply Nat.mod_eq_of_lt
      have : maxMantissa < U64 := by rw [maxMantissa_eq, U64]; norm_num
      omega
    rw [adjustLoop2, if_pos]
    · rw [hmod]
      rw [show (128 : ℤ) + ((t + 1 : ℕ) : ℤ) - 1 = 128 + (t : ℤ) by
        push_cast; ring]
      rw [adjustLoop2_run t (m * 10) (by positivity)
        (by calc m * 10 * 10 ^ t = m * 10 ^ (t + 1) := by ring
              _ ≤ maxMantissa := h2) f (by omega)]
      rw [show m * 10 * 10 ^ t = m * 10 ^ (t + 1) by ring]
    · constructor
      · rw [maxExponent_eq]
        push_cast
        omega
      · rw [hmod]
        omega

/-- `adjustMantExp` on an over-range exponent with headroom in the mantissa:
it multiplies back down to exponent 128 exactly. -/
theorem adjustMantExp_high {m : ℕ} {t : ℕ} (h1 : 0 < m)
    (h2 : m * 10 ^ t ≤ maxMantissa) :
    adjustMantExp m (128 + (t : ℤ)) = fromMantAndExp (m * 10 ^ t) 128 := by
  have hmin := minExponent_eq
  have hmax := maxExponent_eq
  have hpos : 0 < m * 10 ^ t := by positivity
  have hl1 : adjustLoop1 (m + 1) m (128 + (t : ℤ)) = (m, 128 + (t : ℤ)) :=
    adjustLoop1_noop (by
      rintro ⟨-, -, hd⟩
      rw [maxExponent_eq] at hd
      omega)
  have hl2 : adjustLoop2 ((128 + (t : ℤ) - maxExponent).toNat) m
      (128 + (t : ℤ)) = (m * 10 ^ t, 128) := by
    have hft : (128 + (t : ℤ) - maxExponent).toNat = t := by omega
    rw [hft]
    exact adjustLoop2_run t m h1 h2 t (le_refl t)
  rw [adjustMantExp_pipeline m (128 + (t : ℤ)) hl1 hl2]
  rw [if_neg (by rintro (hc | hc) <;> omega), if_neg (by omega)]

/-! ## End-to-end parse computations for the shapes `String` produces -/

theorem replicate_digit (k : ℕ) : ∀ c ∈ List.replicate k '0',
    ∃ d, d < 10 ∧ c = Char.ofNat (48 + d) := by
  intro c hc
  rw [List.eq_of_mem_replicate hc]
  exact ⟨0, by norm_num, by decide⟩

theorem rlzAux_digits_end (l : List Char) (i : ℕ) (b : List Char) (dp fnz : ℤ)
    (hd : ∀ c ∈ l, ∃ d, d < 10 ∧ c = Char.ofNat (48 + d)) (hb : b ≠ []) :
    rlzAux l i b dp fnz = some (b ++ l, dp, fnz, 0) := by
  have h := rlzAux_digits l [] i b dp fnz hd hb
  rw [List.append_nil] at h
  rw [h, rlzAux_nil]

/-- The scanner on `digits ++ zeros` (leading digit nonzero): everything is
copied, no delimiter is seen, and the first index is recorded. -/
theorem rlz_digits_result {m : ℕ} (h1 : 0 < m) (h2 : m < 2 ^ 64)
    (k i : ℕ) (dp : ℤ) :
    rlzAux (FormatUint m ++ List.replicate k '0') i [] dp (-1) =
      some (FormatUint m ++ List.replicate k '0', dp, (i : ℤ), 0) := by
  obtain ⟨d, t, hd1, hd10, heq⟩ := formatUint_head h1 h2
  have hdigt : ∀ c ∈ t ++ List.replicate k '0',
      ∃ d, d < 10 ∧ c = Char.ofNat (48 + d) := by
    intro c hc
    rcases List.mem_append.mp hc with h | h
    · exact formatUint_digits m c (by rw [heq]; exact List.mem_cons_of_mem _ h)
    · exact replicate_digit k c h
  rw [heq, List.cons_append, rlzAux_first hd1 hd10]
  rw [rlzAux_digits_end (t ++ List.replicate k '0') (i + 1)
    [Char.ofNat (48 + d)] dp (i : ℤ) hdigt (by simp)]
  rw [List.singleton_append, ← List.cons_append]

/-- `parseValue` on `digits ++ k zeros` where the digit string has no
trailing zero: the zeros (and only they) move into the exponent. -/
theorem parseValue_digits_zeros {m : ℕ} (h1 : 0 < m) (h10 : m % 10 ≠ 0)
    (h2 : m < 2 ^ 64) (k : ℕ) (hk : k ≤ 400) :
    parseValue (FormatUint m ++ List.replicate k '0') =
      some (FormatUint m, (k : ℤ)) := by
  obtain ⟨p, hlast⟩ := formatUint_last h1 h2
  have hlen17 : (FormatUint m).length ≤ 20 := by
    rw [formatUint_length h1 h2]
    exact decimalDigits_le_20 h2
  unfold parseValue removeLeadingZeros
  rw [rlz_digits_result h1 h2 k 0 (-1)]
  dsimp only
  rw [if_neg (by omega : ¬ ((0 : ℕ) : ℤ) = -1),
    if_neg (by omega : ¬ (0 : ℤ) ≤ -1)]
  dsimp only
  rw [removeTrailingZeros_strip hlast
    (digitChar_ne_zero (Nat.mod_lt _ (by norm_num)) h10) k _]
  dsimp only
  rw [List.length_append, List.length_replicate]
  have hw1 : wrap32 ((((FormatUint m).length + k : ℕ) : ℤ) -
      ((FormatUint m).length : ℤ)) = (k : ℤ) := by
    rw [show ((((FormatUint m).length + k : ℕ) : ℤ) -
      ((FormatUint m).length : ℤ)) = (k : ℤ) by push_cast; ring]
    exact wrap32_eq_self (by omega) (by omega)
  rw [hw1, Int.zero_add, wrap32_eq_self (by omega) (by omega)]

/-- `parseValue` with a delimiter inserted between digit `dn` and the rest:
the delimiter position lands in the exponent. -/
theorem parseValue_insert_dot {m : ℕ} (h1 : 0 < m) (h10 : m % 10 ≠ 0)
    (h2 : m < 2 ^ 64) {dn : ℕ} (hd1 : 1 ≤ dn)
    (hdl : dn ≤ (FormatUint m).length) :
    parseValue ((FormatUint m).take dn ++ '.' :: (FormatUint m).drop dn) =
      some (FormatUint m, (dn : ℤ) - ((FormatUint m).length : ℤ)) := by
  obtain ⟨d, t, hdg1, hdg10, heq⟩ := formatUint_head h1 h2
  obtain ⟨p, hlast⟩ := formatUint_last h1 h2
  have hlen17 : (FormatUint m).length ≤ 20 := by
    rw [formatUint_length h1 h2]
    exact decimalDigits_le_20 h2
  obtain ⟨n, rfl⟩ : ∃ n, dn = n + 1 := ⟨dn - 1, by omega⟩
  have htklen : (t.take n).length = n := by
    rw [List.length_take]
    have hlt : n + 1 ≤ (Char.ofNat (48 + d) :: t).length := by
      rw [← heq]; exact hdl
    rw [List.length_cons] at hlt
    omega
  have hdtk : ∀ c ∈ t.take n, ∃ d, d < 10 ∧ c = Char.ofNat (48 + d) :=
    fun c hc => formatUint_digits m c
      (by rw [heq]; exact List.mem_cons_of_mem _ (List.take_subset _ _ hc))
  have hddr : ∀ c ∈ (Char.ofNat (48 + d) :: t).drop (n + 1),
      ∃ d, d < 10 ∧ c = Char.ofNat (48 + d) :=
    fun c hc => formatUint_digits m c (by rw [heq]; exact List.drop_subset _ _ hc)
  unfold parseValue removeLeadingZeros
  rw [heq, List.take_succ_cons, List.cons_append, rlzAux_first hdg1 hdg10]
  rw [rlzAux_digits (t.take n) ('.' :: (Char.ofNat (48 + d) :: t).drop (n + 1))
    (0 + 1) [Char.ofNat (48 + d)] (-1) ((0 : ℕ) : ℤ) hdtk (by simp)]
  rw [rlzAux_dot]
  rw [rlzAux_digits_end ((Char.ofNat (48 + d) :: t).drop (n + 1))
    (0 + 1 + (t.take n).length + 1) ([Char.ofNat (48 + d)] ++ t.take n)
    ((0 + 1 + (t.take n).length : ℕ) : ℤ) ((0 : ℕ) : ℤ) hddr (by simp)]
  have hjoin : [Char.ofNat (48 + d)] ++ t.take n ++
      (Char.ofNat (48 + d) :: t).drop (n + 1) = FormatUint m := by
    rw [heq, List.drop_succ_cons, List.singleton_append, List.cons_append,
      List.take_append_drop]
  rw [hjoin]
  dsimp only
  rw [if_neg (by omega : ¬ ((0 : ℕ) : ℤ) = -1),
    if_pos (by omega : (0 : ℤ) ≤ ((0 + 1 + (t.take n).length : ℕ) : ℤ)),
    if_neg (by omega : ¬ ((0 + 1 + (t.take n).length : ℕ) : ℤ) < ((0 : ℕ) : ℤ))]
  dsimp only
  rw [removeTrailingZeros_noop hlast
    (digitChar_ne_zero (Nat.mod_lt _ (by norm_num)) h10)]
  dsimp only
  have hwlen : ((0 + 1 + (t.take n).length : ℕ) : ℤ) - ((0 : ℕ) : ℤ) =
      ((n + 1 : ℕ) : ℤ) := by
    rw [htklen]; push_cast; ring
  rw [hwlen]
  have hw1 : wrap32 (((n + 1 : ℕ) : ℤ) - ((FormatUint m).length : ℤ)) =
      ((n + 1 : ℕ) : ℤ) - ((FormatUint m).length : ℤ) :=
    wrap32_eq_self (by omega) (by omega)
  rw [hw1, Int.zero_add, wrap32_eq_self (by omega) (by omega)]
  rw [heq]

/-- `parseValue` on `0.` followed by `z` zeros and the digits: the leading
zeros land in the exponent with a negative sign. -/
theorem parseValue_leading_zeros {m : ℕ} (h1 : 0 < m) (h10 : m % 10 ≠ 0)
    (h2 : m < 2 ^ 64) (z : ℕ) (hz : z ≤ 400) :
    parseValue (['0', '.'] ++ List.replicate z '0' ++ FormatUint m) =
      some (FormatUint m, -(z : ℤ) - ((FormatUint m).length : ℤ)) := by
  obtain ⟨d, t, hdg1, hdg10, heq⟩ := formatUint_head h1 h2
  obtain ⟨p, hlast⟩ := formatUint_last h1 h2
  have hlen17 : (FormatUint m).length ≤ 20 := by
    rw [formatUint_length h1 h2]
    exact decimalDigits_le_20 h2
  have hdigt : ∀ c ∈ t, ∃ d, d < 10 ∧ c = Char.ofNat (48 + d) :=
    fun c hc => formatUint_digits m c (by rw [heq]; exact List.mem_cons_of_mem _ hc)
  unfold parseValue removeLeadingZeros
  rw [show (['0', '.'] ++ List.replicate z '0' ++ FormatUint m : List Char) =
    List.replicate 1 '0' ++ ('.' :: (List.replicate z '0' ++ FormatUint m)) by
      rw [List.append_assoc]; rfl]
  rw [rlzAux_zeros 1 ('.' :: (List.replicate z '0' ++ FormatUint m)) 0 (-1) (-1)]
  rw [rlzAux_dot]
  rw [rlzAux_zeros z (FormatUint m) (0 + 1 + 1) ((0 + 1 : ℕ) : ℤ) (-1)]
  rw [heq, rlzAux_first hdg1 hdg10]
  rw [rlzAux_digits_end t (0 + 1 + 1 + z + 1) [Char.ofNat (48 + d)]
    ((0 + 1 : ℕ) : ℤ) ((0 + 1 + 1 + z : ℕ) : ℤ) hdigt (by simp)]
  rw [List.singleton_append, ← heq]
  dsimp only
  rw [if_neg (by omega : ¬ ((0 + 1 + 1 + z : ℕ) : ℤ) = -1),
    if_pos (by omega : (0 : ℤ) ≤ ((0 + 1 : ℕ) : ℤ)),
    if_pos (by omega : ((0 + 1 : ℕ) : ℤ) < ((0 + 1 + 1 + z : ℕ) : ℤ))]
  dsimp only
  rw [removeTrailingZeros_noop hlast
    (digitChar_ne_zero (Nat.mod_lt _ (by norm_num)) h10)]
  dsimp only
  have hdp : ((0 + 1 : ℕ) : ℤ) - (((0 + 1 + 1 + z : ℕ) : ℤ) - 1) = -(z : ℤ) := by
    push_cast; ring
  rw [hdp]
  have hw1 : wrap32 (-(z : ℤ) - ((FormatUint m).length : ℤ)) =
      -(z : ℤ) - ((FormatUint m).length : ℤ) :=
    wrap32_eq_self (by omega) (by omega)
  rw [hw1, Int.zero_add, wrap32_eq_self (by omega) (by omega)]

theorem digitsInMaxMantissa_eq : digitsInMaxMantissa = 17 := by decide

/-- On a bare digit string of at most 17 digits, `fromStringAndExp` parses
the mantissa back and canonicalizes. -/
theorem fromStringAndExp_digits {m : ℕ} (h1 : 0 < m) (h2 : m ≤ maxMantissa)
    (e : ℤ) : fromStringAndExp (FormatUint m) e = some (adjustMantExp m e) := by
  have hlt : m < 2 ^ 64 := by
    have := maxMantissa_eq
    omega
  have hlen : (FormatUint m).length ≤ 17 := by
    rw [formatUint_length h1 hlt]
    exact decimalDigits_le_17 h2
  unfold fromStringAndExp
  rw [if_neg (by simpa using formatUint_ne_nil m),
    if_neg (by rw [digitsInMaxMantissa_eq]; omega)]
  rw [parseUint_formatUint h1 hlt]

/-- `FromString` on a clean digit/`.` string reduces to
`parseValue`/`fromStringAndExp`. -/
theorem fromString_of_parse {s : List Char} (hne : s ≠ [])
    (hd : ∀ c ∈ s, c = '.' ∨ ∃ d, d < 10 ∧ c = Char.ofNat (48 + d))
    {parsed : List Char} {e : ℤ} (hp : parseValue s = some (parsed, e))
    {v : Value} (hf : fromStringAndExp parsed e = some v) :
    FromString s = some (Except.ok v) := by
  unfold FromString
  rw [prepareString_clean hne hd]
  dsimp only
  rw [if_neg (by simpa using hne), if_neg (by simp)]
  rw [hp]
  dsimp only
  rw [hf]

/-- Every positive natural factors as `m' * 10^t` with `m'` not divisible
by 10. -/
theorem decomp_pow10 : ∀ m : ℕ, 0 < m →
    ∃ m' t, m' % 10 ≠ 0 ∧ m = m' * 10 ^ t := by
  intro m
  induction m using Nat.strong_induction_on with
  | _ m ih =>
    intro h
    by_cases h10 : m % 10 = 0
    · obtain ⟨m', t, hmod, heq⟩ :=
        ih (m / 10) (Nat.div_lt_self h (by norm_num)) (by omega)
      refine ⟨m', t + 1, hmod, ?_⟩
      have hdm : m = m / 10 * 10 := by omega
      rw [hdm, heq, pow_succ]
      ring
    · exact ⟨m, 0, h10, by simp⟩

/-- C3: the string round-trip — for every Value `v`,
`FromString (String v)` succeeds and returns exactly `Normalized v`
(bit-identical).  The four shapes `String` can produce (bare digits, digits
with appended zeros, an inserted decimal point, and a `0.`-prefixed string)
all parse back to the canonical form. -/
theorem fromString_string_roundtrip (v : Value) :
    FromString (String v) = some (Except.ok (Normalized v)) := by
  by_cases hm : mant (Normalized v) = 0
  · have hmv : mant v = 0 := (mant_Normalized_zero_iff v).mp hm
    have hz : Normalized v = zero := Normalized_of_mant_zero hmv
    unfold String WriteToStringsBuilder
    rw [if_pos hm, hz]
    rfl
  · have hmv : mant v ≠ 0 := fun hc => hm ((mant_Normalized_zero_iff v).mpr hc)
    have hM1 : 0 < mant (Normalized v) := Nat.pos_of_ne_zero hm
    have hMle : mant (Normalized v) ≤ maxMantissa := mant_le _
    have hMlt : mant (Normalized v) < 2 ^ 64 := by
      have := maxMantissa_eq
      omega
    have hElo : -127 ≤ exp (Normalized v) := exp_ge _
    have hEhi : exp (Normalized v) ≤ 128 := exp_le _
    have hcanon := Normalized_canon hmv
    have hNv : Normalized v =
        fromMantAndExp (mant (Normalized v)) (exp (Normalized v)) :=
      Normalized_split hmv
    have hdigOr : ∀ c ∈ FormatUint (mant (Normalized v)),
        c = '.' ∨ ∃ d, d < 10 ∧ c = Char.ofNat (48 + d) :=
      fun c hc => Or.inr (formatUint_digits _ c hc)
    have hlen1 : 1 ≤ (FormatUint (mant (Normalized v))).length :=
      List.length_pos.mpr (formatUint_ne_nil _)
    have hlen20 : (FormatUint (mant (Normalized v))).length ≤ 20 := by
      rw [formatUint_length hM1 hMlt]
      exact decimalDigits_le_20 hMlt
    unfold String WriteToStringsBuilder
    rw [if_neg hm]
    by_cases hE0 : exp (Normalized v) = 0
    · rw [if_pos hE0]
      have hM10 : mant (Normalized v) % 10 ≠ 0 := by
        rcases hcanon with hc | hc
        · omega
        · exact hc
      have hp := parseValue_digits_zeros hM1 hM10 hMlt 0 (by norm_num)
      simp only [List.replicate_zero, List.append_nil, Nat.cast_zero] at hp
      have hf := fromStringAndExp_digits hM1 hMle 0
      refine fromString_of_parse (formatUint_ne_nil _) hdigOr hp ?_
      rw [hf, adjustMantExp_in_range hM1 hMle (by omega) (by omega)]
      conv_rhs => rw [hNv, hE0]
    · rw [if_neg hE0]
      by_cases hEp : 0 < exp (Normalized v)
      · rw [if_pos hEp]
        unfold stringPosExp
        rw [zeroStr_length_small (by omega) (by omega), if_neg (by omega),
          zeroStr_small (by omega) (by omega), List.append_nil]
        rcases hcanon with hE128 | hM10
        · obtain ⟨m', t, hm'10, hMd⟩ := decomp_pow10 (mant (Normalized v)) hM1
          have hm'pos : 0 < m' := by
            rcases Nat.eq_zero_or_pos m' with h0 | h
            · rw [h0, Nat.zero_mul] at hMd; omega
            · exact h
          have hm'le : m' ≤ maxMantissa := by
            have : m' ≤ m' * 10 ^ t :=
              Nat.le_mul_of_pos_right _ (Nat.pos_pow_of_pos _ (by norm_num))
            omega
          have hm'lt : m' < 2 ^ 64 := by
            have := maxMantissa_eq
            omega
          have ht17 : t ≤ 17 := by
            by_contra hc
            push_neg at hc
            have h1 : (10 : ℕ) ^ 18 ≤ 10 ^ t :=
              Nat.pow_le_pow_right (by norm_num) (by omega)
            have h2 : (10 : ℕ) ^ t ≤ m' * 10 ^ t :=
              Nat.le_mul_of_pos_left _ hm'pos
            have := maxMantissa_eq
            omega
          have hFdec : FormatUint (mant (Normalized v)) =
              FormatUint m' ++ List.replicate t '0' := by
            rw [hMd]
            exact formatUint_mul_pow10 t hm'pos
              (by rw [← hMd]; omega)
          rw [hFdec, List.append_assoc, ← List.replicate_add]
          have hp := parseValue_digits_zeros hm'pos hm'10 hm'lt
            (t + (exp (Normalized v)).toNat) (by omega)
          have hf := fromStringAndExp_digits hm'pos hm'le
            ((t + (exp (Normalized v)).toNat : ℕ) : ℤ)
          refine fromString_of_parse ?_ ?_ hp ?_
          · simp [formatUint_ne_nil]
          · intro c hc
            rcases List.mem_append.mp hc with h | h
            · exact Or.inr (formatUint_digits _ c h)
            · exact Or.inr (replicate_digit _ c h)
          · rw [hf]
            have hcast : ((t + (exp (Normalized v)).toNat : ℕ) : ℤ) =
                128 + (t : ℤ) := by
              have : ((exp (Normalized v)).toNat : ℤ) = 128 := by omega
              push_cast
              omega
            rw [hcast, adjustMantExp_high hm'pos (by rw [← hMd]; exact hMle)]
            rw [← hMd]
            conv_rhs => rw [hNv, hE128]
        · have hp := parseValue_digits_zeros hM1 hM10 hMlt
            (exp (Normalized v)).toNat (by omega)
          have hf := fromStringAndExp_digits hM1 hMle
            (((exp (Normalized v)).toNat : ℕ) : ℤ)
          refine fromString_of_parse ?_ ?_ hp ?_
          · simp [formatUint_ne_nil]
          · intro c hc
            rcases List.mem_append.mp hc with h | h
            · exact Or.inr (formatUint_digits _ c h)
            · exact Or.inr (replicate_digit _ c h)
          · rw [hf]
            have hcast : (((exp (Normalized v)).toNat : ℕ) : ℤ) =
                exp (Normalized v) := by omega
            rw [hcast, adjustMantExp_in_range hM1 hMle (by omega) (by omega)]
            conv_rhs => rw [hNv]
      · rw [if_neg hEp]
        have hEneg : exp (Normalized v) < 0 := by omega
        have hM10 : mant (Normalized v) % 10 ≠ 0 := by
          rcases hcanon with hc | hc
          · omega
          · exact hc
        unfold stringNegExp
        by_cases hdf : ((FormatUint (mant (Normalized v))).length : ℤ) +
            exp (Normalized v) ≤ 0
        · rw [if_pos hdf]
          rw [zeroStr_length_small (by omega) (by omega), if_neg (by omega),
            zeroStr_small (by omega) (by omega), List.append_nil]
          have hztn : ((-(((FormatUint (mant (Normalized v))).length : ℤ) +
              exp (Normalized v))).toNat : ℤ) =
              -(((FormatUint (mant (Normalized v))).length : ℤ) +
                exp (Normalized v)) := Int.toNat_of_nonneg (by omega)
          have hp := parseValue_leading_zeros hM1 hM10 hMlt
            (-(((FormatUint (mant (Normalized v))).length : ℤ) +
              exp (Normalized v))).toNat (by omega)
          have hexpr : -(((-(((FormatUint (mant (Normalized v))).length : ℤ) +
              exp (Normalized v))).toNat : ℕ) : ℤ) -
              ((FormatUint (mant (Normalized v))).length : ℤ) =
              exp (Normalized v) := by omega
          rw [hexpr] at hp
          have hf := fromStringAndExp_digits hM1 hMle (exp (Normalized v))
          refine fromString_of_parse ?_ ?_ hp ?_
          · simp
          · intro c hc
            rcases List.mem_append.mp hc with h | h
            · rcases List.mem_append.mp h with h2 | h2
              · simp only [List.mem_cons, List.mem_singleton,
                  List.not_mem_nil, or_false] at h2
                rcases h2 with h2 | h2
                · subst h2; exact Or.inr ⟨0, by norm_num, by decide⟩
                · subst h2; exact Or.inl rfl
              · exact Or.inr (replicate_digit _ c h2)
            · exact Or.inr (formatUint_digits _ c h)
          · rw [hf, adjustMantExp_in_range hM1 hMle (by omega) (by omega)]
            conv_rhs => rw [hNv]
        · rw [if_neg hdf]
          have hdn1 : 1 ≤ ((((FormatUint (mant (Normalized v))).length : ℤ) +
              exp (Normalized v)).toNat : ℕ) := by omega
          have hdnle : ((((FormatUint (mant (Normalized v))).length : ℤ) +
              exp (Normalized v)).toNat : ℕ) ≤
              (FormatUint (mant (Normalized v))).length := by omega
          have hp := parseValue_insert_dot hM1 hM10 hMlt hdn1 hdnle
          have hexpr : (((((FormatUint (mant (Normalized v))).length : ℤ) +
              exp (Normalized v)).toNat : ℕ) : ℤ) -
              ((FormatUint (mant (Normalized v))).length : ℤ) =
              exp (Normalized v) := by omega
          rw [hexpr] at hp
          have hf := fromStringAndExp_digits hM1 hMle (exp (Normalized v))
          refine fromString_of_parse ?_ ?_ hp ?_
          · intro hc
            have hlc := congrArg List.length hc
            simp at hlc
          · intro c hc
            rcases List.mem_append.mp hc with h | h
            · exact Or.inr (formatUint_digits _ c (List.take_subset _ _ h))
            · simp only [List.mem_cons] at h
              rcases h with h | h
              · exact Or.inl h
              · exact Or.inr (formatUint_digits _ c (List.drop_subset _ _ h))
          · rw [hf, adjustMantExp_in_range hM1 hMle (by omega) (by omega)]
            conv_rhs => rw [hNv]

end Fixed

namespace Fixed

/-! ## JSON marshaling -/

def JSONModeString : ℕ := 0

def JSONModeFloat : ℕ := 1

def JSONModeME : ℕ := 2

def JSONModeCompact : ℕ := 3

/-- `jsonLen`: combined length of the three object-form fragments. -/
def jsonLen : ℕ := 11

/-- `int64DecimalLen`. -/
def int64DecimalLen (value : ℤ) : ℕ :=
  if value < 0 then 1 + decimalDigits (-value).toNat
  else decimalDigits value.toNat

/-- `jsonMELen(v)`: the length estimate of the object form — computed on the
raw (not normalized) mantissa and exponent. -/
def jsonMELen (v : Value) : ℕ :=
  jsonLen + decimalDigits (mant v) + int64DecimalLen (exp v)

/-- `calcStrLen(v)`: the length estimate of the string form. -/
def calcStrLen (v : Value) : ℕ :=
  if 0 < exp (Normalized v) then
    2 + decimalDigits (mant (Normalized v)) + (exp (Normalized v)).toNat
  else if exp (Normalized v) + (decimalDigits (mant (Normalized v)) : ℤ) < 0
  then
    2 + decimalDigits (mant (Normalized v)) + 1 +
      (-(exp (Normalized v) +
        (decimalDigits (mant (Normalized v)) : ℤ))).toNat
  else 2 + decimalDigits (mant (Normalized v)) + 1

/-- `toMEJSON(v)`: the object form `{"m":<mant>,"e":<exp>}` of the
normalized value. -/
def toMEJSON (v : Value) : List Char :=
  ['{', '\"', 'm', '\"', ':'] ++ FormatUint (mant (Normalized v)) ++
    [',', '\"', 'e', '\"', ':'] ++ FormatInt (exp (Normalized v)) ++ ['}']

/-- The string form: `String v` in quotes. -/
def toJSONString (v : Value) : List Char := '\"' :: String v ++ ['\"']

/-- `toJSON(mode)`.  `JSONModeFloat` formats through IEEE-754 doubles and is
not modelled (no theorem below refers to it). -/
def toJSON (mode : ℕ) (v : Value) : List Char :=
  if mode = JSONModeFloat then []
  else if mode = JSONModeME then toMEJSON v
  else if mode = JSONModeCompact then
    if calcStrLen v ≤ jsonMELen v then toJSONString v else toMEJSON v
  else toJSONString v

end Fixed

namespace Fixed

/-! ## Length lemmas for the JSON forms -/

theorem formatUint_length0 {n : ℕ} (h2 : n < 2 ^ 64) :
    (FormatUint n).length = decimalDigits n := by
  rcases Nat.eq_zero_or_pos n with h0 | hp
  · subst h0; decide
  · exact formatUint_length hp h2

theorem formatInt_length {e : ℤ} (h1 : -(2 ^ 63) ≤ e) (h2 : e < 2 ^ 63) :
    (FormatInt e).length = int64DecimalLen e := by
  unfold FormatInt int64DecimalLen
  by_cases h : e < 0
  · rw [if_pos h, if_pos h, List.length_cons]
    have heq : e.natAbs = (-e).toNat := by omega
    rw [formatUint_length0 (by omega), heq]
    omega
  · rw [if_neg h, if_neg h, formatUint_length0 (by omega)]

/-- The object form's real length equals the estimate taken at the
normalized pair. -/
theorem toMEJSON_length (v : Value) :
    (toMEJSON v).length = jsonLen + decimalDigits (mant (Normalized v)) +
      int64DecimalLen (exp (Normalized v)) := by
  have he1 := exp_ge (Normalized v)
  have he2 := exp_le (Normalized v)
  have hmlt : mant (Normalized v) < 2 ^ 64 := by
    have h1 := mant_le (Normalized v)
    have h2 := maxMantissa_eq
    omega
  unfold toMEJSON jsonLen
  simp only [List.length_append, List.length_cons]
  rw [formatUint_length0 hmlt, formatInt_length (by omega) (by omega)]
  simp
  omega

/-- The string form's real length is within one character of the
`calcStrLen` estimate (for nonzero values): the estimate misses the leading
`0` of `0.xxx` strings and overcounts the delimiter of integer-valued
strings. -/
theorem toJSONString_length_bounds (v : Value) (hm : mant (Normalized v) ≠ 0) :
    calcStrLen v ≤ (toJSONString v).length + 1 ∧
      (toJSONString v).length ≤ calcStrLen v + 1 := by
  have hM1 : 0 < mant (Normalized v) := Nat.pos_of_ne_zero hm
  have hMlt : mant (Normalized v) < 2 ^ 64 := by
    have h1 := mant_le (Normalized v)
    have h2 := maxMantissa_eq
    omega
  have hlenF : (FormatUint (mant (Normalized v))).length =
      decimalDigits (mant (Normalized v)) := formatUint_length hM1 hMlt
  have hddpos := decimalDigits_pos (mant (Normalized v))
  have hdd20 : decimalDigits (mant (Normalized v)) ≤ 20 :=
    decimalDigits_le_20 hMlt
  have hE1 := exp_ge (Normalized v)
  have hE2 := exp_le (Normalized v)
  unfold toJSONString String WriteToStringsBuilder calcStrLen
  rw [if_neg hm]
  by_cases hEp : 0 < exp (Normalized v)
  · rw [if_neg (by omega : ¬ exp (Normalized v) = 0), if_pos hEp, if_pos hEp]
    unfold stringPosExp
    rw [zeroStr_length_small (by omega) (by omega), if_neg (by omega),
      zeroStr_small (by omega) (by omega), List.append_nil]
    simp only [List.length_cons, List.length_append, List.length_replicate, List.length_nil]
    rw [hlenF]
    omega
  · by_cases hE0 : exp (Normalized v) = 0
    · rw [if_pos hE0, if_neg hEp, if_neg (by omega :
        ¬ exp (Normalized v) +
          (decimalDigits (mant (Normalized v)) : ℤ) < 0)]
      simp only [List.length_cons, List.length_append, List.length_singleton, List.length_nil]
      rw [hlenF]
      omega
    · rw [if_neg hE0, if_neg hEp, if_neg hEp]
      unfold stringNegExp
      by_cases hdf : ((FormatUint (mant (Normalized v))).length : ℤ) +
          exp (Normalized v) ≤ 0
      · rw [if_pos hdf]
        by_cases hdc : exp (Normalized v) +
            (decimalDigits (mant (Normalized v)) : ℤ) < 0
        · rw [if_pos hdc, zeroStr_length_small (by omega) (by omega),
            if_neg (by omega), zeroStr_small (by omega) (by omega),
            List.append_nil]
          simp only [List.length_cons, List.length_append,
            List.length_replicate, List.length_nil]
          rw [hlenF]
          omega
        · rw [if_neg hdc, zeroStr_length_small (by omega) (by omega),
            if_neg (by omega), zeroStr_small (by omega) (by omega),
            List.append_nil]
          simp only [List.length_cons, List.length_append,
            List.length_replicate, List.length_nil]
          rw [hlenF]
          omega
      · rw [if_neg hdf, if_neg (by omega : ¬ exp (Normalized v) +
          (decimalDigits (mant (Normalized v)) : ℤ) < 0)]
        simp only [List.length_cons, List.length_append, List.length_take,
          List.length_drop, List.length_nil]
        rw [hlenF]
        omega

end Fixed

namespace Fixed

/-! ## Claim C7: compact JSON is not always minimal -/

/-- C7 (counterexample to the spec): compact marshaling is NOT always the
shorter form.  For `1e-12` the length estimates tie (both 15), so compact
picks the string form `"0.000000000001"` (16 bytes) although the object form
`{"m":1,"e":-12}` is 15 bytes; and for `zero` the string estimate wrongly
counts 126 leading zeros the formatter never emits, so compact picks the
16-byte object form although the string form `"0"` is 3 bytes. -/
theorem compact_json_not_minimal :
    (toJSON JSONModeME (fromMantAndExp 1 (-12))).length <
      (toJSON JSONModeCompact (fromMantAndExp 1 (-12))).length ∧
    (toJSON JSONModeString zero).length <
      (toJSON JSONModeCompact zero).length := by
  constructor <;> decide

/-- C7 (amended): for a canonical value with nonzero mantissa the compact
form is never longer than the string form and at most one byte longer than
the object form. -/
theorem compact_json_le (v : Value) (hm : mant v ≠ 0)
    (hn : Normalized v = v) :
    (toJSON JSONModeCompact v).length ≤
        (toJSON JSONModeString v).length ∧
      (toJSON JSONModeCompact v).length ≤
        (toJSON JSONModeME v).length + 1 := by
  have hmN : mant (Normalized v) ≠ 0 := by rw [hn]; exact hm
  obtain ⟨hc1, hc2⟩ := toJSONString_length_bounds v hmN
  have hme : (toMEJSON v).length = jsonMELen v := by
    rw [toMEJSON_length v, jsonMELen, hn]
  have hstr : toJSON JSONModeString v = toJSONString v := rfl
  have hmej : toJSON JSONModeME v = toMEJSON v := rfl
  have hcomp : toJSON JSONModeCompact v =
      (if calcStrLen v ≤ jsonMELen v then toJSONString v else toMEJSON v) :=
    rfl
  rw [hstr, hmej, hcomp]
  by_cases hsel : calcStrLen v ≤ jsonMELen v
  · rw [if_pos hsel]
    exact ⟨le_refl _, by omega⟩
  · rw [if_neg hsel]
    exact ⟨by omega, by omega⟩

theorem compact_json_le_witness :
    mant (fromMantAndExp 5 2) ≠ 0 ∧
      Normalized (fromMantAndExp 5 2) = fromMantAndExp 5 2 ∧
      ((toJSON JSONModeCompact (fromMantAndExp 5 2)).length ≤
          (toJSON JSONModeString (fromMantAndExp 5 2)).length ∧
        (toJSON JSONModeCompact (fromMantAndExp 5 2)).length ≤
          (toJSON JSONModeME (fromMantAndExp 5 2)).length + 1) :=
  ⟨by decide, by decide,
    compact_json_le (fromMantAndExp 5 2) (by decide) (by decide)⟩

end Fixed

namespace Fixed

/-! ## Exact evaluation of the alignment pipeline (`toEqualExp`) -/

/-- Closed form of `trimZeros` on a decomposed mantissa `m' * 10^k` with
`m'` free of trailing zeros: the zeros move into the exponent until either
they run out or the exponent cap is reached. -/
theorem trimZeros_formula : ∀ (k : ℕ) (m' : ℕ) (e c : ℤ), m' % 10 ≠ 0 →
    e ≤ c →
    trimZeros (m' * 10 ^ k) e c =
      if e + k ≤ c then (m', e + k)
      else (m' * 10 ^ (k - (c - e).toNat), c)
  | 0, m', e, c => by
    intro h10 hec
    rw [if_pos (by omega)]
    rw [pow_zero, Nat.mul_one]
    unfold trimZeros
    rcases hf : (c - e).toNat with _ | t
    · rw [trimZerosAux]
      rw [show e + ((0 : ℕ) : ℤ) = e by omega]
    · rw [trimZerosAux, if_neg (fun hc => h10 hc.2)]
      rw [show e + ((0 : ℕ) : ℤ) = e by omega]
  | k + 1, m', e, c => by
    intro h10 hec
    by_cases hce : e = c
    · subst hce
      unfold trimZeros
      have hf : (e - e).toNat = 0 := by omega
      rw [hf, trimZerosAux, if_neg (by omega)]
      rw [Nat.sub_zero]
    · have hlt : e < c := by omega
      unfold trimZeros
      obtain ⟨t, ht⟩ : ∃ t, (c - e).toNat = t + 1 := ⟨(c - e).toNat - 1, by omega⟩
      rw [ht, trimZerosAux]
      rw [if_pos ⟨hlt, by
        rw [pow_succ, ← Nat.mul_assoc]
        exact Nat.mul_mod_left _ 10⟩]
      have hdiv : m' * 10 ^ (k + 1) / 10 = m' * 10 ^ k := by
        rw [pow_succ, ← Nat.mul_assoc]
        exact Nat.mul_div_cancel _ (by norm_num)
      rw [hdiv]
      have ht2 : t = (c - (e + 1)).toNat := by omega
      rw [ht2]
      have hrec := trimZeros_formula k m' (e + 1) c h10 (by omega)
      unfold trimZeros at hrec
      rw [hrec]
      by_cases hk : e + 1 + k ≤ c
      · rw [if_pos hk, if_pos (by omega)]
        rw [show e + 1 + (k : ℤ) = e + ((k : ℕ) + 1 : ℕ) by push_cast; ring]
      · rw [if_neg hk, if_neg (by omega)]
        rw [show k - (c - (e + 1)).toNat =
          k + 1 - ((c - (e + 1)).toNat + 1) by omega]

theorem log10_maxDiv {m1 : ℕ} (h1 : 0 < m1) (h2 : m1 ≤ maxMantissa) :
    10 ^ log10 (maxMantissa / m1) ≤ maxMantissa / m1 ∧
      maxMantissa / m1 < 10 ^ (log10 (maxMantissa / m1) + 1) ∧
      log10 (maxMantissa / m1) ≤ 16 ∧
      m1 * 10 ^ log10 (maxMantissa / m1) ≤ maxMantissa := by
  have hqpos : 0 < maxMantissa / m1 := Nat.div_pos h2 h1
  have hqlt : maxMantissa / m1 < 2 ^ 64 := by
    have h3 := Nat.div_le_self maxMantissa m1
    have h4 := maxMantissa_eq
    omega
  obtain ⟨hlo, hhi⟩ := decimalDigits_spec hqpos hqlt
  have hdd := decimalDigits_pos (maxMantissa / m1)
  have hdd17 : decimalDigits (maxMantissa / m1) ≤ 17 :=
    decimalDigits_le_17 (Nat.div_le_self _ _)
  unfold log10
  refine ⟨by
    calc (10 : ℕ) ^ (decimalDigits (maxMantissa / m1) - 1) ≤ _ := hlo, ?_, by omega, ?_⟩
  · calc maxMantissa / m1 < 10 ^ decimalDigits (maxMantissa / m1) := hhi
      _ ≤ 10 ^ (decimalDigits (maxMantissa / m1) - 1 + 1) :=
          Nat.pow_le_pow_right (by norm_num) (by omega)
  · calc m1 * 10 ^ (decimalDigits (maxMantissa / m1) - 1)
        ≤ m1 * (maxMantissa / m1) := Nat.mul_le_mul_left _ hlo
      _ ≤ maxMantissa := by
          rw [Nat.mul_comm]
          exact Nat.div_mul_le_self _ _

theorem maxMantissa_lt_pow17 : maxMantissa < 10 ^ 17 := by
  rw [maxMantissa_eq]; norm_num

/-- Full evaluation of `doToEqualExp` on a decomposed second mantissa:
either the trailing zeros of `m2` cover the gap, or `m1` grows to cover the
rest, or `m2` loses its lowest digits. -/
theorem doToEqualExp_eval {m1 m2' : ℕ} (k : ℕ) {e1 e2 : ℤ}
    (hm1p : 0 < m1) (hm1 : m1 ≤ maxMantissa)
    (hm2 : m2' ≤ maxMantissa) (h10 : m2' % 10 ≠ 0)
    (he : e2 ≤ e1) :
    doToEqualExp m1 e1 (m2' * 10 ^ k) e2 =
      if e1 ≤ e2 + k then (m1, m2' * 10 ^ (k - (e1 - e2).toNat), e1)
      else if e1 - (e2 + k) ≤ (log10 (maxMantissa / m1) : ℤ) then
        (m1 * 10 ^ (e1 - (e2 + k)).toNat, m2', e2 + k)
      else
        (m1 * 10 ^ log10 (maxMantissa / m1),
          m2' / 10 ^ (e1 - (e2 + k) - (log10 (maxMantissa / m1) : ℤ)).toNat,
          e1 - (log10 (maxMantissa / m1) : ℤ)) := by
  obtain ⟨hq1, hq2, hL16, hgrow⟩ := log10_maxDiv hm1p hm1
  have hU : maxMantissa < U64 := by rw [maxMantissa_eq, U64]; norm_num
  unfold doToEqualExp
  by_cases h0 : e1 - e2 = 0
  · rw [if_pos h0, if_pos (by omega)]
    rw [show (e1 - e2).toNat = 0 by omega, Nat.sub_zero]
  · rw [if_neg h0]
    rw [trimZeros_formula k m2' e2 e1 h10 he]
    by_cases hcap : e2 + k ≤ e1
    · rw [if_pos hcap]
      dsimp only
      unfold doToEqualExpGrow
      by_cases heq : e1 - (e2 + k) = 0
      · rw [if_pos heq, if_pos (by omega : e1 ≤ e2 + (k : ℤ))]
        rw [show k - (e1 - e2).toNat = 0 by omega, pow_zero, Nat.mul_one]
      · rw [if_neg heq, if_neg (by omega : ¬ e1 ≤ e2 + (k : ℤ))]
        have htm : (if e1 - (e2 + k) < (log10 (maxMantissa / m1) : ℤ)
            then e1 - (e2 + k) else (log10 (maxMantissa / m1) : ℤ)) =
            if e1 - (e2 + k) ≤ (log10 (maxMantissa / m1) : ℤ)
            then e1 - (e2 + k) else (log10 (maxMantissa / m1) : ℤ) := by
          by_cases hlt : e1 - (e2 + k) < (log10 (maxMantissa / m1) : ℤ)
          · rw [if_pos hlt, if_pos (by omega)]
          · by_cases hle : e1 - (e2 + k) ≤ (log10 (maxMantissa / m1) : ℤ)
            · rw [if_neg hlt, if_pos hle]
              omega
            · rw [if_neg hlt, if_neg hle]
        rw [htm]
        by_cases hgL : e1 - (e2 + k) ≤ (log10 (maxMantissa / m1) : ℤ)
        · rw [if_pos hgL, if_pos hgL]
          have hpw : pow10 (e1 - (e2 + k)) = 10 ^ (e1 - (e2 + k)).toNat :=
            pow10_eq (by omega) (by omega)
          rw [hpw]
          have hle : m1 * 10 ^ (e1 - (e2 + k)).toNat ≤ maxMantissa := by
            calc m1 * 10 ^ (e1 - (e2 + k)).toNat
                ≤ m1 * 10 ^ log10 (maxMantissa / m1) :=
                  Nat.mul_le_mul_left _
                    (Nat.pow_le_pow_right (by norm_num) (by omega))
              _ ≤ maxMantissa := hgrow
          rw [Nat.mod_eq_of_lt (by omega)]
          unfold doToEqualExpTier3
          rw [if_pos (by omega)]
          rw [show e1 - (e1 - (e2 + k)) = e2 + k by ring]
        · rw [if_neg hgL, if_neg hgL]
          have hpw : pow10 ((log10 (maxMantissa / m1) : ℕ) : ℤ) =
              10 ^ log10 (maxMantissa / m1) := by
            rw [pow10_eq (by omega) (by omega)]
            congr 1
          rw [hpw, Nat.mod_eq_of_lt (by omega)]
          unfold doToEqualExpTier3
          rw [if_neg (by omega)]
          by_cases hd19 : e1 - (log10 (maxMantissa / m1) : ℤ) - (e2 + k) ≤ 19
          · rw [if_pos (by
              rw [pow10_eq (by omega) (by omega)]
              positivity)]
            rw [pow10_eq (by omega) (by omega)]
            rw [show e1 - (log10 (maxMantissa / m1) : ℤ) - (e2 + k) =
              e1 - (e2 + k) - (log10 (maxMantissa / m1) : ℤ) by ring]
          · have hpz : pow10 (e1 - (log10 (maxMantissa / m1) : ℤ) - (e2 + k)) = 0 :=
              pow10_eq_zero (Or.inr (by omega))
            rw [hpz, if_neg (by omega)]
            have hz : m2' / 10 ^ (e1 - (e2 + k) -
                (log10 (maxMantissa / m1) : ℤ)).toNat = 0 := by
              apply Nat.div_eq_of_lt
              calc m2' ≤ maxMantissa := hm2
                _ < 10 ^ 17 := maxMantissa_lt_pow17
                _ ≤ 10 ^ (e1 - (e2 + k) - (log10 (maxMantissa / m1) : ℤ)).toNat :=
                  Nat.pow_le_pow_right (by norm_num) (by omega)
            rw [hz]
    · rw [if_neg hcap]
      dsimp only
      unfold doToEqualExpGrow
      rw [if_pos (by ring), if_pos (by omega)]

/-- When the aligned sum represents a value that fits some valid
mantissa/exponent pair exactly, `addWithExp` returns exactly that value:
a mantissa overflow forces a trailing zero, so the `/10` step is lossless. -/
theorem addWithExp_exact {M1 M2 : ℕ} {E1 : ℤ} {ma : ℕ} {ea : ℤ}
    (hs : M1 + M2 ≤ 2 * maxMantissa) (hE1 : -127 ≤ E1) (hE2 : E1 ≤ 128)
    (hmap : 0 < ma) (hma : ma ≤ maxMantissa) (hea1 : -127 ≤ ea) (hea2 : ea ≤ 128)
    (hv : (M1 + M2) * 10 ^ (E1 + 127).toNat = ma * 10 ^ (ea + 127).toNat) :
    natVal (addWithExp M1 M2 E1) = ma * 10 ^ (ea + 127).toNat := by
  have hU : 2 * maxMantissa < U64 := by rw [maxMantissa_eq, U64]; norm_num
  have hmod : (M1 + M2) % U64 = M1 + M2 := Nat.mod_eq_of_lt (by omega)
  have hmax := maxMantissa_eq
  unfold addWithExp
  rw [hmod]
  by_cases hov : maxMantissa < M1 + M2
  · rw [if_pos hov]
    have heagt : E1 < ea := by
      by_contra hc
      push_neg at hc
      have hdvd : ma = (M1 + M2) * 10 ^ (E1 - ea).toNat := by
        have hsplit : (E1 + 127).toNat = (ea + 127).toNat + (E1 - ea).toNat := by
          omega
        rw [hsplit, pow_add, ← Nat.mul_assoc, Nat.mul_right_comm] at hv
        exact (Nat.eq_of_mul_eq_mul_right
          (Nat.pos_pow_of_pos _ (by norm_num)) hv).symm
      have : M1 + M2 ≤ ma := by
        rw [hdvd]
        exact Nat.le_mul_of_pos_right _ (Nat.pos_pow_of_pos _ (by norm_num))
      omega
    have hSm : M1 + M2 = ma * 10 ^ (ea - E1).toNat := by
      have hsplit : (ea + 127).toNat = (E1 + 127).toNat + (ea - E1).toNat := by
        omega
      rw [hsplit, pow_add, ← Nat.mul_assoc, Nat.mul_right_comm] at hv
      exact Nat.eq_of_mul_eq_mul_right (Nat.pos_pow_of_pos _ (by norm_num)) hv
    have hE1max : E1 ≠ maxExponent := by
      have := maxExponent_eq
      omega
    rw [if_neg hE1max]
    have hten : ∃ t, (ea - E1).toNat = t + 1 := ⟨(ea - E1).toNat - 1, by omega⟩
    obtain ⟨t, ht⟩ := hten
    have hdiv : (M1 + M2) / 10 = ma * 10 ^ t := by
      rw [hSm, ht, pow_succ, ← Nat.mul_assoc]
      exact Nat.mul_div_cancel _ (by norm_num)
    have hlt : (M1 + M2) / 10 < 2 ^ 56 := by
      have : (M1 + M2) / 10 ≤ 2 * maxMantissa / 10 := Nat.div_le_div_right hs
      omega
    rw [hdiv]
    rw [natVal_fromMantAndExp (by rw [← hdiv]; omega) (by omega) (by omega)]
    rw [← hdiv, hSm, ht]
    calc ma * 10 ^ (t + 1) / 10 * 10 ^ (E1 + 1 + 127).toNat
        = ma * 10 ^ t * 10 ^ (E1 + 1 + 127).toNat := by
          rw [pow_succ, ← Nat.mul_assoc, Nat.mul_div_cancel _ (by norm_num)]
      _ = ma * 10 ^ (ea + 127).toNat := by
          rw [Nat.mul_assoc, ← pow_add]
          congr 2
          omega
  · rw [if_neg hov]
    push_neg at hov
    rw [natVal_fromMantAndExp (by omega) (by omega) (by omega)]
    exact hv

/-- The carry case: the sum is `10*A + digit` one position below `E`;
`addWithExp` overflows (given `maxMantissa < 10*A`) and the `/10` drops the
digit, landing exactly on `(A, E)`. -/
theorem addWithExp_carry {M1 M2 A digit : ℕ} {E : ℤ}
    (hsum : M1 + M2 = 10 * A + digit) (hd : digit < 10)
    (hA : A ≤ maxMantissa) (hov : maxMantissa < 10 * A)
    (hE1 : -127 ≤ E - 1) (hE2 : E ≤ 128) :
    addWithExp M1 M2 (E - 1) = fromMantAndExp A E := by
  have hU : 10 * maxMantissa + 10 < U64 := by rw [maxMantissa_eq, U64]; norm_num
  have hmod : (M1 + M2) % U64 = M1 + M2 := Nat.mod_eq_of_lt (by omega)
  unfold addWithExp
  rw [hmod]
  rw [if_pos (by omega)]
  rw [if_neg (by have := maxExponent_eq; intro hc; omega)]
  rw [hsum]
  have hdiv : (10 * A + digit) / 10 = A := by
    rw [Nat.mul_add_div (by norm_num : (0:ℕ) < 10)]
    rw [Nat.div_eq_of_lt hd, Nat.add_zero]
  rw [hdiv]
  rw [show E - 1 + 1 = E by ring]

theorem mul_pow_div_pow (n p d : ℕ) : n * 10 ^ p / 10 ^ (p + d) = n / 10 ^ d := by
  rw [pow_add, Nat.mul_comm n]
  exact Nat.mul_div_mul_left _ _ (Nat.pos_pow_of_pos _ (by norm_num))

/-- The re-addition stage of the self-heal identity when the remainder
carries the larger exponent: whatever `Sub` floored off the low operand is
either re-floored identically or cancelled by the carry division of
`addWithExp`. -/
theorem add_stage_hi {x : Value} {mx' k A X : ℕ} {E : ℤ}
    (hxdec : mant x = mx' * 10 ^ k) (hx10 : mx' % 10 ≠ 0)
    (hXfloor : X = mant x * 10 ^ (exp x + 127).toNat / 10 ^ (E + 127).toNat)
    (hXA : X ≤ A) (hA : A ≤ maxMantissa) (hRpos : 0 < A - X)
    (hEex : exp x ≤ E) (hE128 : E ≤ 128)
    (hcases : X * 10 ^ (E + 127).toNat = mant x * 10 ^ (exp x + 127).toNat ∨
      (maxMantissa < 10 * A ∧ exp x + k < E)) :
    natVal (Add x (fromMantAndExp (A - X) E)) = A * 10 ^ (E + 127).toNat := by
  have hmax := maxMantissa_eq
  have hexg := exp_ge x
  have hxle : mant x ≤ maxMantissa := mant_le x
  have hx'le : mx' ≤ maxMantissa := by
    have h1 : mx' ≤ mx' * 10 ^ k :=
      Nat.le_mul_of_pos_right _ (Nat.pos_pow_of_pos _ (by norm_num))
    omega
  have hmx'p : 0 < mx' := by
    rcases Nat.eq_zero_or_pos mx' with h0 | h
    · exfalso
      rw [h0, Nat.zero_mul] at hxdec
      have := hXfloor
      rw [hxdec] at this
      simp at this
      omega
    · exact h
  have hRle : A - X ≤ maxMantissa := by omega
  have hRlt : A - X < 2 ^ 56 := by omega
  have hEge : -127 ≤ E := by omega
  have hrm : mant (fromMantAndExp (A - X) E) = A - X :=
    mant_fromMantAndExp hRlt (by omega) (by omega)
  have hre : exp (fromMantAndExp (A - X) E) = E :=
    exp_fromMantAndExp hRlt (by omega) (by omega)
  have hx0 : mant x ≠ 0 := by
    rw [hxdec]
    have := Nat.mul_pos hmx'p (Nat.pos_pow_of_pos k (by norm_num : 0 < 10))
    omega
  have hpowE : 0 < 10 ^ (E + 127).toNat := Nat.pos_pow_of_pos _ (by norm_num)
  unfold Add
  rw [if_neg hx0, hrm, hre, if_neg (by omega : ¬ A - X = 0)]
  by_cases hEeq : E = exp x
  · unfold toEqualExp
    rw [if_pos (by omega : E ≤ exp x)]
    unfold doToEqualExp
    rw [if_pos (by omega : exp x - E = 0)]
    dsimp only
    have hex : X * 10 ^ (E + 127).toNat = mant x * 10 ^ (exp x + 127).toNat := by
      rcases hcases with h | ⟨h1, h2⟩
      · exact h
      · omega
    have hXM : X = mant x := by
      rw [hEeq] at hex
      exact Nat.eq_of_mul_eq_mul_right (Nat.pos_pow_of_pos _ (by norm_num)) hex
    have hv : (mant x + (A - X)) * 10 ^ (exp x + 127).toNat =
        A * 10 ^ (E + 127).toNat := by
      rw [hEeq, show mant x + (A - X) = A by omega]
    exact @addWithExp_exact (mant x) (A - X) (exp x) A E (by omega) (by omega)
      (by omega) (by omega) hA hEge hE128 hv
  · have hElt : exp x < E := by omega
    unfold toEqualExp
    rw [if_neg (by omega : ¬ E ≤ exp x)]
    dsimp only
    rw [hxdec]
    rw [doToEqualExp_eval k hRpos hRle hx'le hx10 (by omega)]
    by_cases hJ1 : E ≤ exp x + k
    · rw [if_pos hJ1]
      dsimp only
      have hex : X * 10 ^ (E + 127).toNat = mx' * 10 ^ k *
          10 ^ (exp x + 127).toNat := by
        rcases hcases with h | ⟨h1, h2⟩
        · rw [← hxdec]
          exact h
        · omega
      have hlift : mx' * 10 ^ (k - (E - exp x).toNat) * 10 ^ (E + 127).toNat =
          mx' * 10 ^ k * 10 ^ (exp x + 127).toNat := by
        rw [Nat.mul_assoc, Nat.mul_assoc, ← pow_add, ← pow_add]
        congr 2
        omega
      have hXlift : X = mx' * 10 ^ (k - (E - exp x).toNat) :=
        Nat.eq_of_mul_eq_mul_right hpowE (by rw [hex, ← hlift])
      have hv : (mx' * 10 ^ (k - (E - exp x).toNat) + (A - X)) *
          10 ^ (E + 127).toNat = A * 10 ^ (E + 127).toNat := by
        rw [← hXlift, show X + (A - X) = A by omega]
      exact @addWithExp_exact (mx' * 10 ^ (k - (E - exp x).toNat)) (A - X) E
        A E (by omega) hEge hE128 (by omega) hA hEge hE128 hv
    · rw [if_neg hJ1]
      have hinex : maxMantissa < 10 * A ∧ exp x + k < E := by
        rcases hcases with h | h
        · exfalso
          rw [hxdec] at h
          have hsplit : (E + 127).toNat =
              (k + (exp x + 127).toNat) + (E - (exp x + k)).toNat := by omega
          rw [hsplit, pow_add, ← Nat.mul_assoc] at h
          have h2 : mx' * 10 ^ k * 10 ^ (exp x + 127).toNat =
              mx' * 10 ^ (k + (exp x + 127).toNat) := by
            rw [Nat.mul_assoc, ← pow_add]
          rw [h2] at h
          have h3 : X * 10 ^ (k + (exp x + 127).toNat) *
              10 ^ (E - (exp x + k)).toNat =
              X * 10 ^ (E - (exp x + k)).toNat *
                10 ^ (k + (exp x + 127).toNat) := by ring
          rw [h3] at h
          have h4 : X * 10 ^ (E - (exp x + k)).toNat = mx' :=
            Nat.eq_of_mul_eq_mul_right
              (Nat.pos_pow_of_pos _ (by norm_num)) h
          apply hx10
          rw [← h4, show (E - (exp x + k)).toNat =
            ((E - (exp x + k)).toNat - 1) + 1 by omega, pow_succ,
            ← Nat.mul_assoc]
          exact Nat.mul_mod_left _ 10
        · exact h
      obtain ⟨hov, hdpos⟩ := hinex
      have hXd : X = mx' / 10 ^ (E - (exp x + k)).toNat := by
        rw [hXfloor, hxdec, Nat.mul_assoc, ← pow_add,
          show (E + 127).toNat =
            k + (exp x + 127).toNat + (E - (exp x + k)).toNat by omega]
        exact mul_pow_div_pow _ _ _
      obtain ⟨hq1, hq2, hL16, hgrow⟩ := log10_maxDiv hRpos hRle
      by_cases hJ2 : E - (exp x + (k:ℤ)) ≤ (log10 (maxMantissa / (A - X)) : ℤ)
      · rw [if_pos hJ2]
        dsimp only
        have hd1 : (E - (exp x + k)).toNat = 1 := by
          by_contra hne
          have hd2 : 2 ≤ (E - (exp x + k)).toNat := by omega
          have hp : (100:ℕ) ≤ 10 ^ (E - (exp x + k)).toNat :=
            calc (100:ℕ) = 10 ^ 2 := by norm_num
              _ ≤ 10 ^ (E - (exp x + k)).toNat :=
                Nat.pow_le_pow_right (by norm_num) hd2
          have hRd : (A - X) * 10 ^ (E - (exp x + k)).toNat ≤ maxMantissa :=
            calc (A - X) * 10 ^ (E - (exp x + k)).toNat
                ≤ (A - X) * 10 ^ log10 (maxMantissa / (A - X)) :=
                  Nat.mul_le_mul_left _
                    (Nat.pow_le_pow_right (by norm_num) (by omega))
              _ ≤ maxMantissa := hgrow
          have hXle : X * 10 ^ (E - (exp x + k)).toNat ≤ mx' := by
            rw [hXd]
            exact Nat.div_mul_le_self _ _
          have hX100 : X * 100 ≤ X * 10 ^ (E - (exp x + k)).toNat :=
            Nat.mul_le_mul_left X hp
          have hR100 : (A - X) * 100 ≤ (A - X) * 10 ^ (E - (exp x + k)).toNat :=
            Nat.mul_le_mul_left (A - X) hp
          omega
        rw [hd1, pow_one]
        rw [show exp x + (k:ℤ) = E - 1 by omega]
        have hXd' : X = mx' / 10 := by rw [hXd, hd1, pow_one]
        have hsum : mx' + (A - X) * 10 = 10 * A + mx' % 10 := by
          have hdm := Nat.div_add_mod mx' 10
          omega
        rw [addWithExp_carry hsum (Nat.mod_lt _ (by norm_num)) hA hov
          (by omega) hE128]
        exact natVal_fromMantAndExp (by omega) hEge hE128
      · rw [if_neg hJ2]
        dsimp only
        push_neg at hJ2
        have hXY : X = mx' / 10 ^ (E - (exp x + (k:ℤ)) -
            (log10 (maxMantissa / (A - X)) : ℤ)).toNat /
            10 ^ log10 (maxMantissa / (A - X)) := by
          conv_lhs => rw [hXd]
          rw [Nat.div_div_eq_div_mul, ← pow_add]
          congr 2
          omega
        have hYle : mx' / 10 ^ (E - (exp x + (k:ℤ)) -
            (log10 (maxMantissa / (A - X)) : ℤ)).toNat ≤ maxMantissa :=
          le_trans (Nat.div_le_self _ _) hx'le
        have hXup := Nat.div_mul_le_self
          (mx' / 10 ^ (E - (exp x + (k:ℤ)) -
            (log10 (maxMantissa / (A - X)) : ℤ)).toNat)
          (10 ^ log10 (maxMantissa / (A - X)))
        rw [← hXY] at hXup
        have hLle : log10 (maxMantissa / (A - X)) ≤ 1 := by
          by_contra hL2
          push_neg at hL2
          have hp : (100:ℕ) ≤ 10 ^ log10 (maxMantissa / (A - X)) :=
            calc (100:ℕ) = 10 ^ 2 := by norm_num
              _ ≤ 10 ^ log10 (maxMantissa / (A - X)) :=
                Nat.pow_le_pow_right (by norm_num) hL2
          have hX100 : X * 100 ≤ X * 10 ^ log10 (maxMantissa / (A - X)) :=
            Nat.mul_le_mul_left X hp
          have hR100 : (A - X) * 100 ≤
              (A - X) * 10 ^ log10 (maxMantissa / (A - X)) :=
            Nat.mul_le_mul_left (A - X) hp
          omega
        have hL01 : log10 (maxMantissa / (A - X)) = 0 ∨
            log10 (maxMantissa / (A - X)) = 1 := by omega
        rcases hL01 with hL0 | hL1
        · rw [hL0]
          simp only [Nat.cast_zero, sub_zero, pow_zero, mul_one]
          rw [← hXd]
          exact @addWithExp_exact X (A - X) E A E (by omega) hEge hE128
            (by omega) hA hEge hE128
            (by rw [show X + (A - X) = A by omega])
        · rw [hL1]
          simp only [Nat.cast_one, pow_one]
          have hXY1 : X = mx' / 10 ^ (E - (exp x + (k:ℤ)) - 1).toNat / 10 := by
            rw [hXd, Nat.div_div_eq_div_mul, ← pow_succ]
            congr 2
            omega
          have hdm := Nat.div_add_mod (mx' / 10 ^ (E - (exp x + (k:ℤ)) - 1).toNat) 10
          have hsum : mx' / 10 ^ (E - (exp x + (k:ℤ)) - 1).toNat + (A - X) * 10 =
              10 * A + mx' / 10 ^ (E - (exp x + (k:ℤ)) - 1).toNat % 10 := by
            omega
          rw [addWithExp_carry hsum (Nat.mod_lt _ (by norm_num)) hA hov
            (by omega) hE128]
          exact natVal_fromMantAndExp (by omega) hEge hE128

/-- The re-addition stage of the self-heal identity when `x` carries the
larger exponent: the alignment toward `x` is always exact because `x`'s
mantissa already fit at exponent `E` during the subtraction, so the sum
reproduces `A` exactly. -/
theorem add_stage_lo {x : Value} {X A R : ℕ} {E : ℤ}
    (hmx : mant x ≠ 0)
    (hXeq : X = mant x * 10 ^ (exp x - E).toNat)
    (hsum : X + R = A)
    (hX : X ≤ maxMantissa)
    (hA : A ≤ maxMantissa)
    (hEle : E ≤ exp x) (hEge : -127 ≤ E) :
    natVal (Add x (fromMantAndExp R E)) = A * 10 ^ (E + 127).toNat := by
  subst hXeq
  have hmax := maxMantissa_eq
  have hexg := exp_ge x
  have hexl := exp_le x
  have hxle : mant x ≤ maxMantissa := mant_le x
  have hE128 : E ≤ 128 := le_trans hEle hexl
  have hRle : R ≤ maxMantissa := by omega
  have hrm : mant (fromMantAndExp R E) = R :=
    mant_fromMantAndExp (by omega) hEge hE128
  have hre : exp (fromMantAndExp R E) = E :=
    exp_fromMantAndExp (by omega) hEge hE128
  have hmxp : 0 < mant x := Nat.pos_of_ne_zero hmx
  rcases Nat.eq_zero_or_pos R with hR0 | hRpos
  · unfold Add
    rw [if_neg hmx, hrm, if_pos hR0]
    show mant x * 10 ^ (exp x + 127).toNat = _
    rw [← hsum, hR0, Nat.add_zero, Nat.mul_assoc, ← pow_add]
    congr 2
    omega
  · obtain ⟨R', j, hR10, hRdec⟩ := decomp_pow10 R hRpos
    have hR'le : R' ≤ maxMantissa := by
      have h1 : R' ≤ R' * 10 ^ j :=
        Nat.le_mul_of_pos_right _ (Nat.pos_pow_of_pos _ (by norm_num))
      omega
    unfold Add
    rw [if_neg hmx, hrm, hre, if_neg (by omega : ¬ R = 0)]
    unfold toEqualExp
    rw [if_pos hEle]
    rw [hRdec]
    rw [doToEqualExp_eval j hmxp hxle hR'le hR10 hEle]
    by_cases hK1 : exp x ≤ E + (j:ℤ)
    · rw [if_pos hK1]
      dsimp only
      have hjp : (exp x - E).toNat ≤ j := by omega
      have hv : (mant x + R' * 10 ^ (j - (exp x - E).toNat)) *
          10 ^ (exp x + 127).toNat = A * 10 ^ (E + 127).toNat := by
        rw [← hsum, hRdec, Nat.add_mul, Nat.add_mul]
        congr 1
        · rw [Nat.mul_assoc, ← pow_add]
          congr 2
          omega
        · rw [Nat.mul_assoc, Nat.mul_assoc, ← pow_add, ← pow_add]
          congr 2
          omega
      have hs : mant x + R' * 10 ^ (j - (exp x - E).toNat) ≤
          2 * maxMantissa := by
        have h1 : R' * 10 ^ (j - (exp x - E).toNat) ≤ R' * 10 ^ j :=
          Nat.mul_le_mul_left _
            (Nat.pow_le_pow_right (by norm_num) (by omega))
        omega
      exact @addWithExp_exact (mant x) (R' * 10 ^ (j - (exp x - E).toNat))
        (exp x) A E hs hexg hexl (by omega) hA hEge hE128 hv
    · rw [if_neg hK1]
      have hpL : (exp x - E).toNat ≤ log10 (maxMantissa / mant x) := by
        obtain ⟨hq1, hq2, hL16, hgrow⟩ := log10_maxDiv hmxp hxle
        have h10p : 10 ^ (exp x - E).toNat ≤ maxMantissa / mant x :=
          (Nat.le_div_iff_mul_le hmxp).mpr (by rw [Nat.mul_comm]; exact hX)
        by_contra hc
        push_neg at hc
        have h2 : 10 ^ (log10 (maxMantissa / mant x) + 1) ≤
            10 ^ (exp x - E).toNat :=
          Nat.pow_le_pow_right (by norm_num) (by omega)
        omega
      rw [if_pos (by omega : exp x - (E + (j:ℤ)) ≤
        (log10 (maxMantissa / mant x) : ℤ))]
      dsimp only
      have hv : (mant x * 10 ^ (exp x - (E + (j:ℤ))).toNat + R') *
          10 ^ (E + (j:ℤ) + 127).toNat = A * 10 ^ (E + 127).toNat := by
        rw [← hsum, hRdec, Nat.add_mul, Nat.add_mul]
        congr 1
        · rw [Nat.mul_assoc, Nat.mul_assoc, ← pow_add, ← pow_add]
          congr 2
          omega
        · rw [Nat.mul_assoc, ← pow_add]
          congr 2
          omega
      have hs : mant x * 10 ^ (exp x - (E + (j:ℤ))).toNat + R' ≤
          2 * maxMantissa := by
        have h1 : mant x * 10 ^ (exp x - (E + (j:ℤ))).toNat ≤
            mant x * 10 ^ (exp x - E).toNat :=
          Nat.mul_le_mul_left _
            (Nat.pow_le_pow_right (by norm_num) (by omega))
        omega
      exact @addWithExp_exact (mant x * 10 ^ (exp x - (E + (j:ℤ))).toNat) R'
        (E + (j:ℤ)) A E hs (by omega) (by omega) (by omega) hA hEge hE128 hv

/-- Case I of the self-heal identity: the remainder sits at an exponent at
least that of `x`.  Exactness of the minuend side plus the floor form of
`X` recombine to `natVal a`. -/
theorem heal_hi {x a : Value} {mx' k A X : ℕ} {E : ℤ}
    (h : natVal x ≤ natVal a)
    (hxdec : mant x = mx' * 10 ^ k) (hx10 : mx' % 10 ≠ 0)
    (hXfl : X = mant x * 10 ^ (exp x + 127).toNat / 10 ^ (E + 127).toNat)
    (hAex : A * 10 ^ (E + 127).toNat = natVal a)
    (hA : A ≤ maxMantissa)
    (hEex : exp x ≤ E) (hE128 : E ≤ 128)
    (hcases : X * 10 ^ (E + 127).toNat = mant x * 10 ^ (exp x + 127).toNat ∨
      (maxMantissa < 10 * A ∧ exp x + k < E)) :
    natVal (Add x (subWithExp A X E).1) = natVal a := by
  have hmax := maxMantissa_eq
  have hxeg := exp_ge x
  have hEge : -127 ≤ E := le_trans hxeg hEex
  have hD : 0 < 10 ^ (E + 127).toNat := Nat.pos_pow_of_pos _ (by norm_num)
  have hx0 : mant x ≠ 0 := by
    rw [hxdec]
    intro hc
    rcases Nat.mul_eq_zero.mp hc with hc1 | hc1
    · rw [hc1] at hx10
      exact hx10 rfl
    · exact absurd hc1 (Nat.pos_pow_of_pos k (by norm_num)).ne'
  have hxv : natVal x = mant x * 10 ^ (exp x + 127).toNat := rfl
  have hXA : X ≤ A := by
    have h1 : X ≤ natVal a / 10 ^ (E + 127).toNat := by
      rw [hXfl, ← hxv]
      exact Nat.div_le_div_right h
    rw [← hAex, Nat.mul_div_cancel _ hD] at h1
    exact h1
  unfold subWithExp
  rw [if_pos hXA]
  dsimp only
  rcases Nat.eq_or_lt_of_le hXA with heq | hlt
  · have hR0 : A - X = 0 := by omega
    have hrm : mant (fromMantAndExp (A - X) E) = A - X :=
      mant_fromMantAndExp (by omega) hEge hE128
    unfold Add
    rw [if_neg hx0, hrm, if_pos hR0]
    have hXD : X * 10 ^ (E + 127).toNat ≤ natVal x := by
      rw [hXfl, ← hxv]
      exact Nat.div_mul_le_self _ _
    rw [heq, hAex] at hXD
    omega
  · rw [← hAex]
    exact add_stage_hi hxdec hx10 hXfl hXA hA (by omega) hEex hE128 hcases

/-- Case II of the self-heal identity: the remainder sits at an exponent
at most that of `x`, and the entire subtraction was exact. -/
theorem heal_lo {x a : Value} {A X : ℕ} {E : ℤ}
    (h : natVal x ≤ natVal a)
    (hmx : mant x ≠ 0)
    (hXeq : X = mant x * 10 ^ (exp x - E).toNat)
    (hAex : A * 10 ^ (E + 127).toNat = natVal a)
    (hXle : X ≤ maxMantissa)
    (hA : A ≤ maxMantissa)
    (hEle : E ≤ exp x) (hEge : -127 ≤ E) :
    natVal (Add x (subWithExp A X E).1) = natVal a := by
  have hxeg := exp_ge x
  have hD : 0 < 10 ^ (E + 127).toNat := Nat.pos_pow_of_pos _ (by norm_num)
  have hXex : X * 10 ^ (E + 127).toNat = natVal x := by
    rw [hXeq]
    show _ = mant x * 10 ^ (exp x + 127).toNat
    rw [Nat.mul_assoc, ← pow_add]
    congr 2
    omega
  have hXA : X ≤ A :=
    Nat.le_of_mul_le_mul_right (by rw [hXex, hAex]; exact h) hD
  unfold subWithExp
  rw [if_pos hXA]
  dsimp only
  rw [← hAex]
  exact add_stage_lo hmx hXeq (by omega) hXle hA hEle hEge

/-- Core of the self-heal identity: adding back the remainder of a
subtraction recovers the minuend's numeric value exactly. -/
theorem natVal_add_sub (a x : Value) (h : natVal x ≤ natVal a) :
    natVal (Add x (Sub a x).1) = natVal a := by
  have hmax := maxMantissa_eq
  by_cases hx0 : mant x = 0
  · unfold Sub
    rw [if_pos hx0]
    by_cases ha0 : mant a = 0
    · rw [if_pos ha0]
      dsimp only
      unfold Add
      rw [if_pos hx0, if_pos (show mant zero = 0 from rfl)]
      rw [natVal_zero]
      show 0 = mant a * 10 ^ (exp a + 127).toNat
      rw [ha0, Nat.zero_mul]
    · rw [if_neg ha0]
      dsimp only
      unfold Add
      rw [if_pos hx0, if_neg ha0]
  · have hmxp : 0 < mant x := Nat.pos_of_ne_zero hx0
    have hxvp : 0 < natVal x :=
      Nat.mul_pos hmxp (Nat.pos_pow_of_pos _ (by norm_num))
    have ha0 : mant a ≠ 0 := by
      intro hc
      have h0 : natVal a = 0 := by
        show mant a * 10 ^ (exp a + 127).toNat = 0
        rw [hc, Nat.zero_mul]
      omega
    have hmap : 0 < mant a := Nat.pos_of_ne_zero ha0
    have hale := mant_le a
    have hxle := mant_le x
    have haeg := exp_ge a
    have hael := exp_le a
    have hxeg := exp_ge x
    have hxel := exp_le x
    have hD' : ∀ z : ℤ, 0 < 10 ^ (z + 127).toNat :=
      fun z => Nat.pos_pow_of_pos _ (by norm_num)
    unfold Sub
    rw [if_neg hx0, if_neg ha0]
    unfold toEqualExp
    by_cases hor : exp x ≤ exp a
    · -- Case I: `a` has the larger exponent.
      rw [if_pos hor]
      obtain ⟨mx', k, hx10, hxdec⟩ := decomp_pow10 (mant x) hmxp
      have hx'le : mx' ≤ maxMantissa := by
        have h1 : mx' ≤ mx' * 10 ^ k :=
          Nat.le_mul_of_pos_right _ (Nat.pos_pow_of_pos _ (by norm_num))
        omega
      rw [hxdec]
      rw [doToEqualExp_eval k hmap hale hx'le hx10 hor]
      by_cases hI1 : exp a ≤ exp x + (k:ℤ)
      · rw [if_pos hI1]
        dsimp only
        have hexact : mx' * 10 ^ (k - (exp a - exp x).toNat) *
            10 ^ (exp a + 127).toNat =
            mant x * 10 ^ (exp x + 127).toNat := by
          rw [hxdec, Nat.mul_assoc, Nat.mul_assoc, ← pow_add, ← pow_add]
          congr 2
          omega
        refine heal_hi h hxdec hx10 ?_ rfl hale hor hael (Or.inl hexact)
        rw [← hexact, Nat.mul_div_cancel _ (hD' (exp a))]
      · rw [if_neg hI1]
        by_cases hI2 : exp a - (exp x + (k:ℤ)) ≤
            (log10 (maxMantissa / mant a) : ℤ)
        · rw [if_pos hI2]
          dsimp only
          obtain ⟨hq1, hq2, hL16, hgrow⟩ := log10_maxDiv hmap hale
          have hexact : mx' * 10 ^ (exp x + (k:ℤ) + 127).toNat =
              mant x * 10 ^ (exp x + 127).toNat := by
            rw [hxdec, Nat.mul_assoc, ← pow_add]
            congr 2
            omega
          have hAex : mant a * 10 ^ (exp a - (exp x + (k:ℤ))).toNat *
              10 ^ (exp x + (k:ℤ) + 127).toNat = natVal a := by
            show _ = mant a * 10 ^ (exp a + 127).toNat
            rw [Nat.mul_assoc, ← pow_add]
            congr 2
            omega
          have hAle : mant a * 10 ^ (exp a - (exp x + (k:ℤ))).toNat ≤
              maxMantissa :=
            calc mant a * 10 ^ (exp a - (exp x + (k:ℤ))).toNat
                ≤ mant a * 10 ^ log10 (maxMantissa / mant a) :=
                  Nat.mul_le_mul_left _
                    (Nat.pow_le_pow_right (by norm_num) (by omega))
              _ ≤ maxMantissa := hgrow
          refine heal_hi h hxdec hx10 ?_ hAex hAle (by omega) (by omega)
            (Or.inl hexact)
          rw [← hexact, Nat.mul_div_cancel _ (hD' (exp x + (k:ℤ)))]
        · rw [if_neg hI2]
          dsimp only
          obtain ⟨hq1, hq2, hL16, hgrow⟩ := log10_maxDiv hmap hale
          have hAex : mant a * 10 ^ log10 (maxMantissa / mant a) *
              10 ^ (exp a - (log10 (maxMantissa / mant a) : ℤ) + 127).toNat =
              natVal a := by
            show _ = mant a * 10 ^ (exp a + 127).toNat
            rw [Nat.mul_assoc, ← pow_add]
            congr 2
            omega
          have hXfl : mx' / 10 ^ (exp a - (exp x + (k:ℤ)) -
              (log10 (maxMantissa / mant a) : ℤ)).toNat =
              mant x * 10 ^ (exp x + 127).toNat /
                10 ^ (exp a - (log10 (maxMantissa / mant a) : ℤ) +
                  127).toNat := by
            rw [hxdec, Nat.mul_assoc, ← pow_add,
              show (exp a - (log10 (maxMantissa / mant a) : ℤ) + 127).toNat =
                (k + (exp x + 127).toNat) +
                (exp a - (exp x + (k:ℤ)) -
                  (log10 (maxMantissa / mant a) : ℤ)).toNat by omega]
            exact (mul_pow_div_pow _ _ _).symm
          have hov : maxMantissa <
              10 * (mant a * 10 ^ log10 (maxMantissa / mant a)) := by
            have hdiv : maxMantissa <
                10 ^ (log10 (maxMantissa / mant a) + 1) * mant a :=
              (Nat.div_lt_iff_lt_mul hmap).mp hq2
            have hcomm : 10 ^ (log10 (maxMantissa / mant a) + 1) * mant a =
                10 * (mant a * 10 ^ log10 (maxMantissa / mant a)) := by
              rw [pow_succ]
              ring
            omega
          refine heal_hi h hxdec hx10 hXfl hAex hgrow (by omega) (by omega)
            (Or.inr ⟨hov, by omega⟩)
    · -- Case II: `x` has the larger exponent; both sides align exactly.
      rw [if_neg hor]
      obtain ⟨ma', t, ha10, hadec⟩ := decomp_pow10 (mant a) hmap
      have hma'le : ma' ≤ maxMantissa := by
        have h1 : ma' ≤ ma' * 10 ^ t :=
          Nat.le_mul_of_pos_right _ (Nat.pos_pow_of_pos _ (by norm_num))
        omega
      have hble : mant x * 10 ^ (exp x - exp a).toNat ≤ mant a := by
        have h1 : mant x * 10 ^ (exp x - exp a).toNat *
            10 ^ (exp a + 127).toNat ≤ mant a * 10 ^ (exp a + 127).toNat := by
          have h2 : mant x * 10 ^ (exp x - exp a).toNat *
              10 ^ (exp a + 127).toNat =
              mant x * 10 ^ (exp x + 127).toNat := by
            rw [Nat.mul_assoc, ← pow_add]
            congr 2
            omega
          rw [h2]
          exact h
        exact Nat.le_of_mul_le_mul_right h1 (hD' (exp a))
      rw [hadec]
      rw [doToEqualExp_eval t hmxp hxle hma'le ha10 (by omega)]
      by_cases hJ1 : exp x ≤ exp a + (t:ℤ)
      · rw [if_pos hJ1]
        dsimp only
        have hAex : ma' * 10 ^ (t - (exp x - exp a).toNat) *
            10 ^ (exp x + 127).toNat = natVal a := by
          show _ = mant a * 10 ^ (exp a + 127).toNat
          rw [hadec, Nat.mul_assoc, Nat.mul_assoc, ← pow_add, ← pow_add]
          congr 2
          omega
        have hAle : ma' * 10 ^ (t - (exp x - exp a).toNat) ≤ maxMantissa := by
          have h1 : ma' * 10 ^ (t - (exp x - exp a).toNat) ≤ ma' * 10 ^ t :=
            Nat.mul_le_mul_left _
              (Nat.pow_le_pow_right (by norm_num) (by omega))
          omega
        refine heal_lo h hx0 ?_ hAex hxle hAle (le_refl _) hxeg
        rw [show (exp x - exp x).toNat = 0 by omega, pow_zero, Nat.mul_one]
      · rw [if_neg hJ1]
        by_cases hJ2 : exp x - (exp a + (t:ℤ)) ≤
            (log10 (maxMantissa / mant x) : ℤ)
        · rw [if_pos hJ2]
          dsimp only
          obtain ⟨hq1, hq2, hL16, hgrow⟩ := log10_maxDiv hmxp hxle
          have hAex : ma' * 10 ^ (exp a + (t:ℤ) + 127).toNat = natVal a := by
            show _ = mant a * 10 ^ (exp a + 127).toNat
            rw [hadec, Nat.mul_assoc, ← pow_add]
            congr 2
            omega
          have hXle : mant x * 10 ^ (exp x - (exp a + (t:ℤ))).toNat ≤
              maxMantissa :=
            calc mant x * 10 ^ (exp x - (exp a + (t:ℤ))).toNat
                ≤ mant x * 10 ^ log10 (maxMantissa / mant x) :=
                  Nat.mul_le_mul_left _
                    (Nat.pow_le_pow_right (by norm_num) (by omega))
              _ ≤ maxMantissa := hgrow
          exact heal_lo h hx0 rfl hAex hXle hma'le (by omega) (by omega)
        · exfalso
          obtain ⟨hq1, hq2, hL16, hgrow⟩ := log10_maxDiv hmxp hxle
          have h10p : 10 ^ (exp x - exp a).toNat ≤ maxMantissa / mant x :=
            (Nat.le_div_iff_mul_le hmxp).mpr
              (by rw [Nat.mul_comm]; exact le_trans hble hale)
          have hpl : (exp x - exp a).toNat ≤
              log10 (maxMantissa / mant x) := by
            by_contra hc
            push_neg at hc
            have h2 : 10 ^ (log10 (maxMantissa / mant x) + 1) ≤
                10 ^ (exp x - exp a).toNat :=
              Nat.pow_le_pow_right (by norm_num) (by omega)
            omega
          omega

/-- C4 counterexample: with `a = 1e-127`, `b = 10` and precision `0`,
`DivMod` hits the exact-division branch with quotient `1e-128`, which
underflows below the minimum exponent inside `adjustMantExp` and collapses
to `Zero`; the remainder of that branch is `Zero` as well, so
`b.Mul(q).Add(r).Normalized()` is `Zero` while `a.Normalized()` is
`1e-127`: the division identity fails. -/
theorem divmod_identity_fails :
    DivMod (fromMantAndExp 1 (-127)) (fromMantAndExp 1 1) 0 =
      some (zero, zero) ∧
    Normalized (Add (Mul (fromMantAndExp 1 1) zero) zero) ≠
      Normalized (fromMantAndExp 1 (-127)) := by
  constructor
  · rfl
  · decide

/-- C4 (amended): the self-heal property that the spec's remainder
construction actually guarantees: for all Values `x` and `a` with
`natVal x ≤ natVal a`, adding `x` back to the remainder `a.Sub(x)`
normalizes bit-identically to `a.Normalized()`.  Whenever the quotient
satisfies `b.Mul(q) ≤ a` numerically, the division identity
`b.Mul(q).Add(r).Normalized() == a.Normalized()` therefore holds; it
fails only when the quotient itself collapses, as in the recorded
counterexample. -/
theorem sub_add_self_heal (a x : Value) (h : natVal x ≤ natVal a) :
    Normalized (Add x (Sub a x).1) = Normalized a :=
  Normalized_eq_of_natVal_eq (natVal_add_sub a x h)

theorem sub_add_self_heal_witness :
    natVal (fromMantAndExp 1 0) ≤ natVal (fromMantAndExp 3 0) ∧
    Normalized (Add (fromMantAndExp 1 0)
      (Sub (fromMantAndExp 3 0) (fromMantAndExp 1 0)).1) =
      Normalized (fromMantAndExp 3 0) :=
  ⟨by decide, sub_add_self_heal (fromMantAndExp 3 0) (fromMantAndExp 1 0)
    (by decide)⟩

end Fixed
